import Mathlib

/-!
Shallow embedding of the `smawk` crate (`src/lib.rs`): brute-force,
divide-and-conquer and SMAWK row/column minima, the online column-minima
engine, and the Monge-property verifier.

Rust panics are modelled by the `Except PanicKind` monad: `lane_minimum`'s
`expect("empty lane in matrix")` becomes `.error .emptyLane`, slice-index
panics become `.error .indexOOB`, and the two `assert!`s of the
`online_column_minima` accessor macro become `.error .assertDiag` /
`.error .assertBounds`.  Machine integers (the `PrimInt` bound of
`is_monge`) are modelled as mathematical integers together with an
explicit signedness flag and bit width.
-/

namespace Smawk

/-- The distinct panic sites of the crate. -/
inductive PanicKind where
  | emptyLane    -- "empty lane in matrix" (lane_minimum's expect)
  | indexOOB     -- slice/vec index out of bounds
  | assertDiag   -- "(i, j) not above diagonal"
  | assertBounds -- "(i, j) out of bounds"
deriving DecidableEq, Repr

/-- An `ndarray::Array2`: `m` rows, `n` columns, entries given by a total
function (entries outside the `m ✕ n` range are never inspected). -/
structure Matrix2 (α : Type) where
  m : Nat
  n : Nat
  f : Nat → Nat → α

variable {α : Type} [LinearOrder α]

/-- Strict lexicographic order on `(value, index)` pairs, as used by Rust's
derived `Ord` on tuples. -/
def lexLt (p q : α × Nat) : Prop := p.1 < q.1 ∨ (p.1 = q.1 ∧ p.2 < q.2)

instance (p q : α × Nat) : Decidable (lexLt p q) := by unfold lexLt; infer_instance

/-- Weak lexicographic comparison of `(value, index)` pairs. -/
def lexLe (p q : α × Nat) : Prop := p = q ∨ lexLt p q

/-- `std::cmp::min(p, q)` on `(T, usize)` tuples: returns the first argument
when the two compare equal. -/
def pairMin (p q : α × Nat) : α × Nat := if lexLt q p then q else p

/-- `lane_minimum`: scan of one lane (row or column) of length `len` with
entries `g 0, …, g (len-1)`; `iter().enumerate().min_by_key(|&(idx, elem)|
(elem, idx))` returns the index of the left-most minimum (the key is the
`(value, index)` pair compared lexicographically, and `min_by_key` keeps the
first of equal keys).  An empty lane panics. -/
def lane_minimum (len : Nat) (g : Nat → α) : Except PanicKind Nat :=
  match List.range len with
  | [] => .error .emptyLane
  | i0 :: rest => .ok (rest.foldl (fun best i =>
      if lexLt (g i, i) (g best, best) then i else best) i0)

/-- `brute_force_row_minima`. -/
def brute_force_row_minima (M : Matrix2 α) : Except PanicKind (List Nat) :=
  (List.range M.m).mapM fun i => lane_minimum M.n (fun j => M.f i j)

/-- `brute_force_column_minima`. -/
def brute_force_column_minima (M : Matrix2 α) : Except PanicKind (List Nat) :=
  (List.range M.n).mapM fun j => lane_minimum M.m (fun i => M.f i j)

/-- The `Direction` enum. -/
inductive Direction where
  | Row
  | Column

/-- Extent of a view along the minimised axis (the recursion measure of
`recursive_inner`). -/
def dirLen : Direction → Nat → Nat → Nat
  | .Row, m, _ => m
  | .Column, _, n => n

/-- `recursive_inner` monomorphized at `Direction::Row` (the compiler
generates separate code per direction; the generic function is
`recursive_inner` below).  It operates on the sub-view with `m` rows and `n`
columns whose entry `(i, j)` is `f i j`.  The `minima` argument is the
mutable slice the source writes into (its length equals the view's extent
along the minimised axis in every reachable call); writes into the disjoint
slices `minima[..mid]`, `minima[mid]` and `minima[mid + 1..]` are modelled
by `take`/`drop` and reassembly. -/
def recursive_inner_row (m n : Nat) (f : Nat → Nat → α)
    (offset : Nat) (minima : List Nat) : Except PanicKind (List Nat) :=
  if m * n = 0 then .ok minima
  else
    let mid := m / 2
    match lane_minimum n (fun j => f mid j) with
    | .error e => .error e
    | .ok min_idx =>
      if mid = 0 then .ok (minima.set 0 (offset + min_idx))
      else
        match recursive_inner_row mid (min_idx + 1) f offset (minima.take mid) with
        | .error e => .error e
        | .ok top =>
          match recursive_inner_row (m - (mid + 1)) (n - min_idx)
              (fun i j => f (mid + 1 + i) (min_idx + j)) (offset + min_idx)
              (minima.drop (mid + 1)) with
          | .error e => .error e
          | .ok bot => .ok (top ++ (offset + min_idx) :: bot)
termination_by m
decreasing_by
  all_goals simp_all [Nat.mul_eq_zero]
  all_goals omega

/-- `recursive_inner` monomorphized at `Direction::Column`. -/
def recursive_inner_col (m n : Nat) (f : Nat → Nat → α)
    (offset : Nat) (minima : List Nat) : Except PanicKind (List Nat) :=
  if m * n = 0 then .ok minima
  else
    let mid := n / 2
    match lane_minimum m (fun i => f i mid) with
    | .error e => .error e
    | .ok min_idx =>
      if mid = 0 then .ok (minima.set 0 (offset + min_idx))
      else
        match recursive_inner_col (min_idx + 1) mid f offset (minima.take mid) with
        | .error e => .error e
        | .ok top =>
          match recursive_inner_col (m - min_idx) (n - (mid + 1))
              (fun i j => f (min_idx + i) (mid + 1 + j)) (offset + min_idx)
              (minima.drop (mid + 1)) with
          | .error e => .error e
          | .ok bot => .ok (top ++ (offset + min_idx) :: bot)
termination_by n
decreasing_by
  all_goals simp_all [Nat.mul_eq_zero]
  all_goals omega

/-- `recursive_inner`: dispatch on the direction. -/
def recursive_inner (dir : Direction) (m n : Nat) (f : Nat → Nat → α)
    (offset : Nat) (minima : List Nat) : Except PanicKind (List Nat) :=
  match dir with
  | .Row => recursive_inner_row m n f offset minima
  | .Column => recursive_inner_col m n f offset minima

/-- `recursive_row_minima`. -/
def recursive_row_minima (M : Matrix2 α) : Except PanicKind (List Nat) :=
  recursive_inner .Row M.m M.n M.f 0 (List.replicate M.m 0)

/-- `recursive_column_minima`. -/
def recursive_column_minima (M : Matrix2 α) : Except PanicKind (List Nat) :=
  recursive_inner .Column M.m M.n M.f 0 (List.replicate M.n 0)

/-- The inner `while` loop of the reduce phase of `smawk_inner`: pop rows
from the top of `stack` (the list's last element) while the top's value in
the column aligned with the stack depth is strictly greater than row `r`'s
value there.  The index `cols[stack.len() - 1]` is always in bounds (the
stack never outgrows `cols`, see `smawkReduce_length_le`), so `getD` never
falls back to its default. -/
def smawkPops (f : Nat → Nat → Except PanicKind α) (cols : List Nat) (r : Nat) :
    List Nat → Except PanicKind (List Nat)
  | [] => .ok []
  | s :: ss =>
    let c := cols.getD ((s :: ss).length - 1) 0
    match f ((s :: ss).getLastD 0) c, f r c with
    | .error e, _ => .error e
    | .ok _, .error e => .error e
    | .ok a, .ok b =>
      if a > b then smawkPops f cols r (s :: ss).dropLast else .ok (s :: ss)
termination_by stack => stack.length
decreasing_by simp

/-- The reduce phase of `smawk_inner`: scan the candidate rows in order,
popping dominated rows and pushing the new row unless the stack already has
one entry per column. -/
def smawkReduce (f : Nat → Nat → Except PanicKind α) (cols : List Nat)
    (rows : List Nat) : Except PanicKind (List Nat) :=
  rows.foldlM (fun stack r => do
    let s ← smawkPops f cols r stack
    if s.length ≠ cols.length then pure (s ++ [r]) else pure s) []

/-- The inner `while row != last_row` scan of the conquer phase. -/
def smawkScan (f : Nat → Nat → Except PanicKind α) (rows : List Nat)
    (col last_row : Nat) (r row : Nat) (pair : α × Nat) :
    Except PanicKind (Nat × (α × Nat)) :=
  if row = last_row then .ok (r, pair)
  else
    match h : rows.get? (r + 1) with
    | none => .error .indexOOB
    | some row' =>
      match f row' col with
      | .error e => .error e
      | .ok v => smawkScan f rows col last_row (r + 1) row' (pairMin pair (v, row'))
termination_by rows.length - r
decreasing_by
  obtain ⟨hlt, -⟩ := List.get?_eq_some.mp h
  omega

/-- The conquer phase of `smawk_inner`: the `for (c, &col) in
cols.iter().enumerate().filter(|(c, _)| c % 2 == 0)` loop; `evens` is that
filtered enumeration and `r` the scan position threaded through it. -/
def smawkConquer (f : Nat → Nat → Except PanicKind α) (rows cols : List Nat) :
    List (Nat × Nat) → Nat → List Nat → Except PanicKind (List Nat)
  | [], _, minima => .ok minima
  | (c, col) :: evens, r, minima =>
    match rows.get? r with
    | none => .error .indexOOB
    | some row =>
      let lastRes : Except PanicKind Nat :=
        if c = cols.length - 1 then
          match rows.getLast? with
          | none => .error .indexOOB
          | some lr => .ok lr
        else
          match cols.get? (c + 1) with
          | none => .error .indexOOB
          | some c' =>
            match minima.get? c' with
            | none => .error .indexOOB
            | some lr => .ok lr
      match lastRes with
      | .error e => .error e
      | .ok last_row =>
        match f row col with
        | .error e => .error e
        | .ok v =>
          match smawkScan f rows col last_row r row (v, row) with
          | .error e => .error e
          | .ok (r', pair) =>
            if col < minima.length then
              smawkConquer f rows cols evens r' (minima.set col pair.2)
            else .error .indexOOB

/-- The odd-indexed columns (`idx % 2 == 1` of the enumeration). -/
def oddCols (cols : List Nat) : List Nat :=
  ((cols.enum.filter fun p => p.1 % 2 = 1).map Prod.snd)

/-- `smawk_inner`: reduce, recurse on the odd columns, then fill in the even
columns. -/
def smawk_inner (f : Nat → Nat → Except PanicKind α) (rows cols : List Nat)
    (minima : List Nat) : Except PanicKind (List Nat) :=
  if hc : cols.isEmpty then .ok minima
  else
    match smawkReduce f cols rows with
    | .error e => .error e
    | .ok stack =>
      match smawk_inner f stack (oddCols cols) minima with
      | .error e => .error e
      | .ok minima =>
        smawkConquer f stack cols (cols.enum.filter fun p => p.1 % 2 = 0) 0 minima
termination_by cols.length
decreasing_by
  rcases cols with - | ⟨c, cs⟩
  · simp at hc
  · have hle : ((cs.enumFrom 1).filter fun p => p.1 % 2 = 1).length ≤ cs.length :=
      le_trans (List.length_filter_le _ _) (le_of_eq List.enumFrom_length)
    simp only [oddCols, List.enum_cons, List.filter_cons, List.length_map, List.length_cons]
    norm_num
    omega

/-- `smawk_row_minima`: row minima via `smawk_inner` on the transposed
accessor `|j, i| matrix[[i, j]]`. -/
def smawk_row_minima (M : Matrix2 α) : Except PanicKind (List Nat) :=
  smawk_inner (fun j i => .ok (M.f i j)) (List.range M.n) (List.range M.m)
    (List.replicate M.m 0)

/-- `smawk_column_minima`. -/
def smawk_column_minima (M : Matrix2 α) : Except PanicKind (List Nat) :=
  smawk_inner (fun i j => .ok (M.f i j)) (List.range M.m) (List.range M.n)
    (List.replicate M.n 0)

/-- The `m!` macro of `online_column_minima`: assert `i < j`, assert that
both indices are below `size`, then hand the accessor the slice
`&result[..finished + 1]` of already-computed minima. -/
def onlineM (acc : List (Nat × α) → Nat → Nat → α) (size : Nat)
    (result : List (Nat × α)) (finished i j : Nat) : Except PanicKind α :=
  if i < j then
    if i < size ∧ j < size then .ok (acc (result.take (finished + 1)) i j)
    else .error .assertBounds
  else .error .assertDiag

/-- The body of case 1 of `online_column_minima`'s loop after the
`smawk_inner` call: `for col in cols { … }`, merging the freshly computed
minima into `result` (push new entries, overwrite an existing entry only
when the new value is strictly smaller). -/
def onlineMergeCols (acc : List (Nat × α) → Nat → Nat → α) (size finished : Nat)
    (minima : List Nat) (cols : List Nat) (result : List (Nat × α)) :
    Except PanicKind (List (Nat × α)) :=
  match cols with
  | [] => .ok result
  | col :: cols =>
    match minima.get? col with
    | none => .error .indexOOB
    | some row =>
      match onlineM acc size result finished row col with
      | .error e => .error e
      | .ok v =>
        if col ≥ result.length then
          onlineMergeCols acc size finished minima cols (result ++ [(row, v)])
        else
          match result.get? col with
          | none => .error .indexOOB
          | some p =>
            if v < p.2 then
              onlineMergeCols acc size finished minima cols (result.set col (row, v))
            else onlineMergeCols acc size finished minima cols result

/-- The `while finished < size - 1` loop of `online_column_minima`.
(For `size = 0` the Rust loop bound `size - 1` underflows `usize`; all
claims about the engine assume `size ≥ 1`, where `Nat` subtraction agrees
with the source.) -/
def onlineLoop (acc : List (Nat × α) → Nat → Nat → α) (size : Nat)
    (result : List (Nat × α)) (finished base tentative : Nat) :
    Except PanicKind (List (Nat × α)) :=
  if h : finished < size - 1 then
    let i := finished + 1
    if i > tentative then
      -- First case: compute a new tentative value via smawk_inner.
      let rows := List.range' base (finished + 1 - base)
      let tentative := min (finished + rows.length) (size - 1)
      let cols := List.range' (finished + 1) (tentative + 1 - (finished + 1))
      match smawk_inner (fun i j => onlineM acc size result finished i j) rows cols
          (List.replicate (tentative + 1) 0) with
      | .error e => .error e
      | .ok minima =>
        match onlineMergeCols acc size finished minima cols result with
        | .error e => .error e
        | .ok result => onlineLoop acc size result i base tentative
    else
      -- Second case: the new column minimum is on the diagonal.
      match onlineM acc size result finished (i - 1) i with
      | .error e => .error e
      | .ok diag =>
        match result.get? i with
        | none => .error .indexOOB
        | some pi =>
          if diag < pi.2 then
            onlineLoop acc size (result.set i (i - 1, diag)) i (i - 1) i
          else
            -- Third case: row i-1 supplies no new column minimum.
            match onlineM acc size result finished (i - 1) tentative with
            | .error e => .error e
            | .ok v =>
              match result.get? tentative with
              | none => .error .indexOOB
              | some pt =>
                if v ≥ pt.2 then onlineLoop acc size result i base tentative
                else
                  -- Fourth case: a new column minimum at tentative.
                  onlineLoop acc size result i (i - 1) i
  else .ok result
termination_by size - finished
decreasing_by all_goals omega

/-- `online_column_minima`. -/
def online_column_minima (initial : α) (size : Nat)
    (acc : List (Nat × α) → Nat → Nat → α) : Except PanicKind (List (Nat × α)) :=
  onlineLoop acc size [(0, initial)] 0 0 0

/-! ### The Monge verifier

`is_monge` is generic over `T: PrimInt + WrappingAdd`.  A machine-integer
type is modelled by a signedness flag and a bit width: its values are the
mathematical integers in `[intMin, intMax]`, `checked_add` detects results
outside that range, and `wrapping_add` reduces modulo `2 ^ bits`. -/

/-- Smallest value of the modelled machine-integer type. -/
def intMin (signed : Bool) (bits : Nat) : Int :=
  if signed then -(2 ^ (bits - 1) : Int) else 0

/-- Largest value of the modelled machine-integer type. -/
def intMax (signed : Bool) (bits : Nat) : Int :=
  if signed then (2 ^ (bits - 1) : Int) - 1 else (2 ^ bits : Int) - 1

/-- Representability in the modelled machine-integer type. -/
def inRange (signed : Bool) (bits : Nat) (v : Int) : Prop :=
  intMin signed bits ≤ v ∧ v ≤ intMax signed bits

instance (signed : Bool) (bits : Nat) (v : Int) : Decidable (inRange signed bits v) := by
  unfold inRange; infer_instance

/-- `checked_add`: `some (x + y)` when the sum is representable, else `none`. -/
def checked_add (signed : Bool) (bits : Nat) (x y : Int) : Option Int :=
  if inRange signed bits (x + y) then some (x + y) else none

/-- `wrapping_add`: two's-complement wrap-around, i.e. the representative of
`x + y` modulo `2 ^ bits` lying in `[intMin, intMax]`. -/
def wrapping_add (signed : Bool) (bits : Nat) (x y : Int) : Int :=
  intMin signed bits + (x + y - intMin signed bits) % (2 ^ bits : Int)

/-- The check `is_monge` performs on one 2✕2 window, with `x` the top-left,
`y` the bottom-right, `z` the top-right and `w` the bottom-left entry. -/
def mongeCheck (signed : Bool) (bits : Nat) (x y z w : Int) : Bool :=
  match checked_add signed bits x y, checked_add signed bits z w with
  | some a, some b => a ≤ b
  | some _, none => true
  | none, some _ => false
  | none, none => wrapping_add signed bits x y ≤ wrapping_add signed bits z w

/-- `is_monge`: scan every axis-aligned 2✕2 window (`matrix.windows([2, 2])`
visits top-left corners `(i, j)` with `i + 2 ≤ m` and `j + 2 ≤ n`). -/
def is_monge (signed : Bool) (bits : Nat) (M : Matrix2 Int) : Bool :=
  (List.range (M.m - 1)).all fun i =>
    (List.range (M.n - 1)).all fun j =>
      mongeCheck signed bits (M.f i j) (M.f (i + 1) (j + 1)) (M.f i (j + 1)) (M.f (i + 1) j)

/-! ### Specification-side notions -/

/-- Index of the left-most minimum of the length-`len` lane `g`: the index
with the lexicographically smallest `(value, index)` pair (`0` for an empty
lane). -/
def leftmostArgmin (len : Nat) (g : Nat → α) : Nat :=
  (List.range len).foldl (fun best i => if lexLt (g i, i) (g best, best) then i else best) 0

/-- The expected row-minima answer: one left-most argmin per row. -/
def rowArgmins (M : Matrix2 α) : List Nat :=
  (List.range M.m).map fun i => leftmostArgmin M.n (fun j => M.f i j)

/-- The expected column-minima answer: one left-most argmin per column. -/
def colArgmins (M : Matrix2 α) : List Nat :=
  (List.range M.n).map fun j => leftmostArgmin M.m (fun i => M.f i j)

/-- The row of the left-most minimum of column `c` among the candidate rows
`rows` of the accessor `g`: the row minimizing the `(value, row)` pair
lexicographically (`0` for no candidates). -/
def listArgmin (g : Nat → α) (rows : List Nat) : Nat :=
  match rows with
  | [] => 0
  | r :: rs => rs.foldl (fun best r' => if lexLt (g r', r') (g best, best) then r' else best) r

/-- The monotonicity condition `smawk_inner` needs from its accessor on the
candidate row and column sets, in the column-minima orientation: whenever an
earlier row loses strictly to a later row in some column, it keeps losing
strictly in every later column. -/
def SmawkMonotone (g : Nat → Nat → α) (rows cols : List Nat) : Prop :=
  ∀ r r' c c', r ∈ rows → r' ∈ rows → c ∈ cols → c' ∈ cols → r < r' → c < c' →
    g r c > g r' c → g r c' > g r' c'

/-- Invariant of the reduce-phase stack: each stack entry is no worse than
its successor in the column aligned with its own depth (established by the
push guard). -/
def ChainInv (g : Nat → Nat → α) (cols S : List Nat) : Prop :=
  ∀ t, t + 1 < S.length →
    g (S.getD t 0) (cols.getD t 0) ≤ g (S.getD (t + 1) 0) (cols.getD t 0)

/-- A candidate row `p` is dead for the reduce phase: at every column
position `u` some stack entry at depth at most `u` is lexicographically no
worse than `p` there, so `p` can never be the left-most minimum of any
remaining column. -/
def DeadFor (g : Nat → Nat → α) (cols S : List Nat) (p : Nat) : Prop :=
  ∀ u, u < cols.length → ∃ t, t < S.length ∧ t ≤ u ∧
    lexLe (g (S.getD t 0) (cols.getD u 0), S.getD t 0) (g p (cols.getD u 0), p)

/-- Totally monotone matrix, following the spec's glossary: every submatrix
formed by two rows `i < i'` and two columns `j < j'` is monotone, in the row
sense and, symmetrically, in the column sense. -/
def TotallyMonotone (M : Matrix2 α) : Prop :=
  ∀ i' < M.m, ∀ i < i', ∀ j' < M.n, ∀ j < j',
    (M.f i j > M.f i j' → M.f i' j > M.f i' j') ∧
    (M.f i j > M.f i' j → M.f i j' > M.f i' j')

/-! ### Basic facts about the lexicographic order and lane scans -/

theorem lexLt_irrefl (p : α × Nat) : ¬ lexLt p p := by
  simp [lexLt]

theorem lexLt_trans {p q r : α × Nat} (h1 : lexLt p q) (h2 : lexLt q r) : lexLt p r := by
  rcases h1 with h1 | ⟨h1, h1'⟩ <;> rcases h2 with h2 | ⟨h2, h2'⟩
  · exact Or.inl (lt_trans h1 h2)
  · exact Or.inl (h2 ▸ h1)
  · exact Or.inl (h1 ▸ h2)
  · exact Or.inr ⟨h1.trans h2, lt_trans h1' h2'⟩

theorem lexLt_of_not (p q : α × Nat) (hne : p ≠ q) (h : ¬ lexLt p q) : lexLt q p := by
  rcases lt_trichotomy p.1 q.1 with hv | hv | hv
  · exact absurd (Or.inl hv) h
  · rcases lt_trichotomy p.2 q.2 with hi | hi | hi
    · exact absurd (Or.inr ⟨hv, hi⟩) h
    · exact absurd (Prod.ext hv hi) hne
    · exact Or.inr ⟨hv.symm, hi⟩
  · exact Or.inl hv

/-- The running best of the `min_by_key`-style fold is one of the candidates. -/
theorem foldl_lexmin_mem (g : Nat → α) (l : List Nat) (b0 : Nat) :
    l.foldl (fun best i => if lexLt (g i, i) (g best, best) then i else best) b0 ∈ b0 :: l := by
  induction l generalizing b0 with
  | nil => simp
  | cons i is ih =>
    rw [List.foldl_cons]
    rcases List.mem_cons.mp (ih (if lexLt (g i, i) (g b0, b0) then i else b0)) with h | h
    · rw [h]
      by_cases hlt : lexLt (g i, i) (g b0, b0) <;> simp [hlt]
    · simp [h]

/-- The running best of the `min_by_key`-style fold is lexicographically no
worse than any candidate. -/
theorem foldl_lexmin_le (g : Nat → α) (l : List Nat) (b0 : Nat) :
    ∀ x ∈ b0 :: l,
      l.foldl (fun best i => if lexLt (g i, i) (g best, best) then i else best) b0 = x ∨
      lexLt (g (l.foldl (fun best i => if lexLt (g i, i) (g best, best) then i else best) b0),
          l.foldl (fun best i => if lexLt (g i, i) (g best, best) then i else best) b0)
        (g x, x) := by
  induction l generalizing b0 with
  | nil =>
    intro x hx
    exact Or.inl (List.mem_singleton.mp hx).symm
  | cons i is ih =>
    intro x hx
    rw [List.foldl_cons]
    by_cases hlt : lexLt (g i, i) (g b0, b0)
    · rw [if_pos hlt]
      rcases List.mem_cons.mp hx with hb | hx'
      · rw [hb]
        rcases ih i i (List.mem_cons_self i is) with heq | hl
        · rw [heq]
          exact Or.inr hlt
        · exact Or.inr (lexLt_trans hl hlt)
      · exact ih i x hx'
    · rw [if_neg hlt]
      rcases List.mem_cons.mp hx with hb | hx'
      · rw [hb]
        exact ih b0 b0 (List.mem_cons_self b0 is)
      · rcases List.mem_cons.mp hx' with hi | his
        · rw [hi]
          rcases eq_or_ne i b0 with hib | hib
          · rw [hib]
            exact ih b0 b0 (List.mem_cons_self b0 is)
          · have hlt2 : lexLt (g b0, b0) (g i, i) :=
              lexLt_of_not _ _ (fun hc => hib (congrArg Prod.snd hc)) hlt
            rcases ih b0 b0 (List.mem_cons_self b0 is) with heq | hl
            · rw [heq]
              exact Or.inr hlt2
            · exact Or.inr (lexLt_trans hl hlt2)
        · exact ih b0 x (List.mem_cons_of_mem b0 his)

/-- On a nonempty lane the scan succeeds and returns the left-most argmin. -/
theorem lane_minimum_eq (len : Nat) (g : Nat → α) (h : 1 ≤ len) :
    lane_minimum len g = .ok (leftmostArgmin len g) := by
  obtain ⟨k, rfl⟩ : ∃ k, len = k + 1 := ⟨len - 1, by omega⟩
  have hr : List.range (k + 1) = 0 :: List.range' 1 k := by
    rw [List.range_eq_range', List.range'_succ]
  unfold lane_minimum leftmostArgmin
  rw [hr]
  simp only [List.foldl_cons, ite_self]

/-- The left-most argmin of a nonempty lane is within range. -/
theorem leftmostArgmin_lt (len : Nat) (g : Nat → α) (h : 1 ≤ len) :
    leftmostArgmin len g < len := by
  have hm := foldl_lexmin_mem g (List.range len) 0
  unfold leftmostArgmin
  rcases List.mem_cons.mp hm with h0 | hmem
  · rw [h0]
    omega
  · exact List.mem_range.mp hmem

/-- The left-most argmin is lexicographically minimal among all indices. -/
theorem leftmostArgmin_lexmin (len : Nat) (g : Nat → α) :
    ∀ k < len, leftmostArgmin len g = k ∨
      lexLt (g (leftmostArgmin len g), leftmostArgmin len g) (g k, k) := by
  intro k hk
  exact foldl_lexmin_le g (List.range len) 0 k
    (List.mem_cons_of_mem _ (List.mem_range.mpr hk))

/-- The left-most argmin attains the lane minimum. -/
theorem leftmostArgmin_min (len : Nat) (g : Nat → α) :
    ∀ k < len, g (leftmostArgmin len g) ≤ g k := by
  intro k hk
  rcases leftmostArgmin_lexmin len g k hk with heq | hl
  · rw [heq]
  · rcases hl with hv | ⟨hv, -⟩
    · exact le_of_lt hv
    · exact le_of_eq hv

/-- Any index attaining the minimum is at least the left-most argmin. -/
theorem leftmostArgmin_leftmost (len : Nat) (g : Nat → α) :
    ∀ k < len, g k = g (leftmostArgmin len g) → leftmostArgmin len g ≤ k := by
  intro k hk he
  rcases leftmostArgmin_lexmin len g k hk with heq | hl
  · exact le_of_eq heq
  · rcases hl with hv | ⟨-, hi⟩
    · rw [he] at hv
      exact absurd hv (lt_irrefl _)
    · exact le_of_lt hi

/-- Lex-minimality determines the left-most argmin uniquely. -/
theorem leftmostArgmin_eq_of (len : Nat) (g : Nat → α) (j : Nat) (hj : j < len)
    (hmin : ∀ k < len, j = k ∨ lexLt (g j, j) (g k, k)) : leftmostArgmin len g = j := by
  have hA := leftmostArgmin_lt len g (by omega)
  rcases leftmostArgmin_lexmin len g j hj with heq | hl
  · exact heq
  · rcases hmin (leftmostArgmin len g) hA with heq | hl2
    · exact heq.symm
    · exact absurd (lexLt_trans hl hl2) (lexLt_irrefl _)

/-- `mapM` over `Except` succeeds pointwise. -/
theorem mapM_ok {β : Type} (F : Nat → Except PanicKind β) (G : Nat → β) (l : List Nat)
    (h : ∀ i ∈ l, F i = .ok (G i)) : l.mapM F = .ok (l.map G) := by
  induction l with
  | nil => rfl
  | cons i is ih =>
    rw [List.mapM_cons, h i (List.mem_cons_self i is), List.map_cons,
      ih (fun x hx => h x (List.mem_cons_of_mem i hx))]
    rfl

/-- `mapM` over `Except` fails on its first element's failure. -/
theorem mapM_error_head {β : Type} (F : Nat → Except PanicKind β) (i : Nat) (l : List Nat)
    (e : PanicKind) (h : F i = .error e) : (i :: l).mapM F = .error e := by
  rw [List.mapM_cons, h]
  rfl

/-- On a matrix with at least one column, brute force returns the row of
left-most argmins. -/
theorem brute_force_row_minima_eq (M : Matrix2 α) (h : 1 ≤ M.n) :
    brute_force_row_minima M = .ok (rowArgmins M) :=
  mapM_ok _ _ _ (fun _ _ => lane_minimum_eq M.n _ h)

/-- On a matrix with at least one row, brute force returns the column
left-most argmins. -/
theorem brute_force_column_minima_eq (M : Matrix2 α) (h : 1 ≤ M.m) :
    brute_force_column_minima M = .ok (colArgmins M) :=
  mapM_ok _ _ _ (fun _ _ => lane_minimum_eq M.m _ h)

theorem rowArgmins_get (M : Matrix2 α) (i : Nat) (hi : i < M.m) :
    (rowArgmins M).get? i = some (leftmostArgmin M.n (fun j => M.f i j)) := by
  unfold rowArgmins
  rw [List.get?_map, List.get?_range hi]
  rfl

theorem colArgmins_get (M : Matrix2 α) (j : Nat) (hj : j < M.n) :
    (colArgmins M).get? j = some (leftmostArgmin M.m (fun i => M.f i j)) := by
  unfold colArgmins
  rw [List.get?_map, List.get?_range hj]
  rfl

/-- C6: for a matrix with at least one column, `brute_force_row_minima`
returns one index per row, each the smallest column index attaining that
row's minimum value (left-most wins ties); symmetrically for
`brute_force_column_minima` with at least one row; in particular the row
minima of `[[2, 1], [2, 1]]` are `[1, 1]`. -/
theorem claim_C6 :
    (∀ (α : Type) [LinearOrder α] (M : Matrix2 α), 1 ≤ M.n →
      ∃ L, brute_force_row_minima M = .ok L ∧ L.length = M.m ∧
        ∀ i < M.m, ∃ ji, L.get? i = some ji ∧ ji < M.n ∧
          (∀ j < M.n, M.f i ji ≤ M.f i j) ∧
          (∀ j < M.n, M.f i j = M.f i ji → ji ≤ j)) ∧
    (∀ (α : Type) [LinearOrder α] (M : Matrix2 α), 1 ≤ M.m →
      ∃ L, brute_force_column_minima M = .ok L ∧ L.length = M.n ∧
        ∀ j < M.n, ∃ ij, L.get? j = some ij ∧ ij < M.m ∧
          (∀ i < M.m, M.f ij j ≤ M.f i j) ∧
          (∀ i < M.m, M.f i j = M.f ij j → ij ≤ i)) ∧
    brute_force_row_minima
      (Matrix2.mk 2 2 fun i j => (([[2, 1], [2, 1]] : List (List Int)).getD i []).getD j 0) =
      .ok [1, 1] := by
  refine ⟨?_, ?_, by rfl⟩
  · intro α _ M h
    refine ⟨rowArgmins M, brute_force_row_minima_eq M h, by simp [rowArgmins], ?_⟩
    intro i hi
    exact ⟨leftmostArgmin M.n (fun j => M.f i j), rowArgmins_get M i hi,
      leftmostArgmin_lt M.n _ h, leftmostArgmin_min M.n _, leftmostArgmin_leftmost M.n _⟩
  · intro α _ M h
    refine ⟨colArgmins M, brute_force_column_minima_eq M h, by simp [colArgmins], ?_⟩
    intro j hj
    exact ⟨leftmostArgmin M.m (fun i => M.f i j), colArgmins_get M j hj,
      leftmostArgmin_lt M.m _ h, leftmostArgmin_min M.m (fun i => M.f i j),
      leftmostArgmin_leftmost M.m (fun i => M.f i j)⟩

/-- Witness for C6 at the concrete tie-break matrix `[[2, 1], [2, 1]]`. -/
theorem claim_C6_witness :
    1 ≤ (Matrix2.mk 2 2 fun i j =>
      (([[2, 1], [2, 1]] : List (List Int)).getD i []).getD j 0).n ∧
    (∃ L, brute_force_row_minima
        (Matrix2.mk 2 2 fun i j =>
          (([[2, 1], [2, 1]] : List (List Int)).getD i []).getD j 0) = .ok L ∧
      L.length = 2 ∧
        ∀ i < 2, ∃ ji, L.get? i = some ji ∧ ji < 2 ∧
          (∀ j < 2, (Matrix2.mk 2 2 fun i j =>
              (([[2, 1], [2, 1]] : List (List Int)).getD i []).getD j 0).f i ji ≤
            (Matrix2.mk 2 2 fun i j =>
              (([[2, 1], [2, 1]] : List (List Int)).getD i []).getD j 0).f i j) ∧
          (∀ j < 2, (Matrix2.mk 2 2 fun i j =>
              (([[2, 1], [2, 1]] : List (List Int)).getD i []).getD j 0).f i j =
            (Matrix2.mk 2 2 fun i j =>
              (([[2, 1], [2, 1]] : List (List Int)).getD i []).getD j 0).f i ji → ji ≤ j)) :=
  ⟨by norm_num, claim_C6.1 Int
    (Matrix2.mk 2 2 fun i j => (([[2, 1], [2, 1]] : List (List Int)).getD i []).getD j 0)
    (by norm_num)⟩

/-- C10: a matrix with fewer than two rows or fewer than two columns has no
2✕2 window, so `is_monge` accepts it vacuously. -/
theorem claim_C10 (signed : Bool) (bits : Nat) (M : Matrix2 Int)
    (h : M.m < 2 ∨ M.n < 2) : is_monge signed bits M = true := by
  rcases h with h | h
  · simp [is_monge, show M.m - 1 = 0 by omega]
  · simp [is_monge, show M.n - 1 = 0 by omega]

/-- Witness for C10 on a concrete single-row matrix. -/
theorem claim_C10_witness :
    ((Matrix2.mk 1 3 fun _ _ => (5 : Int)).m < 2 ∨
      (Matrix2.mk 1 3 fun _ _ => (5 : Int)).n < 2) ∧
    is_monge false 8 (Matrix2.mk 1 3 fun _ _ => (5 : Int)) = true :=
  ⟨by norm_num, claim_C10 false 8 _ (by norm_num)⟩

/-- C4 is refuted by the code: in a window whose left-hand sum `x + y`
overflows while the right-hand sum `z + w` is representable, `is_monge`'s
window check is `(None, Some(_)) => false`, not the pass the claim states
(model of `u8`: unsigned, 8 bits). -/
theorem claim_C4_counterexample :
    ¬ inRange false 8 ((200 : Int) + 200) ∧ inRange false 8 ((0 : Int) + 0) ∧
    mongeCheck false 8 200 200 0 0 = false := by
  refine ⟨by decide, by decide, ?_⟩
  rfl

/-- C4 (amended): with `x` top-left, `y` bottom-right, `z` top-right and `w`
bottom-left, the window passes iff `x + y ≤ z + w` when both sums are
representable; when `z + w` overflows but `x + y` does not, it passes; when
`x + y` overflows but `z + w` does not, it fails; when both overflow, the
sums wrapped modulo `2 ^ bits` are compared instead. -/
theorem claim_C4 (signed : Bool) (bits : Nat) (x y z w : Int) :
    (inRange signed bits (x + y) → inRange signed bits (z + w) →
      (mongeCheck signed bits x y z w = true ↔ x + y ≤ z + w)) ∧
    (inRange signed bits (x + y) → ¬ inRange signed bits (z + w) →
      mongeCheck signed bits x y z w = true) ∧
    (¬ inRange signed bits (x + y) → inRange signed bits (z + w) →
      mongeCheck signed bits x y z w = false) ∧
    (¬ inRange signed bits (x + y) → ¬ inRange signed bits (z + w) →
      (mongeCheck signed bits x y z w = true ↔
        intMin signed bits + (x + y - intMin signed bits) % (2 ^ bits : Int) ≤
          intMin signed bits + (z + w - intMin signed bits) % (2 ^ bits : Int))) := by
  unfold mongeCheck checked_add wrapping_add
  refine ⟨fun h1 h2 => ?_, fun h1 h2 => ?_, fun h1 h2 => ?_, fun h1 h2 => ?_⟩ <;>
    simp [h1, h2]

/-- Witness for C4 (amended) at a concrete double-overflow window. -/
theorem claim_C4_witness :
    ¬ inRange false 8 ((200 : Int) + 200) ∧ ¬ inRange false 8 ((255 : Int) + 255) ∧
    (mongeCheck false 8 200 200 255 255 = true ↔
      intMin false 8 + ((200 : Int) + 200 - intMin false 8) % (2 ^ 8 : Int) ≤
        intMin false 8 + ((255 : Int) + 255 - intMin false 8) % (2 ^ 8 : Int)) :=
  ⟨by decide, by decide,
    (claim_C4 false 8 200 200 255 255).2.2.2 (by decide) (by decide)⟩

/-- Brute-force row minima on a zero-column matrix with at least one row hit
the `EmptyInput` panic of the lane scanner. -/
theorem brute_force_row_minima_zero_cols (M : Matrix2 α) (hm : 1 ≤ M.m) (hn : M.n = 0) :
    brute_force_row_minima M = .error .emptyLane := by
  obtain ⟨k, hk⟩ : ∃ k, M.m = k + 1 := ⟨M.m - 1, by omega⟩
  unfold brute_force_row_minima
  rw [hk, List.range_eq_range', List.range'_succ]
  exact mapM_error_head _ _ _ _ (by rw [hn]; rfl)

/-- Brute-force column minima on a zero-row matrix with at least one column
hit the `EmptyInput` panic of the lane scanner. -/
theorem brute_force_column_minima_zero_rows (M : Matrix2 α) (hn : 1 ≤ M.n) (hm : M.m = 0) :
    brute_force_column_minima M = .error .emptyLane := by
  obtain ⟨k, hk⟩ : ∃ k, M.n = k + 1 := ⟨M.n - 1, by omega⟩
  unfold brute_force_column_minima
  rw [hk, List.range_eq_range', List.range'_succ]
  exact mapM_error_head _ _ _ _ (by rw [hm]; rfl)

/-- Recursive row minima on a zero-column matrix return the untouched
all-zeros output buffer (the `is_empty` early return). -/
theorem recursive_row_minima_zero_cols (M : Matrix2 α) (hn : M.n = 0) :
    recursive_row_minima M = .ok (List.replicate M.m 0) := by
  unfold recursive_row_minima recursive_inner
  rw [recursive_inner_row.eq_def]
  simp [hn]

/-- Recursive column minima on a zero-row matrix return the untouched
all-zeros output buffer. -/
theorem recursive_column_minima_zero_rows (M : Matrix2 α) (hm : M.m = 0) :
    recursive_column_minima M = .ok (List.replicate M.n 0) := by
  unfold recursive_column_minima recursive_inner
  rw [recursive_inner_col.eq_def]
  simp [hm]

/-- The odd-position columns are strictly fewer than the columns. -/
theorem oddCols_length_lt (cols : List Nat) (h : cols ≠ []) :
    (oddCols cols).length < cols.length := by
  rcases cols with - | ⟨c, cs⟩
  · exact absurd rfl h
  · have hle : ((cs.enumFrom 1).filter fun p => p.1 % 2 = 1).length ≤ cs.length :=
      le_trans (List.length_filter_le _ _) (le_of_eq List.enumFrom_length)
    simp only [oddCols, List.enum_cons, List.filter_cons, List.length_map, List.length_cons]
    norm_num
    omega

/-- The even-position columns of a nonempty enumeration start with the
head. -/
theorem evens_cons (c : Nat) (cs : List Nat) :
    ((c :: cs).enum.filter fun p => p.1 % 2 = 0) =
      (0, c) :: ((cs.enumFrom 1).filter fun p => p.1 % 2 = 0) := by
  rw [List.enum_cons, List.filter_cons]
  norm_num

/-- `smawk_inner` with an empty row list but nonempty column list panics
with an index-out-of-bounds (`rows[r]` in the conquer phase). -/
theorem smawk_inner_nil_rows (f : Nat → Nat → Except PanicKind α) (cols : List Nat)
    (minima : List Nat) (hc : cols ≠ []) :
    smawk_inner f [] cols minima = .error .indexOOB := by
  have H : ∀ len (cols minima : List Nat), cols.length ≤ len → cols ≠ [] →
      smawk_inner f [] cols minima = .error .indexOOB := by
    intro len
    induction len with
    | zero =>
      intro cols minima h1 h2
      rcases cols with - | ⟨c, cs⟩
      · exact absurd rfl h2
      · simp at h1
    | succ len ih =>
      intro cols minima h1 h2
      rw [smawk_inner.eq_def]
      rcases cols with - | ⟨c, cs⟩
      · exact absurd rfl h2
      · have hred : smawkReduce f (c :: cs) [] = .ok [] := rfl
        rw [hred]
        simp only [List.isEmpty_cons]
        by_cases hodd : oddCols (c :: cs) = []
        · rw [hodd]
          have hrec : smawk_inner f [] [] minima = .ok minima := by
            rw [smawk_inner.eq_def]
            rfl
          rw [hrec, evens_cons]
          rfl
        · have hlt := oddCols_length_lt (c :: cs) (by simp)
          rw [ih (oddCols (c :: cs)) minima
            (by simp only [List.length_cons] at hlt h1 ⊢; omega) hodd]
          simp
  exact H cols.length cols minima le_rfl hc

/-- SMAWK row minima on a zero-column matrix with at least one row panic
with an index-out-of-bounds (the inner row list, which holds the matrix's
columns, is empty while the inner column list is not). -/
theorem smawk_row_minima_zero_cols (M : Matrix2 α) (hm : 1 ≤ M.m) (hn : M.n = 0) :
    smawk_row_minima M = .error .indexOOB := by
  unfold smawk_row_minima
  rw [hn, List.range_zero]
  exact smawk_inner_nil_rows _ _ _ (by simp; omega)

/-- SMAWK column minima on a zero-row matrix with at least one column panic
with an index-out-of-bounds. -/
theorem smawk_column_minima_zero_rows (M : Matrix2 α) (hn : 1 ≤ M.n) (hm : M.m = 0) :
    smawk_column_minima M = .error .indexOOB := by
  unfold smawk_column_minima
  rw [hm, List.range_zero]
  exact smawk_inner_nil_rows _ _ _ (by simp; omega)

/-- C5 is refuted by the code: the divide-and-conquer strategy does not fail
on a `1 ✕ 0` row-minima request; its `is_empty` early return delivers the
default all-zeros vector `[0]`. -/
theorem claim_C5_counterexample :
    recursive_row_minima (Matrix2.mk 1 0 fun _ _ => (0 : Int)) = .ok [0] := by
  simpa using recursive_row_minima_zero_cols (Matrix2.mk 1 0 fun _ _ => (0 : Int)) rfl

/-- C5 (amended): on a zero-column row-minima request with at least one row
(symmetrically a zero-row column-minima request with at least one column),
brute force fails with the `EmptyInput` panic, divide-and-conquer does not
fail — it returns the all-zeros default vector — and SMAWK fails with an
index-out-of-bounds panic, not `EmptyInput`. -/
theorem claim_C5 (α : Type) [LinearOrder α] (M : Matrix2 α) :
    (1 ≤ M.m → M.n = 0 →
      brute_force_row_minima M = .error .emptyLane ∧
      recursive_row_minima M = .ok (List.replicate M.m 0) ∧
      smawk_row_minima M = .error .indexOOB) ∧
    (1 ≤ M.n → M.m = 0 →
      brute_force_column_minima M = .error .emptyLane ∧
      recursive_column_minima M = .ok (List.replicate M.n 0) ∧
      smawk_column_minima M = .error .indexOOB) :=
  ⟨fun hm hn => ⟨brute_force_row_minima_zero_cols M hm hn,
      recursive_row_minima_zero_cols M hn, smawk_row_minima_zero_cols M hm hn⟩,
    fun hn hm => ⟨brute_force_column_minima_zero_rows M hn hm,
      recursive_column_minima_zero_rows M hm, smawk_column_minima_zero_rows M hn hm⟩⟩

/-- Witness for C5 (amended) at the `1 ✕ 0` and `0 ✕ 1` integer matrices. -/
theorem claim_C5_witness :
    (brute_force_row_minima (Matrix2.mk 1 0 fun _ _ => (0 : Int)) = .error .emptyLane ∧
      recursive_row_minima (Matrix2.mk 1 0 fun _ _ => (0 : Int)) =
        .ok (List.replicate 1 0) ∧
      smawk_row_minima (Matrix2.mk 1 0 fun _ _ => (0 : Int)) = .error .indexOOB) ∧
    (brute_force_column_minima (Matrix2.mk 0 1 fun _ _ => (0 : Int)) = .error .emptyLane ∧
      recursive_column_minima (Matrix2.mk 0 1 fun _ _ => (0 : Int)) =
        .ok (List.replicate 1 0) ∧
      smawk_column_minima (Matrix2.mk 0 1 fun _ _ => (0 : Int)) = .error .indexOOB) :=
  ⟨(claim_C5 Int (Matrix2.mk 1 0 fun _ _ => (0 : Int))).1 (by norm_num) rfl,
    (claim_C5 Int (Matrix2.mk 0 1 fun _ _ => (0 : Int))).2 (by norm_num) rfl⟩

/-- C9 is refuted by the code: `smawk_row_minima` on a `1 ✕ 0` matrix does
not return `[0]`; it panics with an index-out-of-bounds. -/
theorem claim_C9_counterexample :
    smawk_row_minima (Matrix2.mk 1 0 fun _ _ => (0 : Int)) = .error .indexOOB ∧
    smawk_row_minima (Matrix2.mk 1 0 fun _ _ => (0 : Int)) ≠ .ok (List.replicate 1 0) := by
  have h := smawk_row_minima_zero_cols (Matrix2.mk 1 0 fun _ _ => (0 : Int))
    (by norm_num) rfl
  exact ⟨h, by rw [h]; intro hcontra; cases hcontra⟩

/-- C9 (amended): for `m ≥ 1`, `recursive_row_minima` on an `m ✕ 0` matrix
returns a vector of `m` zeros without signalling an error, but
`smawk_row_minima` panics with an index-out-of-bounds; symmetrically for the
column variants on a `0 ✕ n` matrix. -/
theorem claim_C9 (α : Type) [LinearOrder α] (M : Matrix2 α) :
    (1 ≤ M.m → M.n = 0 →
      recursive_row_minima M = .ok (List.replicate M.m 0) ∧
      smawk_row_minima M = .error .indexOOB) ∧
    (1 ≤ M.n → M.m = 0 →
      recursive_column_minima M = .ok (List.replicate M.n 0) ∧
      smawk_column_minima M = .error .indexOOB) :=
  ⟨fun hm hn => ⟨recursive_row_minima_zero_cols M hn, smawk_row_minima_zero_cols M hm hn⟩,
    fun hn hm => ⟨recursive_column_minima_zero_rows M hm,
      smawk_column_minima_zero_rows M hn hm⟩⟩

/-- A successful pop phase returns a sublist (in fact a prefix) of the
incoming stack. -/
theorem smawkPops_sublist (f : Nat → Nat → Except PanicKind α) (cols : List Nat) (r : Nat) :
    ∀ stack s, smawkPops f cols r stack = .ok s → s.Sublist stack := by
  have H : ∀ len stack s, stack.length ≤ len →
      smawkPops f cols r stack = .ok s → s.Sublist stack := by
    intro len
    induction len with
    | zero =>
      intro stack s hlen h
      rcases stack with - | ⟨a, as⟩
      · rw [smawkPops.eq_def] at h
        injection h with h
        rw [← h]
      · simp at hlen
    | succ len ih =>
      intro stack s hlen h
      rcases stack with - | ⟨a, as⟩
      · rw [smawkPops.eq_def] at h
        injection h with h
        rw [← h]
      · rw [smawkPops.eq_def] at h
        simp only at h
        rcases hfa : f ((a :: as).getLastD 0) (cols.getD ((a :: as).length - 1) 0) with
          e | va
        · rw [hfa] at h
          cases h
        · rcases hfb : f r (cols.getD ((a :: as).length - 1) 0) with e | vb
          · rw [hfa, hfb] at h
            cases h
          · rw [hfa, hfb] at h
            simp only at h
            by_cases hgt : va > vb
            · rw [if_pos hgt] at h
              have hsub := ih (a :: as).dropLast s
                (by rw [List.length_dropLast]; simp at hlen ⊢; omega) h
              exact hsub.trans (List.dropLast_sublist _)
            · rw [if_neg hgt] at h
              injection h with h
              rw [← h]
  exact fun stack s h => H stack.length stack s le_rfl h

/-- One step of the reduce fold: pops followed by a guarded push. -/
theorem smawkReduce_step (f : Nat → Nat → Except PanicKind α) (cols : List Nat)
    (s0 : List Nat) (r : Nat) (s1 : List Nat)
    (h : (do
        let s ← smawkPops f cols r s0
        if s.length ≠ cols.length then pure (s ++ [r]) else pure s :
        Except PanicKind (List Nat)) = .ok s1) :
    ∃ s, smawkPops f cols r s0 = .ok s ∧
      s1 = (if s.length ≠ cols.length then s ++ [r] else s) := by
  rcases hp : smawkPops f cols r s0 with e | s
  · rw [hp] at h
    cases h
  · rw [hp] at h
    replace h : (if s.length ≠ cols.length then
        (pure (s ++ [r]) : Except PanicKind (List Nat)) else pure s) = .ok s1 := h
    refine ⟨s, rfl, ?_⟩
    by_cases hl : s.length ≠ cols.length
    · rw [if_pos hl]
      rw [if_pos hl] at h
      injection h with h
      rw [h]
    · rw [if_neg hl]
      rw [if_neg hl] at h
      injection h with h
      rw [h]

/-- Invariant of the reduce fold: starting from a stack no longer than
`cols` that is a sublist of the rows already processed, the fold keeps both
properties. -/
theorem smawkReduce_fold_inv (f : Nat → Nat → Except PanicKind α) (cols : List Nat) :
    ∀ (rows s0 out : List Nat),
      (rows.foldlM (fun stack r => do
          let s ← smawkPops f cols r stack
          if s.length ≠ cols.length then pure (s ++ [r]) else pure s) s0) = .ok out →
      s0.length ≤ cols.length →
      out.length ≤ cols.length ∧ ∀ pre, s0.Sublist pre → out.Sublist (pre ++ rows) := by
  intro rows
  induction rows with
  | nil =>
    intro s0 out h hlen
    injection h with h
    subst h
    exact ⟨hlen, fun pre hpre => by simpa using hpre⟩
  | cons r rows ih =>
    intro s0 out h hlen
    rw [List.foldlM_cons] at h
    rcases hstep : (do
        let s ← smawkPops f cols r s0
        if s.length ≠ cols.length then pure (s ++ [r]) else pure s :
        Except PanicKind (List Nat)) with e | s1
    · rw [hstep] at h
      cases h
    · rw [hstep] at h
      obtain ⟨s, hpops, hs1⟩ := smawkReduce_step f cols s0 r s1 hstep
      have hs_sub : s.Sublist s0 := smawkPops_sublist f cols r s0 s hpops
      have hs_len : s.length ≤ cols.length := le_trans hs_sub.length_le hlen
      have hs1_len : s1.length ≤ cols.length := by
        rw [hs1]
        by_cases hl : s.length ≠ cols.length
        · rw [if_pos hl]
          simp only [List.length_append, List.length_singleton]
          omega
        · rw [if_neg hl]
          exact hs_len
      obtain ⟨hout_len, hout_sub⟩ := ih s1 out h hs1_len
      refine ⟨hout_len, fun pre hpre => ?_⟩
      have hs1_sub : s1.Sublist (pre ++ [r]) := by
        rw [hs1]
        by_cases hl : s.length ≠ cols.length
        · rw [if_pos hl]
          exact List.Sublist.append (hs_sub.trans hpre) (List.Sublist.refl _)
        · rw [if_neg hl]
          exact (hs_sub.trans hpre).trans (List.sublist_append_left _ _)
      have := hout_sub (pre ++ [r]) hs1_sub
      simpa using this

/-- C8: throughout the reduce phase of `smawk_inner`, the elimination stack
never holds more entries than there are columns (every intermediate stack is
the result of scanning a prefix of the candidate rows, and a pop only
shortens it further), and the surviving stack is a subsequence of the input
rows of size at most the number of columns. -/
theorem claim_C8 (α : Type) [LinearOrder α] (f : Nat → Nat → Except PanicKind α)
    (cols rows stack : List Nat) (h : smawkReduce f cols rows = .ok stack) :
    stack.Sublist rows ∧ stack.length ≤ cols.length ∧
    ∀ pre suf s', rows = pre ++ suf → smawkReduce f cols pre = .ok s' →
      s'.length ≤ cols.length := by
  obtain ⟨hlen, hsub⟩ := smawkReduce_fold_inv f cols rows [] stack h (by simp)
  refine ⟨by simpa using hsub [] (List.Sublist.refl _), hlen, ?_⟩
  intro pre suf s' hsplit h'
  exact (smawkReduce_fold_inv f cols pre [] s' h' (by simp)).1

/-- Witness for C8 at a concrete reduce run (`cols = [0]`, `rows = [1, 2]`,
constant matrix: row `2` is scanned but never pushed since the stack is
full). -/
theorem claim_C8_witness :
    smawkReduce (fun _ _ => .ok (0 : Int)) [0] [1, 2] = .ok [1] ∧
    ([1] : List Nat).Sublist [1, 2] ∧ ([1] : List Nat).length ≤ ([0] : List Nat).length := by
  have h : smawkReduce (fun _ _ => .ok (0 : Int)) [0] [1, 2] = .ok [1] := by
    simp [smawkReduce, smawkPops, bind, Except.bind, pure, Except.pure]
  exact ⟨h, (claim_C8 Int (fun _ _ => .ok (0 : Int)) [0] [1, 2] [1] h).1,
    (claim_C8 Int (fun _ _ => .ok (0 : Int)) [0] [1, 2] [1] h).2.1⟩

/-- The window check reduces to the plain inequality when no sum
overflows. -/
theorem mongeCheck_true_iff (signed : Bool) (bits : Nat) (x y z w : Int)
    (h1 : inRange signed bits (x + y)) (h2 : inRange signed bits (z + w)) :
    mongeCheck signed bits x y z w = true ↔ x + y ≤ z + w := by
  unfold mongeCheck checked_add
  simp [h1, h2]

/-- `is_monge` in terms of its per-window checks. -/
theorem is_monge_iff_windows (signed : Bool) (bits : Nat) (M : Matrix2 Int) :
    is_monge signed bits M = true ↔
      ∀ i < M.m - 1, ∀ j < M.n - 1,
        mongeCheck signed bits (M.f i j) (M.f (i + 1) (j + 1)) (M.f i (j + 1))
          (M.f (i + 1) j) = true := by
  unfold is_monge
  simp [List.all_eq_true, List.mem_range]

/-- Telescoping in one lane: the adjacent inequality between two fixed
neighbouring rows extends to arbitrary column pairs. -/
theorem monge_telescope_cols (A B : Nat → Int) (n : Nat)
    (h : ∀ j, j + 1 < n → A j + B (j + 1) ≤ A (j + 1) + B j) :
    ∀ j j', j < j' → j' < n → A j + B j' ≤ A j' + B j := by
  intro j j' hjj' hj'
  induction j' with
  | zero => omega
  | succ j' ih =>
    rcases Nat.lt_or_ge j j' with hlt | hge
    · have h1 := ih hlt (by omega)
      have h2 := h j' (by omega)
      omega
    · have : j = j' := by omega
      subst this
      exact h j hj'

/-- Telescoping in the other direction: the two-row inequality for a fixed
column pair extends to arbitrary row pairs. -/
theorem monge_telescope_rows (M : Matrix2 Int) (j j' : Nat)
    (h : ∀ i, i + 1 < M.m → M.f i j + M.f (i + 1) j' ≤ M.f i j' + M.f (i + 1) j) :
    ∀ i i', i < i' → i' < M.m → M.f i j + M.f i' j' ≤ M.f i j' + M.f i' j := by
  intro i i' hii' hi'
  induction i' with
  | zero => omega
  | succ i' ih =>
    rcases Nat.lt_or_ge i i' with hlt | hge
    · have h1 := ih hlt (by omega)
      have h2 := h i' (by omega)
      omega
    · have : i = i' := by omega
      subst this
      exact h i hi'

/-- C3: when no adjacent-window corner sum overflows, `is_monge` accepts a
matrix exactly when the full Monge inequality holds for every pair of rows
`i < i'` and every pair of columns `j < j'`, adjacent or not. -/
theorem claim_C3 (signed : Bool) (bits : Nat) (M : Matrix2 Int)
    (h : ∀ i < M.m - 1, ∀ j < M.n - 1,
      inRange signed bits (M.f i j + M.f (i + 1) (j + 1)) ∧
      inRange signed bits (M.f i (j + 1) + M.f (i + 1) j)) :
    is_monge signed bits M = true ↔
      ∀ i i' j j', i < i' → i' < M.m → j < j' → j' < M.n →
        M.f i j + M.f i' j' ≤ M.f i j' + M.f i' j := by
  rw [is_monge_iff_windows]
  constructor
  · intro hw i i' j j' hii' hi' hjj' hj'
    have hadj : ∀ a b, a + 1 < M.m → b + 1 < M.n →
        M.f a b + M.f (a + 1) (b + 1) ≤ M.f a (b + 1) + M.f (a + 1) b := by
      intro a b ha hb
      have hr := h a (by omega) b (by omega)
      exact (mongeCheck_true_iff signed bits _ _ _ _ hr.1 hr.2).mp
        (hw a (by omega) b (by omega))
    -- first extend each adjacent row pair to the generic column pair,
    -- then telescope over rows
    refine monge_telescope_rows M j j' (fun a ha => ?_) i i' hii' hi'
    exact monge_telescope_cols (fun b => M.f a b) (fun b => M.f (a + 1) b) M.n
      (fun b hb => hadj a b ha hb) j j' hjj' hj'
  · intro hm i hi j hj
    have hr := h i hi j hj
    exact (mongeCheck_true_iff signed bits _ _ _ _ hr.1 hr.2).mpr
      (hm i (i + 1) j (j + 1) (by omega) (by omega) (by omega) (by omega))

/-- Witness for C3 at a concrete `2 ✕ 2` matrix with small entries. -/
theorem claim_C3_witness :
    (∀ i < (Matrix2.mk 2 2 fun i j => (i : Int) + j).m - 1,
      ∀ j < (Matrix2.mk 2 2 fun i j => (i : Int) + j).n - 1,
        inRange false 8 ((Matrix2.mk 2 2 fun i j => (i : Int) + j).f i j +
          (Matrix2.mk 2 2 fun i j => (i : Int) + j).f (i + 1) (j + 1)) ∧
        inRange false 8 ((Matrix2.mk 2 2 fun i j => (i : Int) + j).f i (j + 1) +
          (Matrix2.mk 2 2 fun i j => (i : Int) + j).f (i + 1) j)) ∧
    (is_monge false 8 (Matrix2.mk 2 2 fun i j => (i : Int) + j) = true ↔
      ∀ i i' j j', i < i' → i' < (Matrix2.mk 2 2 fun i j => (i : Int) + j).m →
        j < j' → j' < (Matrix2.mk 2 2 fun i j => (i : Int) + j).n →
        (Matrix2.mk 2 2 fun i j => (i : Int) + j).f i j +
          (Matrix2.mk 2 2 fun i j => (i : Int) + j).f i' j' ≤
        (Matrix2.mk 2 2 fun i j => (i : Int) + j).f i j' +
          (Matrix2.mk 2 2 fun i j => (i : Int) + j).f i' j) :=
  ⟨by decide, claim_C3 false 8 (Matrix2.mk 2 2 fun i j => (i : Int) + j) (by decide)⟩

/-- Witness for C9 (amended) at the `2 ✕ 0` and `0 ✕ 2` integer matrices. -/
theorem claim_C9_witness :
    (recursive_row_minima (Matrix2.mk 2 0 fun _ _ => (0 : Int)) =
        .ok (List.replicate 2 0) ∧
      smawk_row_minima (Matrix2.mk 2 0 fun _ _ => (0 : Int)) = .error .indexOOB) ∧
    (recursive_column_minima (Matrix2.mk 0 2 fun _ _ => (0 : Int)) =
        .ok (List.replicate 2 0) ∧
      smawk_column_minima (Matrix2.mk 0 2 fun _ _ => (0 : Int)) = .error .indexOOB) :=
  ⟨(claim_C9 Int (Matrix2.mk 2 0 fun _ _ => (0 : Int))).1 (by norm_num) rfl,
    (claim_C9 Int (Matrix2.mk 0 2 fun _ _ => (0 : Int))).2 (by norm_num) rfl⟩

/-! ### The left-most argmin over a candidate list -/

theorem lexLe_refl (p : α × Nat) : lexLe p p := Or.inl rfl

theorem lexLe_trans {p q r : α × Nat} (h1 : lexLe p q) (h2 : lexLe q r) : lexLe p r := by
  rcases h1 with rfl | h1
  · exact h2
  · rcases h2 with rfl | h2
    · exact Or.inr h1
    · exact Or.inr (lexLt_trans h1 h2)

theorem lexLe_of_lexLt {p q : α × Nat} (h : lexLt p q) : lexLe p q := Or.inr h

theorem listArgmin_mem (g : Nat → α) (rows : List Nat) (h : rows ≠ []) :
    listArgmin g rows ∈ rows := by
  rcases rows with - | ⟨r, rs⟩
  · exact absurd rfl h
  · exact foldl_lexmin_mem g rs r

theorem listArgmin_le (g : Nat → α) (rows : List Nat) :
    ∀ x ∈ rows, listArgmin g rows = x ∨
      lexLt (g (listArgmin g rows), listArgmin g rows) (g x, x) := by
  rcases rows with - | ⟨r, rs⟩
  · intro x hx
    cases hx
  · exact foldl_lexmin_le g rs r

theorem listArgmin_lexLe (g : Nat → α) (rows : List Nat) :
    ∀ x ∈ rows, lexLe (g (listArgmin g rows), listArgmin g rows) (g x, x) := by
  intro x hx
  rcases listArgmin_le g rows x hx with heq | hlt
  · exact Or.inl (by rw [heq])
  · exact Or.inr hlt

/-- Lexicographic minimality determines the list argmin uniquely. -/
theorem listArgmin_eq_of (g : Nat → α) (rows : List Nat) (j : Nat) (hj : j ∈ rows)
    (hmin : ∀ x ∈ rows, j = x ∨ lexLt (g j, j) (g x, x)) : listArgmin g rows = j := by
  have hne : rows ≠ [] := by
    intro hcontra
    rw [hcontra] at hj
    cases hj
  rcases listArgmin_le g rows j hj with heq | hl
  · exact heq
  · rcases hmin (listArgmin g rows) (listArgmin_mem g rows hne) with heq | hl2
    · exact heq.symm
    · exact absurd (lexLt_trans hl hl2) (lexLt_irrefl _)

/-- If every candidate is lexicographically dominated by some member of a
nonempty sub-candidate list, the argmin is unchanged by the restriction. -/
theorem listArgmin_eq_of_dominated (g : Nat → α) (R S : List Nat)
    (hsub : ∀ s ∈ S, s ∈ R) (hne : S ≠ [])
    (hdom : ∀ p ∈ R, ∃ s ∈ S, lexLe (g s, s) (g p, p)) :
    listArgmin g R = listArgmin g S := by
  apply listArgmin_eq_of
  · exact hsub _ (listArgmin_mem g S hne)
  · intro x hx
    obtain ⟨s, hs, hdle⟩ := hdom x hx
    have h1 : lexLe (g (listArgmin g S), listArgmin g S) (g s, s) :=
      listArgmin_lexLe g S s hs
    have h2 : lexLe (g (listArgmin g S), listArgmin g S) (g x, x) := lexLe_trans h1 hdle
    rcases h2 with heq | hlt
    · left
      exact congrArg Prod.snd heq
    · right
      exact hlt

/-- The argmin over `0, …, len-1` is the left-most lane argmin. -/
theorem listArgmin_range (g : Nat → α) (len : Nat) (h : 1 ≤ len) :
    listArgmin g (List.range len) = leftmostArgmin len g := by
  obtain ⟨k, rfl⟩ : ∃ k, len = k + 1 := ⟨len - 1, by omega⟩
  have hr : List.range (k + 1) = 0 :: List.range' 1 k := by
    rw [List.range_eq_range', List.range'_succ]
  rw [hr]
  unfold listArgmin leftmostArgmin
  rw [hr]
  simp only [List.foldl_cons, ite_self]

/-! ### Restricting a lane to a window containing its left-most argmin -/

/-- Restricting a lane to a prefix window that still contains the left-most
argmin does not change the argmin. -/
theorem leftmostArgmin_prefix (g : Nat → α) (N n' : Nat) (hn' : n' ≤ N)
    (hin : leftmostArgmin N g < n') : leftmostArgmin n' g = leftmostArgmin N g := by
  have hN : 1 ≤ N := by omega
  apply leftmostArgmin_eq_of
  · exact hin
  · intro k hk
    exact leftmostArgmin_lexmin N g k (by omega)

/-- Restricting a lane to a suffix window `[c0, N)` that contains the
left-most argmin shifts the argmin by `c0`. -/
theorem leftmostArgmin_shift (g : Nat → α) (N c0 : Nat) (hc0 : c0 ≤ leftmostArgmin N g)
    (hN : leftmostArgmin N g < N) :
    leftmostArgmin (N - c0) (fun j => g (c0 + j)) = leftmostArgmin N g - c0 := by
  apply leftmostArgmin_eq_of
  · omega
  · intro k hk
    rcases leftmostArgmin_lexmin N g (c0 + k) (by omega) with heq | hlt
    · left
      omega
    · right
      have h1 : g (c0 + (leftmostArgmin N g - c0)) = g (leftmostArgmin N g) := by
        congr 1
        omega
      rcases hlt with hv | ⟨hv, hi⟩
      · left
        rw [h1]
        exact hv
      · right
        constructor
        · rw [h1]
          exact hv
        · omega

/-! ### Monotonicity of the left-most argmin rows/columns -/

/-- For a row-flavour totally monotone accessor, the left-most row argmins
are non-decreasing down the rows. -/
theorem leftmostArgmin_mono (m n : Nat) (f : Nat → Nat → α) (hn : 1 ≤ n)
    (htm : ∀ i i' j j', i < i' → i' < m → j < j' → j' < n →
      f i j > f i j' → f i' j > f i' j') :
    ∀ i i', i < i' → i' < m →
      leftmostArgmin n (f i) ≤ leftmostArgmin n (f i') := by
  intro i i' hii' hi'
  by_contra hcon
  push_neg at hcon
  set j := leftmostArgmin n (f i') with hj
  set j' := leftmostArgmin n (f i) with hj'
  have hjn : j < n := leftmostArgmin_lt n (f i') hn
  have hj'n : j' < n := leftmostArgmin_lt n (f i) hn
  have hgt : f i j > f i j' := by
    rcases lt_trichotomy (f i j) (f i j') with h | h | h
    · exact absurd h (not_lt.mpr (leftmostArgmin_min n (f i) j hjn))
    · have := leftmostArgmin_leftmost n (f i) j hjn h
      omega
    · exact h
  have := htm i i' j j' hii' hi' hcon hj'n hgt
  exact absurd this (not_lt.mpr (leftmostArgmin_min n (f i') j' hj'n))

/-- Decomposing an index map over `range m` at a middle index. -/
theorem map_range_split (F : Nat → Nat) (m mid : Nat) (h : mid < m) :
    (List.range m).map F =
      ((List.range mid).map F) ++ F mid :: ((List.range (m - mid - 1)).map fun i =>
        F (mid + 1 + i)) := by
  have h1 : m = mid + (1 + (m - mid - 1)) := by omega
  conv_lhs => rw [h1]
  rw [List.range_add, List.map_append]
  congr 1
  rw [List.map_map, List.range_add, List.map_append,
    show List.range 1 = [0] from rfl]
  simp only [List.map_map, List.map_cons, List.map_nil, Function.comp_apply, Nat.add_zero]
  rw [List.singleton_append]
  congr 1
  apply List.map_congr_left
  intro i hi
  simp only [Function.comp_apply]
  congr 1
  omega

/-- Correctness of the row-direction divide-and-conquer recursion: on a
nonempty view whose rows satisfy the row-flavour total monotonicity
condition, it returns `offset` plus the left-most argmin of every row. -/
theorem recursive_inner_row_correct :
    ∀ (m n : Nat) (f : Nat → Nat → α) (offset : Nat) (minima : List Nat),
      1 ≤ m → 1 ≤ n → minima.length = m →
      (∀ i i' j j', i < i' → i' < m → j < j' → j' < n → f i j > f i j' → f i' j > f i' j') →
      recursive_inner_row m n f offset minima =
        .ok ((List.range m).map fun i => offset + leftmostArgmin n (f i)) := by
  intro m
  induction m using Nat.strong_induction_on with
  | _ m ih =>
    intro n f offset minima hm hn hlen htm
    rw [recursive_inner_row.eq_def]
    rw [if_neg (by simp [Nat.mul_eq_zero]; omega)]
    simp only
    rw [lane_minimum_eq n (f (m / 2)) hn]
    simp only
    have hrm_mid_lt : leftmostArgmin n (f (m / 2)) < n := leftmostArgmin_lt n _ hn
    by_cases hmid : m / 2 = 0
    · rw [if_pos hmid]
      have hm1 : m = 1 := by omega
      subst hm1
      rcases minima with - | ⟨a, rest⟩
      · simp at hlen
      · have : rest = [] := by simpa using hlen
        subst this
        simp [hmid, show List.range 1 = [0] from rfl]
    · rw [if_neg hmid]
      have hmono := leftmostArgmin_mono m n f hn htm
      have hmidm : m / 2 < m := Nat.div_lt_self (by omega) (by omega)
      -- top-left quadrant
      have htop : recursive_inner_row (m / 2) (leftmostArgmin n (f (m / 2)) + 1) f offset
          (minima.take (m / 2)) =
          .ok ((List.range (m / 2)).map fun i => offset + leftmostArgmin n (f i)) := by
        rw [ih (m / 2) hmidm (leftmostArgmin n (f (m / 2)) + 1) f offset _ (by omega)
          (by omega) (by rw [List.length_take]; omega)
          (fun i i' j j' h1 h2 h3 h4 => htm i i' j j' h1 (by omega) h3 (by omega))]
        congr 1
        apply List.map_congr_left
        intro i hi
        rw [List.mem_range] at hi
        congr 1
        apply leftmostArgmin_prefix
        · omega
        · have := hmono i (m / 2) hi hmidm
          omega
      rw [htop]
      simp only
      -- bottom-right quadrant
      by_cases hbot0 : m - (m / 2 + 1) = 0
      · have hdrop : minima.drop (m / 2 + 1) = [] := List.drop_eq_nil_of_le (by omega)
        have hbot : recursive_inner_row (m - (m / 2 + 1)) (n - leftmostArgmin n (f (m / 2)))
            (fun i j => f (m / 2 + 1 + i) (leftmostArgmin n (f (m / 2)) + j))
            (offset + leftmostArgmin n (f (m / 2))) (minima.drop (m / 2 + 1)) =
            .ok [] := by
          rw [recursive_inner_row.eq_def]
          rw [if_pos (by rw [hbot0, Nat.zero_mul])]
          rw [hdrop]
        rw [hbot]
        simp only
        rw [map_range_split (fun i => offset + leftmostArgmin n (f i)) m (m / 2) hmidm]
        have h0 : m - m / 2 - 1 = 0 := by omega
        rw [h0]
        simp
      · have hshift : ∀ i, i < m - (m / 2 + 1) →
            leftmostArgmin (n - leftmostArgmin n (f (m / 2)))
              (fun j => f (m / 2 + 1 + i) (leftmostArgmin n (f (m / 2)) + j)) =
            leftmostArgmin n (f (m / 2 + 1 + i)) - leftmostArgmin n (f (m / 2)) := by
          intro i hi
          exact leftmostArgmin_shift (f (m / 2 + 1 + i)) n (leftmostArgmin n (f (m / 2)))
            (hmono (m / 2) (m / 2 + 1 + i) (by omega) (by omega))
            (leftmostArgmin_lt n _ hn)
        have hbot : recursive_inner_row (m - (m / 2 + 1)) (n - leftmostArgmin n (f (m / 2)))
            (fun i j => f (m / 2 + 1 + i) (leftmostArgmin n (f (m / 2)) + j))
            (offset + leftmostArgmin n (f (m / 2))) (minima.drop (m / 2 + 1)) =
            .ok ((List.range (m - (m / 2 + 1))).map fun i =>
              offset + leftmostArgmin n (f (m / 2 + 1 + i))) := by
          rw [ih (m - (m / 2 + 1)) (by omega) (n - leftmostArgmin n (f (m / 2)))
            (fun i j => f (m / 2 + 1 + i) (leftmostArgmin n (f (m / 2)) + j))
            (offset + leftmostArgmin n (f (m / 2))) _ (by omega) (by omega)
            (by rw [List.length_drop]; omega)
            (fun i i' j j' h1 h2 h3 h4 hgt => htm (m / 2 + 1 + i) (m / 2 + 1 + i')
              (leftmostArgmin n (f (m / 2)) + j) (leftmostArgmin n (f (m / 2)) + j')
              (by omega) (by omega) (by omega) (by omega) hgt)]
          congr 1
          apply List.map_congr_left
          intro i hi
          rw [List.mem_range] at hi
          rw [hshift i hi]
          have := hmono (m / 2) (m / 2 + 1 + i) (by omega) (by omega)
          omega
        rw [hbot]
        simp only
        rw [map_range_split (fun i => offset + leftmostArgmin n (f i)) m (m / 2) hmidm]
        rw [show m - m / 2 - 1 = m - (m / 2 + 1) by omega]

/-- The column-direction recursion is the row-direction recursion on the
transposed accessor. -/
theorem recursive_inner_col_eq_row :
    ∀ (n m : Nat) (f : Nat → Nat → α) (offset : Nat) (minima : List Nat),
      recursive_inner_col m n f offset minima =
        recursive_inner_row n m (fun j i => f i j) offset minima := by
  intro n
  induction n using Nat.strong_induction_on with
  | _ n ih =>
    intro m f offset minima
    rw [recursive_inner_col.eq_def, recursive_inner_row.eq_def]
    by_cases h0 : m * n = 0
    · rw [if_pos h0, if_pos (by rw [Nat.mul_comm]; exact h0)]
    · rw [if_neg h0, if_neg (by rw [Nat.mul_comm]; exact h0)]
      simp only
      rcases lane_minimum m fun i => f i (n / 2) with e | min_idx
      · rfl
      · simp only
        by_cases hmid : n / 2 = 0
        · rw [if_pos hmid, if_pos hmid]
        · rw [if_neg hmid, if_neg hmid]
          rw [ih (n / 2) (by omega) (min_idx + 1) f offset (minima.take (n / 2))]
          rcases recursive_inner_row (n / 2) (min_idx + 1) (fun j i => f i j) offset
              (minima.take (n / 2)) with e | top
          · rfl
          · simp only
            rw [ih (n - (n / 2 + 1)) (by omega) (m - min_idx)
              (fun i j => f (min_idx + i) (n / 2 + 1 + j)) (offset + min_idx)
              (minima.drop (n / 2 + 1))]

/-- Divide-and-conquer row minima agree with the left-most row argmins on
every row-flavour totally monotone matrix. -/
theorem recursive_row_minima_eq (M : Matrix2 α) (hm : 1 ≤ M.m) (hn : 1 ≤ M.n)
    (htm : ∀ i i' j j', i < i' → i' < M.m → j < j' → j' < M.n →
      M.f i j > M.f i j' → M.f i' j > M.f i' j') :
    recursive_row_minima M = .ok (rowArgmins M) := by
  unfold recursive_row_minima recursive_inner
  rw [recursive_inner_row_correct M.m M.n M.f 0 _ hm hn (by simp) htm]
  unfold rowArgmins
  simp

/-- Divide-and-conquer column minima agree with the left-most column argmins
on every column-flavour totally monotone matrix. -/
theorem recursive_column_minima_eq (M : Matrix2 α) (hm : 1 ≤ M.m) (hn : 1 ≤ M.n)
    (htm : ∀ i i' j j', i < i' → i' < M.m → j < j' → j' < M.n →
      M.f i j > M.f i' j → M.f i j' > M.f i' j') :
    recursive_column_minima M = .ok (colArgmins M) := by
  unfold recursive_column_minima recursive_inner
  rw [recursive_inner_col_eq_row]
  rw [recursive_inner_row_correct M.n M.m (fun j i => M.f i j) 0 _ hn hm (by simp)
    (fun j j' i i' h1 h2 h3 h4 => htm i i' j j' h3 h4 h1 h2)]
  unfold colArgmins
  simp

/-! ### Sorted-list index helpers -/

theorem getD_mem (S : List Nat) (t : Nat) (ht : t < S.length) : S.getD t 0 ∈ S := by
  rw [List.getD_eq_getElem?_getD, List.getElem?_eq_getElem ht]
  exact List.getElem_mem ht

theorem get?_eq_getD (S : List Nat) (t : Nat) (ht : t < S.length) :
    S.get? t = some (S.getD t 0) := by
  rw [List.getD_eq_getElem?_getD, List.get?_eq_getElem?, List.getElem?_eq_getElem ht]
  rfl

theorem sorted_getD_lt (S : List Nat) (hS : S.Chain' (· < ·)) (a b : Nat) (hab : a < b)
    (hb : b < S.length) : S.getD a 0 < S.getD b 0 := by
  have hp := List.chain'_iff_pairwise.mp hS
  have := (List.pairwise_iff_getElem (R := (· < ·)) (l := S)).mp hp a b (by omega) hb hab
  rw [List.getD_eq_getElem?_getD, List.getElem?_eq_getElem (by omega),
    List.getD_eq_getElem?_getD, List.getElem?_eq_getElem hb]
  exact this

theorem sorted_getD_le_iff (S : List Nat) (hS : S.Chain' (· < ·)) (a b : Nat)
    (ha : a < S.length) (hb : b < S.length) : a ≤ b ↔ S.getD a 0 ≤ S.getD b 0 := by
  constructor
  · intro h
    rcases Nat.eq_or_lt_of_le h with rfl | h
    · exact le_refl _
    · exact le_of_lt (sorted_getD_lt S hS a b h hb)
  · intro h
    by_contra hc
    push_neg at hc
    exact absurd (sorted_getD_lt S hS b a hc ha) (not_lt.mpr h)

theorem getD_take (S : List Nat) (k t : Nat) (h : t < k) :
    (S.take k).getD t 0 = S.getD t 0 := by
  rw [List.getD_eq_getElem?_getD, List.getD_eq_getElem?_getD, List.getElem?_take,
    if_pos h]

theorem getD_append_left {A B : List Nat} (t : Nat) (h : t < A.length) :
    (A ++ B).getD t 0 = A.getD t 0 := by
  rw [List.getD_eq_getElem?_getD, List.getD_eq_getElem?_getD, List.getElem?_append,
    if_pos h]

theorem getD_append_last (A : List Nat) (r : Nat) :
    (A ++ [r]).getD A.length 0 = r := by
  rw [List.getD_eq_getElem?_getD, List.getElem?_append_right (le_refl _)]
  simp

theorem getLastD_eq_getD (l : List Nat) :
    ∀ d, l ≠ [] → l.getLastD d = l.getD (l.length - 1) 0 := by
  induction l with
  | nil =>
    intro d h
    exact absurd rfl h
  | cons x t ih =>
    intro d h
    rcases t with - | ⟨y, t'⟩
    · rfl
    · rw [List.getLastD_cons, ih x (by simp)]
      rfl

/-- Downward transfer under the SMAWK monotonicity condition: if an earlier
row is no worse than a later row in some column, it is no worse in every
earlier column. -/
theorem tm_down (g : Nat → Nat → α) (R cols : List Nat) (htm : SmawkMonotone g R cols)
    (s r c c' : Nat) (hs : s ∈ R) (hr : r ∈ R) (hsr : s < r) (hc : c ∈ cols)
    (hc' : c' ∈ cols) (hcc' : c < c') (h : g s c' ≤ g r c') : g s c ≤ g r c := by
  by_contra hcon
  push_neg at hcon
  exact absurd (htm s r c c' hs hr hc hc' hsr hcc' hcon) (not_lt.mpr h)

/-- Depth dominance in the reduce stack: an entry is no worse than any
deeper entry in every column whose position is at most its own depth. -/
theorem chain_dom (g : Nat → Nat → α) (R cols S : List Nat)
    (htm : SmawkMonotone g R cols) (hSR : ∀ s ∈ S, s ∈ R)
    (hS : S.Chain' (· < ·)) (hcols : cols.Chain' (· < ·))
    (hlen : S.length ≤ cols.length) (hchain : ChainInv g cols S) :
    ∀ u t t', u ≤ t → t ≤ t' → t' < S.length →
      g (S.getD t 0) (cols.getD u 0) ≤ g (S.getD t' 0) (cols.getD u 0) := by
  intro u t t' hut htt' ht'
  induction t', htt' using Nat.le_induction with
  | base => exact le_refl _
  | succ t' htt' ih =>
    have ht'' : t' < S.length := by omega
    have hstep : g (S.getD t' 0) (cols.getD t' 0) ≤ g (S.getD (t' + 1) 0) (cols.getD t' 0) :=
      hchain t' (by omega)
    have hdown : g (S.getD t' 0) (cols.getD u 0) ≤ g (S.getD (t' + 1) 0) (cols.getD u 0) := by
      rcases Nat.eq_or_lt_of_le (le_trans hut htt') with heq | hlt
      · rw [heq]
        exact hstep
      · exact tm_down g R cols htm _ _ _ _ (hSR _ (getD_mem S t' ht''))
          (hSR _ (getD_mem S (t' + 1) ht'))
          (sorted_getD_lt S hS t' (t' + 1) (by omega) ht')
          (getD_mem cols u (by omega)) (getD_mem cols t' (by omega))
          (sorted_getD_lt cols hcols u t' hlt (by omega)) hstep
    exact le_trans (ih ht'') hdown

/-- Full specification of the pop phase: it returns the prefix `S.take k`
where every deeper entry was popped because row `r` strictly beats it in the
column aligned with its depth, and the stop condition holds at depth
`k - 1`. -/
theorem smawkPops_spec (g : Nat → Nat → α) (f : Nat → Nat → Except PanicKind α)
    (cols : List Nat) (r : Nat) :
    ∀ (S : List Nat),
      (∀ s ∈ S, ∀ c ∈ cols, f s c = .ok (g s c)) →
      (∀ c ∈ cols, f r c = .ok (g r c)) →
      S.length ≤ cols.length →
      ∃ k, k ≤ S.length ∧ smawkPops f cols r S = .ok (S.take k) ∧
        (∀ t, k ≤ t → t < S.length →
          g (S.getD t 0) (cols.getD t 0) > g r (cols.getD t 0)) ∧
        (0 < k → ¬ g (S.getD (k - 1) 0) (cols.getD (k - 1) 0) > g r (cols.getD (k - 1) 0)) := by
  have H : ∀ (len : Nat) (S : List Nat), S.length ≤ len →
      (∀ s ∈ S, ∀ c ∈ cols, f s c = .ok (g s c)) →
      (∀ c ∈ cols, f r c = .ok (g r c)) →
      S.length ≤ cols.length →
      ∃ k, k ≤ S.length ∧ smawkPops f cols r S = .ok (S.take k) ∧
        (∀ t, k ≤ t → t < S.length →
          g (S.getD t 0) (cols.getD t 0) > g r (cols.getD t 0)) ∧
        (0 < k → ¬ g (S.getD (k - 1) 0) (cols.getD (k - 1) 0) >
          g r (cols.getD (k - 1) 0)) := by
    intro len
    induction len with
    | zero =>
      intro S hSlen hfS hfr hlen
      rcases S with - | ⟨a, as⟩
      · exact ⟨0, by omega, by rw [smawkPops.eq_def]; rfl, by intro t h1 h2; simp at h2,
          by omega⟩
      · simp at hSlen
    | succ len ih =>
      intro S hSlen hfS hfr hlen
      rcases S with - | ⟨a, as⟩
      · exact ⟨0, by omega, by rw [smawkPops.eq_def]; rfl, by intro t h1 h2; simp at h2,
          by omega⟩
      · set S := a :: as with hSdef
        have hne : S ≠ [] := by simp [hSdef]
        have hlpos : 0 < S.length := by simp [hSdef]
        have hcolmem : cols.getD (S.length - 1) 0 ∈ cols := getD_mem cols _ (by omega)
        have htopmem : S.getD (S.length - 1) 0 ∈ S := getD_mem S _ (by omega)
        have hftop : f (S.getLastD 0) (cols.getD (S.length - 1) 0) =
            .ok (g (S.getD (S.length - 1) 0) (cols.getD (S.length - 1) 0)) := by
          rw [getLastD_eq_getD S 0 hne]
          exact hfS _ htopmem _ hcolmem
        have hfrc : f r (cols.getD (S.length - 1) 0) =
            .ok (g r (cols.getD (S.length - 1) 0)) := hfr _ hcolmem
        rw [smawkPops.eq_def]
        simp only [← hSdef]
        rw [hftop, hfrc]
        simp only
        by_cases hgt : g (S.getD (S.length - 1) 0) (cols.getD (S.length - 1) 0) >
            g r (cols.getD (S.length - 1) 0)
        · rw [if_pos hgt]
          have hdl : S.dropLast = S.take (S.length - 1) := List.dropLast_eq_take S
          obtain ⟨k, hk1, hk2, hk3, hk4⟩ := ih S.dropLast
            (by rw [List.length_dropLast]; omega)
            (fun s hs c hc => hfS s (List.dropLast_sublist S |>.mem hs) c hc) hfr
            (by rw [List.length_dropLast]; omega)
          have hlen_dl : S.dropLast.length = S.length - 1 := List.length_dropLast S
          have hgetD_dl : ∀ t, t < S.length - 1 → S.dropLast.getD t 0 = S.getD t 0 := by
            intro t ht
            rw [hdl, getD_take S _ _ ht]
          refine ⟨k, by omega, ?_, ?_, ?_⟩
          · rw [hk2, hdl, List.take_take, min_eq_left (by omega)]
          · intro t h1 h2
            rcases Nat.lt_or_ge t (S.length - 1) with hts | hts
            · rw [← hgetD_dl t hts]
              exact hk3 t h1 (by omega)
            · have : t = S.length - 1 := by omega
              rw [this]
              exact hgt
          · intro hkpos
            have hk1' : k - 1 < S.length - 1 := by omega
            rw [← hgetD_dl (k - 1) hk1']
            exact hk4 hkpos
        · rw [if_neg hgt]
          refine ⟨S.length, le_refl _, by rw [List.take_length], ?_, ?_⟩
          · intro t h1 h2
            omega
          · intro hpos
            exact hgt
  exact fun S => H S.length S (le_refl _)

/-- Effect of one reduce step: popping down to depth `k` and pushing the new
row (when the stack is not full) preserves the stack invariants, keeps every
previously dead row dead, and makes the new row dead as well. -/
theorem reduce_step_spec (g : Nat → Nat → α) (R cols : List Nat)
    (htm : SmawkMonotone g R cols) (hcols : cols.Chain' (· < ·)) (hcne : cols ≠ [])
    (S : List Nat) (r : Nat) (k : Nat)
    (hSR : ∀ s ∈ S, s ∈ R) (hrR : r ∈ R)
    (hS : S.Chain' (· < ·)) (hSr : ∀ s ∈ S, s < r)
    (hlen : S.length ≤ cols.length)
    (hchain : ChainInv g cols S)
    (hk : k ≤ S.length)
    (hstrict : ∀ t, k ≤ t → t < S.length →
      g (S.getD t 0) (cols.getD t 0) > g r (cols.getD t 0))
    (hstop : 0 < k → ¬ g (S.getD (k - 1) 0) (cols.getD (k - 1) 0) >
      g r (cols.getD (k - 1) 0)) :
    ∀ S₂, S₂ = (if (S.take k).length ≠ cols.length then S.take k ++ [r] else S.take k) →
      S₂.Chain' (· < ·) ∧ S₂.length ≤ cols.length ∧ ChainInv g cols S₂ ∧
      (∀ p, DeadFor g cols S p → DeadFor g cols S₂ p) ∧ DeadFor g cols S₂ r ∧
      (∀ s ∈ S₂, s ∈ S ∨ s = r) ∧ (∀ s ∈ S₂, s ≤ r) ∧ S₂ ≠ [] := by
  intro S₂ hS₂
  have hcolslen : 1 ≤ cols.length := by
    rcases cols with - | ⟨c, cs⟩
    · exact absurd rfl hcne
    · simp
  have htklen : (S.take k).length = k := by
    rw [List.length_take]
    omega
  have htk_getD : ∀ t, t < k → (S.take k).getD t 0 = S.getD t 0 :=
    fun t ht => getD_take S k t ht
  have htk_sub : (S.take k).Sublist S := List.take_sublist k S
  have htk_sorted : (S.take k).Chain' (· < ·) := List.Chain'.sublist hS htk_sub
  have htk_mem : ∀ s ∈ S.take k, s ∈ S := fun s hs => htk_sub.mem hs
  -- the band below the stop point is weakly dominated by the new row
  have hband : ∀ u, u < k → g (S.getD u 0) (cols.getD u 0) ≤ g r (cols.getD u 0) := by
    intro u hu
    have hk1 : k - 1 < S.length := by omega
    have hdom : g (S.getD u 0) (cols.getD u 0) ≤ g (S.getD (k - 1) 0) (cols.getD u 0) :=
      chain_dom g R cols S htm hSR hS hcols hlen hchain u u (k - 1) (le_refl _)
        (by omega) hk1
    have hstop' : g (S.getD (k - 1) 0) (cols.getD (k - 1) 0) ≤ g r (cols.getD (k - 1) 0) :=
      not_lt.mp (hstop (by omega))
    have hdown : g (S.getD (k - 1) 0) (cols.getD u 0) ≤ g r (cols.getD u 0) := by
      rcases Nat.eq_or_lt_of_le (show u ≤ k - 1 by omega) with heq | hlt
      · rw [heq]
        exact hstop'
      · exact tm_down g R cols htm _ _ _ _ (hSR _ (getD_mem S (k - 1) hk1)) hrR
          (hSr _ (getD_mem S (k - 1) hk1)) (getD_mem cols u (by omega))
          (getD_mem cols (k - 1) (by omega))
          (sorted_getD_lt cols hcols u (k - 1) hlt (by omega)) hstop'
    exact le_trans hdom hdown
  -- the rows popped above the stop point are strictly beaten by the new row
  -- in every column at their depth or beyond
  have hbeat : ∀ t u, k ≤ t → t < S.length → t ≤ u → u < cols.length →
      g r (cols.getD u 0) < g (S.getD t 0) (cols.getD u 0) := by
    intro t u hkt ht htu hu
    rcases Nat.eq_or_lt_of_le htu with heq | hlt
    · rw [← heq]
      exact hstrict t hkt ht
    · exact htm (S.getD t 0) r _ _ (hSR _ (getD_mem S t ht)) hrR
        (getD_mem cols t (by omega)) (getD_mem cols u hu)
        (hSr _ (getD_mem S t ht)) (sorted_getD_lt cols hcols t u hlt hu)
        (hstrict t hkt ht)
  by_cases hfull : (S.take k).length ≠ cols.length
  · -- push case
    rw [if_pos hfull] at hS₂
    have hklt : k < cols.length := by omega
    have hS₂len : S₂.length = k + 1 := by
      rw [hS₂, List.length_append, htklen]
      rfl
    have hS₂get_lt : ∀ t, t < k → S₂.getD t 0 = S.getD t 0 := by
      intro t ht
      rw [hS₂, getD_append_left t (by omega), htk_getD t ht]
    have hS₂get_k : S₂.getD k 0 = r := by
      have h := getD_append_last (S.take k) r
      rw [htklen] at h
      rw [hS₂, h]
    refine ⟨?_, by omega, ?_, ?_, ?_, ?_, ?_, ?_⟩
    · -- sorted
      rw [hS₂]
      apply List.Chain'.append htk_sorted (List.chain'_singleton r)
      intro x hx y hy
      rw [List.head?_cons, Option.mem_some_iff] at hy
      subst hy
      exact hSr x (htk_mem x (List.mem_of_mem_getLast? hx))
    · -- chain invariant
      intro t ht
      rw [hS₂len] at ht
      rcases Nat.lt_or_ge (t + 1) k with h1 | h1
      · rw [hS₂get_lt t (by omega), hS₂get_lt (t + 1) h1]
        exact hchain t (by omega)
      · have htk : t + 1 = k := by omega
        rw [hS₂get_lt t (by omega), htk, hS₂get_k]
        exact hband t (by omega)
    · -- old dead rows stay dead
      intro p hp u hu
      obtain ⟨t, ht, htu, hlex⟩ := hp u hu
      rcases Nat.lt_or_ge t k with h1 | h1
      · exact ⟨t, by omega, htu, by rwa [hS₂get_lt t h1]⟩
      · refine ⟨k, by omega, by omega, ?_⟩
        rw [hS₂get_k]
        refine lexLe_trans (lexLe_of_lexLt ?_) hlex
        exact Or.inl (hbeat t u h1 ht htu hu)
    · -- the new row is dead
      intro u hu
      rcases Nat.lt_or_ge u k with h1 | h1
      · refine ⟨u, by omega, le_refl _, ?_⟩
        rw [hS₂get_lt u h1]
        have hval := hband u h1
        rcases lt_or_eq_of_le hval with hval | hval
        · exact lexLe_of_lexLt (Or.inl hval)
        · exact lexLe_of_lexLt (Or.inr ⟨hval, hSr _ (getD_mem S u (by omega))⟩)
      · exact ⟨k, by omega, h1, by rw [hS₂get_k]; exact lexLe_refl _⟩
    · -- members
      intro s hs
      rw [hS₂, List.mem_append] at hs
      rcases hs with hs | hs
      · exact Or.inl (htk_mem s hs)
      · rw [List.mem_singleton] at hs
        exact Or.inr hs
    · -- bounded by r
      intro s hs
      rw [hS₂, List.mem_append] at hs
      rcases hs with hs | hs
      · exact le_of_lt (hSr s (htk_mem s hs))
      · rw [List.mem_singleton] at hs
        omega
    · -- nonempty
      rw [hS₂]
      simp
  · -- full-stack case: no pops happened and the row is discarded
    rw [if_neg hfull] at hS₂
    push_neg at hfull
    have hkc : k = cols.length := by
      rw [htklen] at hfull
      exact hfull
    have hSlen : S.length = k := by omega
    have hS₂S : S₂ = S := by
      rw [hS₂, ← hSlen, List.take_length]
    rw [hS₂S]
    refine ⟨hS, by omega, hchain, fun p hp => hp, ?_, fun s hs => Or.inl hs,
      fun s hs => le_of_lt (hSr s hs), ?_⟩
    · -- the discarded row is dead
      intro u hu
      refine ⟨u, by omega, le_refl _, ?_⟩
      have hval := hband u (by omega)
      rcases lt_or_eq_of_le hval with hval | hval
      · exact lexLe_of_lexLt (Or.inl hval)
      · exact lexLe_of_lexLt (Or.inr ⟨hval, hSr _ (getD_mem S u (by omega))⟩)
    · -- nonempty since the stack has one entry per column
      intro hcontra
      rw [hcontra] at hSlen
      simp at hSlen
      omega

/-- Invariant of the reduce fold over the remaining candidate rows. -/
theorem smawkReduce_loop (g : Nat → Nat → α) (f : Nat → Nat → Except PanicKind α)
    (cols : List Nat) (hcols : cols.Chain' (· < ·)) (hcne : cols ≠ []) :
    ∀ (todo P S : List Nat),
      (P ++ todo).Chain' (· < ·) →
      (∀ x ∈ P ++ todo, ∀ c ∈ cols, f x c = .ok (g x c)) →
      SmawkMonotone g (P ++ todo) cols →
      (∀ s ∈ S, s ∈ P) →
      (∀ s ∈ S, ∀ x ∈ todo, s < x) →
      S.Chain' (· < ·) →
      S.length ≤ cols.length →
      ChainInv g cols S →
      (∀ p ∈ P, DeadFor g cols S p) →
      ∃ S', (todo.foldlM (fun stack r => do
          let s ← smawkPops f cols r stack
          if s.length ≠ cols.length then pure (s ++ [r]) else pure s) S) = .ok S' ∧
        (∀ s ∈ S', s ∈ P ++ todo) ∧ S'.Chain' (· < ·) ∧ S'.length ≤ cols.length ∧
        (∀ p ∈ P ++ todo, DeadFor g cols S' p) ∧
        ((S ≠ [] ∨ todo ≠ []) → S' ≠ []) := by
  intro todo
  induction todo with
  | nil =>
    intro P S hsorted hf htm hSP hSlt hS hSlen hchain hdead
    refine ⟨S, rfl, by simpa using hSP, hS, hSlen, by simpa using hdead, ?_⟩
    intro h
    rcases h with h | h
    · exact h
    · exact absurd rfl h
  | cons r todo' ih =>
    intro P S hsorted hf htm hSP hSlt hS hSlen hchain hdead
    have hrmem : r ∈ P ++ r :: todo' := by simp
    have hSmem : ∀ s ∈ S, s ∈ P ++ r :: todo' := fun s hs => by
      simp [hSP s hs]
    obtain ⟨k, hk1, hk2, hk3, hk4⟩ := smawkPops_spec g f cols r S
      (fun s hs c hc => hf s (hSmem s hs) c hc) (fun c hc => hf r hrmem c hc) hSlen
    have hSr : ∀ s ∈ S, s < r := fun s hs => hSlt s hs r (List.mem_cons_self r todo')
    obtain ⟨hs1, hs2, hs3, hs4, hs5, hs6, hs7, hs8⟩ :=
      reduce_step_spec g (P ++ r :: todo') cols htm hcols hcne S r k hSmem hrmem hS hSr
        hSlen hchain hk1 hk3 hk4
        (if (S.take k).length ≠ cols.length then S.take k ++ [r] else S.take k) rfl
    set S₂ := if (S.take k).length ≠ cols.length then S.take k ++ [r] else S.take k
      with hS₂def
    have hbind : (do
        let s ← Except.ok (S.take k)
        if s.length ≠ cols.length then pure (s ++ [r]) else pure s :
        Except PanicKind (List Nat)) =
        (if (S.take k).length ≠ cols.length then pure (S.take k ++ [r])
          else pure (S.take k) : Except PanicKind (List Nat)) := rfl
    have hstep : (do
        let s ← smawkPops f cols r S
        if s.length ≠ cols.length then pure (s ++ [r]) else pure s :
        Except PanicKind (List Nat)) = .ok S₂ := by
      rw [hk2, hbind]
      by_cases hl : (S.take k).length ≠ cols.length
      · rw [hS₂def, if_pos hl, if_pos hl]
        rfl
      · rw [hS₂def, if_neg hl, if_neg hl]
        rfl
    -- pairwise facts about the full sorted row list
    have hpw : (P ++ r :: todo').Pairwise (· < ·) := List.chain'_iff_pairwise.mp hsorted
    have hr_todo : ∀ x ∈ todo', r < x := by
      have := (List.pairwise_append.mp hpw).2.1
      exact (List.pairwise_cons.mp this).1
    have hassoc : (P ++ [r]) ++ todo' = P ++ r :: todo' := by
      rw [List.append_assoc]
      rfl
    have hS₂mem : ∀ s ∈ S₂, s ∈ P ++ [r] := by
      intro s hs
      rcases hs6 s hs with h | h
      · simp [hSP s h]
      · simp [h]
    obtain ⟨S', hfold, hc1, hc2, hc3, hc4, hc5⟩ := ih (P ++ [r]) S₂
      (by rw [hassoc]; exact hsorted)
      (by rw [hassoc]; exact hf)
      (by rw [hassoc]; exact htm)
      hS₂mem
      (fun s hs x hx => lt_of_le_of_lt (hs7 s hs) (hr_todo x hx))
      hs1 hs2 hs3
      (by
        intro p hp
        rw [List.mem_append] at hp
        rcases hp with hp | hp
        · exact hs4 p (hdead p hp)
        · rw [List.mem_singleton] at hp
          exact hp ▸ hs5)
    refine ⟨S', ?_, ?_, hc2, hc3, ?_, fun h => hc5 (Or.inl hs8)⟩
    · rw [List.foldlM_cons, hstep]
      exact hfold
    · intro s hs
      have := hc1 s hs
      rwa [hassoc] at this
    · intro p hp
      apply hc4
      rw [hassoc]
      exact hp

/-- Full correctness of the reduce phase: it succeeds, the surviving stack
is a sorted nonempty subset of the candidate rows, and the per-column
left-most argmin over all candidate rows survives in the stack. -/
theorem smawkReduce_correct (g : Nat → Nat → α) (f : Nat → Nat → Except PanicKind α)
    (rows cols : List Nat) (hrows : rows.Chain' (· < ·)) (hcols : cols.Chain' (· < ·))
    (hrne : rows ≠ []) (hcne : cols ≠ [])
    (hf : ∀ x ∈ rows, ∀ c ∈ cols, f x c = .ok (g x c))
    (htm : SmawkMonotone g rows cols) :
    ∃ stack, smawkReduce f cols rows = .ok stack ∧
      (∀ s ∈ stack, s ∈ rows) ∧ stack.Chain' (· < ·) ∧ stack ≠ [] ∧
      stack.length ≤ cols.length ∧
      (∀ c ∈ cols, listArgmin (fun x => g x c) rows = listArgmin (fun x => g x c) stack) := by
  obtain ⟨S', hfold, hc1, hc2, hc4, hc5, hc6⟩ := smawkReduce_loop g f cols hcols hcne
    rows [] [] (by simpa using hrows) (by simpa using hf) (by simpa using htm)
    (by simp) (by simp) (by simp) (by simp) (by intro t ht; simp at ht)
    (by intro p hp; simp at hp)
  simp only [List.nil_append] at hc1 hc5
  refine ⟨S', hfold, hc1, hc2, hc6 (Or.inr hrne), hc4, ?_⟩
  intro c hc
  obtain ⟨u, hu⟩ := List.mem_iff_get?.mp hc
  have hulen : u < cols.length := by
    by_contra hcon
    push_neg at hcon
    rw [List.get?_eq_none.mpr hcon] at hu
    cases hu
  have hcu : cols.getD u 0 = c := by
    rw [List.getD_eq_getElem?_getD, ← List.get?_eq_getElem?, hu]
    rfl
  apply listArgmin_eq_of_dominated
  · exact hc1
  · exact hc6 (Or.inr hrne)
  · intro p hp
    obtain ⟨t, ht, htu, hlex⟩ := hc5 p hp u hulen
    refine ⟨S'.getD t 0, getD_mem S' t ht, ?_⟩
    rwa [hcu] at hlex

/-! ### The conquer scan -/

theorem pairMin_cases (p q : α × Nat) : pairMin p q = p ∨ pairMin p q = q := by
  unfold pairMin
  by_cases h : lexLt q p <;> simp [h]

theorem pairMin_le_left (p q : α × Nat) : lexLe (pairMin p q) p := by
  unfold pairMin
  by_cases h : lexLt q p
  · rw [if_pos h]
    exact lexLe_of_lexLt h
  · rw [if_neg h]
    exact lexLe_refl p

theorem pairMin_le_right (p q : α × Nat) : lexLe (pairMin p q) q := by
  unfold pairMin
  by_cases h : lexLt q p
  · rw [if_pos h]
    exact lexLe_refl q
  · rw [if_neg h]
    rcases eq_or_ne p q with heq | hne
    · exact Or.inl heq
    · exact Or.inr (lexLt_of_not q p hne.symm h)

theorem foldl_pairMin_mem (K : List (α × Nat)) :
    ∀ p0, K.foldl pairMin p0 ∈ p0 :: K := by
  induction K with
  | nil => intro p0; simp
  | cons k ks ih =>
    intro p0
    rw [List.foldl_cons]
    rcases List.mem_cons.mp (ih (pairMin p0 k)) with h | h
    · rw [h]
      rcases pairMin_cases p0 k with h' | h' <;> rw [h'] <;> simp
    · simp [h]

theorem foldl_pairMin_le (K : List (α × Nat)) :
    ∀ p0, ∀ q ∈ p0 :: K, lexLe (K.foldl pairMin p0) q := by
  induction K with
  | nil =>
    intro p0 q hq
    rw [List.mem_singleton] at hq
    rw [List.foldl_nil, hq]
    exact lexLe_refl p0
  | cons k ks ih =>
    intro p0 q hq
    rw [List.foldl_cons]
    rcases List.mem_cons.mp hq with hq | hq
    · rw [hq]
      exact lexLe_trans (ih (pairMin p0 k) _ (List.mem_cons_self _ _)) (pairMin_le_left p0 k)
    · rcases List.mem_cons.mp hq with hq | hq
      · rw [hq]
        exact lexLe_trans (ih (pairMin p0 k) _ (List.mem_cons_self _ _))
          (pairMin_le_right p0 k)
      · exact ih (pairMin p0 k) q (List.mem_cons_of_mem _ hq)

/-- Full specification of the conquer scan: starting at stack position `r0`
with an already-accumulated `pair`, scanning up to the row at position
`r0 + d` stops exactly there and returns the lexicographic minimum of `pair`
and the keys of the scanned rows. -/
theorem smawkScan_spec (g : Nat → Nat → α) (f : Nat → Nat → Except PanicKind α)
    (S : List Nat) (col : Nat)
    (hf : ∀ s ∈ S, f s col = .ok (g s col)) (hS : S.Chain' (· < ·)) :
    ∀ (d r0 : Nat) (pair : α × Nat), r0 + d < S.length →
      ∃ pair', smawkScan f S col (S.getD (r0 + d) 0) r0 (S.getD r0 0) pair =
          .ok (r0 + d, pair') ∧
        pair' ∈ pair :: ((List.range' (r0 + 1) d).map fun t =>
          (g (S.getD t 0) col, S.getD t 0)) ∧
        ∀ q ∈ pair :: ((List.range' (r0 + 1) d).map fun t =>
          (g (S.getD t 0) col, S.getD t 0)), lexLe pair' q := by
  intro d
  induction d with
  | zero =>
    intro r0 pair h
    refine ⟨pair, ?_, by simp, ?_⟩
    · rw [smawkScan.eq_def]
      simp
    · intro q hq
      simp at hq
      rw [hq]
      exact lexLe_refl pair
  | succ d ih =>
    intro r0 pair h
    have hne : S.getD r0 0 ≠ S.getD (r0 + (d + 1)) 0 := by
      have := sorted_getD_lt S hS r0 (r0 + (d + 1)) (by omega) h
      omega
    have hr1 : r0 + 1 < S.length := by omega
    obtain ⟨pair', hrun, hmem, hle⟩ := ih (r0 + 1) (pairMin pair
      (g (S.getD (r0 + 1) 0) col, S.getD (r0 + 1) 0)) (by omega)
    rw [show r0 + 1 + d = r0 + (d + 1) by omega] at hrun
    refine ⟨pair', ?_, ?_, ?_⟩
    · rw [smawkScan.eq_def, if_neg hne, get?_eq_getD S (r0 + 1) hr1]
      simp only
      rw [hf (S.getD (r0 + 1) 0) (getD_mem S (r0 + 1) hr1)]
      exact hrun
    · rw [List.range'_succ, List.map_cons]
      rcases List.mem_cons.mp hmem with hm | hm
      · rcases pairMin_cases pair (g (S.getD (r0 + 1) 0) col, S.getD (r0 + 1) 0) with
          h' | h'
        · rw [h'] at hm
          rw [hm]
          exact List.mem_cons_self _ _
        · rw [h'] at hm
          rw [hm]
          exact List.mem_cons_of_mem _ (List.mem_cons_self _ _)
      · exact List.mem_cons_of_mem _ (List.mem_cons_of_mem _ hm)
    · rw [List.range'_succ, List.map_cons]
      intro q hq
      rcases List.mem_cons.mp hq with hq | hq
      · rw [hq]
        exact lexLe_trans (hle _ (List.mem_cons_self _ _)) (pairMin_le_left _ _)
      · rcases List.mem_cons.mp hq with hq | hq
        · rw [hq]
          exact lexLe_trans (hle _ (List.mem_cons_self _ _)) (pairMin_le_right _ _)
        · exact hle q (List.mem_cons_of_mem _ hq)

/-- Antisymmetry of the weak lexicographic order. -/
theorem lexLe_antisymm {p q : α × Nat} (h1 : lexLe p q) (h2 : lexLe q p) : p = q := by
  rcases h1 with h1 | h1
  · exact h1
  · rcases h2 with h2 | h2
    · exact h2.symm
    · exact absurd (lexLt_trans h1 h2) (lexLt_irrefl p)

/-- Argmin rows move weakly downwards as the column moves right. -/
theorem listArgmin_col_mono (g : Nat → Nat → α) (R cols S : List Nat)
    (htm : SmawkMonotone g R cols) (hSR : ∀ s ∈ S, s ∈ R) (hSne : S ≠ [])
    (c c' : Nat) (hc : c ∈ cols) (hc' : c' ∈ cols) (hcc' : c < c') :
    listArgmin (fun x => g x c) S ≤ listArgmin (fun x => g x c') S := by
  by_contra hcon
  push_neg at hcon
  have ha : listArgmin (fun x => g x c) S = listArgmin (fun x => g x c) S := rfl
  generalize hae : listArgmin (fun x => g x c) S = a at hcon
  generalize hbe : listArgmin (fun x => g x c') S = b at hcon
  have hamem : a ∈ S := hae ▸ listArgmin_mem (fun x => g x c) S hSne
  have hbmem : b ∈ S := hbe ▸ listArgmin_mem (fun x => g x c') S hSne
  have h1 : lexLe (g a c, a) (g b c, b) := by
    have := listArgmin_lexLe (fun x => g x c) S b hbmem
    rwa [hae] at this
  have hba : g b c > g a c := by
    rcases h1 with h1 | h1
    · injection h1 with hv hi
      omega
    · rcases h1 with h1 | ⟨h1, h1'⟩
      · exact h1
      · omega
  have h2 : g b c' > g a c' := htm b a c c' (hSR b hbmem) (hSR a hamem) hc hc' hcon hcc' hba
  have h3 : lexLe (g b c', b) (g a c', a) := by
    have := listArgmin_lexLe (fun x => g x c') S a hamem
    rwa [hbe] at this
  rcases h3 with h3 | h3
  · injection h3 with hv hi
    omega
  · rcases h3 with h3 | ⟨h3, h3'⟩
    · exact absurd h2 (lt_asymm h3)
    · have h3v : g b c' = g a c' := h3
      rw [h3v] at h2
      exact lt_irrefl _ h2

/-! ### Characterisation of the even/odd column splits -/

theorem enumFrom_add (l : List Nat) (n : Nat) :
    ∀ k, l.enumFrom (n + k) = (l.enumFrom k).map fun p => (p.1 + n, p.2) := by
  induction l with
  | nil => intro k; simp
  | cons a l ih =>
    intro k
    rw [List.enumFrom_cons, List.enumFrom_cons, List.map_cons]
    refine congrArg₂ _ (by simp [Nat.add_comm]) ?_
    rw [show n + k + 1 = n + (k + 1) by omega, ih (k + 1)]

theorem filter_even_shift (cs : List Nat) :
    ((cs.enumFrom 2).filter fun p => p.1 % 2 = 0) =
      (cs.enum.filter fun p => p.1 % 2 = 0).map fun p => (p.1 + 2, p.2) := by
  rw [show (2 : Nat) = 2 + 0 by rfl, enumFrom_add cs 2 0]
  show ((cs.enum.map fun p => (p.1 + 2, p.2)).filter fun p => p.1 % 2 = 0) = _
  rw [List.filter_map]
  refine congrArg _ (List.filter_congr ?_)
  intro p hp
  simp [Function.comp, Nat.add_mod_right]

theorem filter_odd_shift (cs : List Nat) :
    ((cs.enumFrom 2).filter fun p => p.1 % 2 = 1) =
      (cs.enum.filter fun p => p.1 % 2 = 1).map fun p => (p.1 + 2, p.2) := by
  rw [show (2 : Nat) = 2 + 0 by rfl, enumFrom_add cs 2 0]
  show ((cs.enum.map fun p => (p.1 + 2, p.2)).filter fun p => p.1 % 2 = 1) = _
  rw [List.filter_map]
  refine congrArg _ (List.filter_congr ?_)
  intro p hp
  simp [Function.comp, Nat.add_mod_right]

/-- The filtered enumeration driving the conquer loop is exactly the even
positions `0, 2, 4, …` paired with the columns sitting there. -/
theorem evens_eq (cols : List Nat) :
    (cols.enum.filter fun p => p.1 % 2 = 0) =
      (List.range ((cols.length + 1) / 2)).map fun e => (2 * e, cols.getD (2 * e) 0) := by
  have H : ∀ n (cs : List Nat), cs.length ≤ n →
      (cs.enum.filter fun p => p.1 % 2 = 0) =
        (List.range ((cs.length + 1) / 2)).map fun e => (2 * e, cs.getD (2 * e) 0) := by
    intro n
    induction n with
    | zero =>
      intro cs hcs
      have : cs = [] := List.length_eq_zero.mp (Nat.le_zero.mp hcs)
      subst this
      simp
    | succ n ih =>
      intro cs hcs
      match cs with
      | [] => simp
      | [c] =>
        show List.filter _ [(0, c)] = _
        rw [show ([c].length + 1) / 2 = 1 by norm_num, show List.range 1 = [0] from rfl]
        simp
      | c0 :: c1 :: cs' =>
        have h1 : ((c0 :: c1 :: cs').enum.filter fun p => p.1 % 2 = 0) =
            (0, c0) :: ((cs'.enumFrom 2).filter fun p => p.1 % 2 = 0) := by
          rw [List.enum_cons, List.filter_cons]
          norm_num
        rw [h1, filter_even_shift,
          ih cs' (by simp only [List.length_cons] at hcs; omega)]
        have h2 : (c0 :: c1 :: cs').length + 1 = (cs'.length + 1) + 1 * 2 := by
          simp only [List.length_cons]
        rw [h2, Nat.add_mul_div_right _ _ (by omega), List.range_succ_eq_map]
        rw [List.map_cons, List.map_map, List.map_map]
        refine congrArg₂ _ (by simp) (List.map_congr_left ?_)
        intro e he
        simp only [Function.comp]
        refine congrArg₂ _ (by omega) ?_
        show (c0 :: c1 :: cs').getD (2 * (e + 1)) 0 = cs'.getD (2 * e) 0
        rw [show 2 * (e + 1) = 2 * e + 1 + 1 by omega]
        rfl
  exact H cols.length cols le_rfl

theorem oddCols_cons_cons (c0 c1 : Nat) (cs : List Nat) :
    oddCols (c0 :: c1 :: cs) = c1 :: oddCols cs := by
  unfold oddCols
  rw [List.enum_cons, List.filter_cons]
  norm_num
  rw [filter_odd_shift, List.map_map]
  rfl

/-- The odd-column list is the columns at positions `1, 3, 5, …`. -/
theorem oddCols_eq (cols : List Nat) :
    oddCols cols = (List.range (cols.length / 2)).map fun e => cols.getD (2 * e + 1) 0 := by
  have H : ∀ n (cs : List Nat), cs.length ≤ n →
      oddCols cs = (List.range (cs.length / 2)).map fun e => cs.getD (2 * e + 1) 0 := by
    intro n
    induction n with
    | zero =>
      intro cs hcs
      have : cs = [] := List.length_eq_zero.mp (Nat.le_zero.mp hcs)
      subst this
      simp [oddCols]
    | succ n ih =>
      intro cs hcs
      match cs with
      | [] => simp [oddCols]
      | [c] =>
        show ((List.filter _ [(0, c)]).map _) = _
        simp
      | c0 :: c1 :: cs' =>
        rw [oddCols_cons_cons, ih cs' (by simp only [List.length_cons] at hcs; omega)]
        have h2 : (c0 :: c1 :: cs').length = cs'.length + 1 * 2 := by
          simp only [List.length_cons]
        rw [h2, Nat.add_mul_div_right _ _ (by omega), List.range_succ_eq_map]
        rw [List.map_cons, List.map_map]
        refine congrArg₂ _ (by simp) (List.map_congr_left ?_)
        intro e he
        simp only [Function.comp]
        show (c0 :: c1 :: cs').getD (2 * (e + 1) + 1) 0 = cs'.getD (2 * e + 1) 0
        rw [show 2 * (e + 1) + 1 = 2 * e + 1 + 1 + 1 by omega]
        rfl
  exact H cols.length cols le_rfl

/-- `oddCols cols` is a sublist of `cols`. -/
theorem oddCols_sublist (cols : List Nat) : (oddCols cols).Sublist cols := by
  have h1 : ((cols.enum.filter fun p => p.1 % 2 = 1).map Prod.snd).Sublist
      (cols.enum.map Prod.snd) := (List.filter_sublist _).map Prod.snd
  rwa [List.enum_map_snd] at h1

theorem getLast?_eq_getD (S : List Nat) (h : S ≠ []) :
    S.getLast? = some (S.getD (S.length - 1) 0) := by
  induction S with
  | nil => exact absurd rfl h
  | cons s ss ih =>
    match ss with
    | [] => rfl
    | s' :: ss' =>
      rw [List.getLast?_cons_cons, ih (by simp)]
      rfl

theorem mem_pos_getD (S : List Nat) (x : Nat) (hx : x ∈ S) :
    ∃ p, p < S.length ∧ S.getD p 0 = x := by
  obtain ⟨i, hi, hval⟩ := List.mem_iff_getElem.mp hx
  refine ⟨i, hi, ?_⟩
  rw [List.getD_eq_getElem?_getD, List.getElem?_eq_getElem hi]
  exact hval

/-- One iteration of the conquer loop in the `c == cols.len() - 1` branch. -/
theorem smawkConquer_cons_last (f : Nat → Nat → Except PanicKind α)
    (S cols : List Nat) (c col r : Nat) (rest : List (Nat × Nat)) (m : List Nat)
    (row : Nat) (hrow : S.get? r = some row)
    (hc : c = cols.length - 1)
    (lr : Nat) (hlr : S.getLast? = some lr)
    (v : α) (hv : f row col = .ok v)
    (r' : Nat) (pair : α × Nat)
    (hscan : smawkScan f S col lr r row (v, row) = .ok (r', pair))
    (hcol : col < m.length) :
    smawkConquer f S cols ((c, col) :: rest) r m =
      smawkConquer f S cols rest r' (m.set col pair.2) := by
  simp only [smawkConquer]
  rw [hrow]
  simp only
  rw [if_pos hc, hlr]
  simp only
  rw [hv]
  simp only
  rw [hscan]
  simp only
  rw [if_pos hcol]

/-- One iteration of the conquer loop in the `c != cols.len() - 1` branch. -/
theorem smawkConquer_cons_mid (f : Nat → Nat → Except PanicKind α)
    (S cols : List Nat) (c col r : Nat) (rest : List (Nat × Nat)) (m : List Nat)
    (row : Nat) (hrow : S.get? r = some row)
    (hc : ¬ c = cols.length - 1)
    (c' : Nat) (hc' : cols.get? (c + 1) = some c')
    (lr : Nat) (hlr : m.get? c' = some lr)
    (v : α) (hv : f row col = .ok v)
    (r' : Nat) (pair : α × Nat)
    (hscan : smawkScan f S col lr r row (v, row) = .ok (r', pair))
    (hcol : col < m.length) :
    smawkConquer f S cols ((c, col) :: rest) r m =
      smawkConquer f S cols rest r' (m.set col pair.2) := by
  simp only [smawkConquer]
  rw [hrow]
  simp only
  rw [if_neg hc, hc']
  simp only
  rw [hlr]
  simp only
  rw [hv]
  simp only
  rw [hscan]
  simp only
  rw [if_pos hcol]

/-- When the stop row sits at position `p_next ≥ r₀` and the overall argmin of
the column lies in the scanned window, the conquer scan returns exactly the
stop position together with the argmin key of the column. -/
theorem smawkScan_argmin (g : Nat → Nat → α) (f : Nat → Nat → Except PanicKind α)
    (S : List Nat) (col : Nat)
    (hf : ∀ s ∈ S, f s col = .ok (g s col)) (hS : S.Chain' (· < ·))
    (r₀ p_next : Nat) (hr₀p : r₀ ≤ p_next) (hpnext : p_next < S.length)
    (hwindow : ∃ p, r₀ ≤ p ∧ p ≤ p_next ∧ p < S.length ∧
        S.getD p 0 = listArgmin (fun x => g x col) S) :
    smawkScan f S col (S.getD p_next 0) r₀ (S.getD r₀ 0)
        (g (S.getD r₀ 0) col, S.getD r₀ 0) =
      .ok (p_next, (g (listArgmin (fun x => g x col) S) col,
        listArgmin (fun x => g x col) S)) := by
  obtain ⟨pair', hrun, hmem, hle⟩ := smawkScan_spec g f S col hf hS (p_next - r₀) r₀
    (g (S.getD r₀ 0) col, S.getD r₀ 0) (by omega)
  rw [show r₀ + (p_next - r₀) = p_next by omega] at hrun
  have hform : ∀ q ∈ (g (S.getD r₀ 0) col, S.getD r₀ 0) ::
      ((List.range' (r₀ + 1) (p_next - r₀)).map fun t =>
        (g (S.getD t 0) col, S.getD t 0)), ∃ s, s ∈ S ∧ q = (g s col, s) := by
    intro q hq
    rcases List.mem_cons.mp hq with hq | hq
    · exact ⟨S.getD r₀ 0, getD_mem S r₀ (by omega), hq⟩
    · obtain ⟨t, ht, hqt⟩ := List.mem_map.mp hq
      have htb := List.mem_range'_1.mp ht
      exact ⟨S.getD t 0, getD_mem S t (by omega), hqt.symm⟩
  obtain ⟨p, hp1, hp2, hp3, hpval⟩ := hwindow
  have hkey : (g (listArgmin (fun x => g x col) S) col, listArgmin (fun x => g x col) S) ∈
      (g (S.getD r₀ 0) col, S.getD r₀ 0) ::
        ((List.range' (r₀ + 1) (p_next - r₀)).map fun t =>
          (g (S.getD t 0) col, S.getD t 0)) := by
    rcases Nat.eq_or_lt_of_le hp1 with heq | hlt
    · rw [← hpval, ← heq]
      exact List.mem_cons_self _ _
    · refine List.mem_cons_of_mem _ ?_
      have hpmem : p ∈ List.range' (r₀ + 1) (p_next - r₀) :=
        List.mem_range'_1.mpr ⟨by omega, by omega⟩
      have hm := List.mem_map_of_mem (fun t => (g (S.getD t 0) col, S.getD t 0)) hpmem
      simp only at hm
      rwa [hpval] at hm
  have h1 : lexLe pair' (g (listArgmin (fun x => g x col) S) col,
      listArgmin (fun x => g x col) S) := hle _ hkey
  have h2 : lexLe (g (listArgmin (fun x => g x col) S) col,
      listArgmin (fun x => g x col) S) pair' := by
    obtain ⟨s, hsS, hfs⟩ := hform pair' hmem
    rw [hfs]
    exact listArgmin_lexLe (fun x => g x col) S s hsS
  rw [hrun, lexLe_antisymm h1 h2]

theorem getD_set_ne (l : List Nat) (i j v : Nat) (h : i ≠ j) :
    (l.set i v).getD j 0 = l.getD j 0 := by
  rw [List.getD_eq_getElem?_getD, List.getD_eq_getElem?_getD, List.getElem?_set_ne h]

theorem getD_set_self (l : List Nat) (i v : Nat) (h : i < l.length) :
    (l.set i v).getD i 0 = v := by
  rw [List.getD_eq_getElem?_getD, List.getElem?_set_self', List.getElem?_eq_getElem h]
  rfl

/-- Invariant proof of the conquer loop: starting at the even position
`2⬝e₀` with the scan index placed at the argmin of the previous odd column,
the loop writes the stack argmin of every remaining even column into the
minima vector and touches nothing else. -/
theorem smawkConquer_loop (g : Nat → Nat → α) (f : Nat → Nat → Except PanicKind α)
    (S cols : List Nat) (L : Nat)
    (hS : S.Chain' (· < ·)) (hSne : S ≠ []) (hcols : cols.Chain' (· < ·))
    (htm : SmawkMonotone g S cols)
    (hf : ∀ s ∈ S, ∀ c ∈ cols, f s c = .ok (g s c))
    (hbound : ∀ c ∈ cols, c < L) :
    ∀ (k e₀ r₀ : Nat) (m₀ : List Nat),
      e₀ + k = (cols.length + 1) / 2 →
      m₀.length = L →
      (∀ u, u < cols.length → u % 2 = 1 →
        m₀.getD (cols.getD u 0) 0 = listArgmin (fun x => g x (cols.getD u 0)) S) →
      r₀ < S.length →
      (e₀ = 0 → r₀ = 0) →
      (0 < k → 0 < e₀ → 2 * e₀ - 1 < cols.length ∧
        S.getD r₀ 0 = listArgmin (fun x => g x (cols.getD (2 * e₀ - 1) 0)) S) →
      ∃ m₁, smawkConquer f S cols
          ((List.range' e₀ k).map fun e => (2 * e, cols.getD (2 * e) 0)) r₀ m₀ =
            .ok m₁ ∧
        m₁.length = L ∧
        (∀ j, (∀ u, u < cols.length → u % 2 = 0 → 2 * e₀ ≤ u → j ≠ cols.getD u 0) →
          m₁.getD j 0 = m₀.getD j 0) ∧
        (∀ u, u < cols.length → u % 2 = 0 → 2 * e₀ ≤ u →
          m₁.getD (cols.getD u 0) 0 = listArgmin (fun x => g x (cols.getD u 0)) S) := by
  intro k
  induction k with
  | zero =>
    intro e₀ r₀ m₀ hE hlen hodd hr₀ hr₀z hk
    refine ⟨m₀, by simp [smawkConquer], hlen, fun j _ => rfl, ?_⟩
    intro u hu hue h2e
    exact absurd h2e (by omega)
  | succ k ih =>
    intro e₀ r₀ m₀ hE hlen hodd hr₀ hr₀z hk
    have h2e0 : 2 * e₀ < cols.length := by omega
    have hSlen : 0 < S.length := List.length_pos.mpr hSne
    have hcol₀mem : cols.getD (2 * e₀) 0 ∈ cols := getD_mem cols (2 * e₀) h2e0
    have hcol₀L : cols.getD (2 * e₀) 0 < m₀.length := by
      rw [hlen]; exact hbound _ hcol₀mem
    have hrow : S.get? r₀ = some (S.getD r₀ 0) := get?_eq_getD S r₀ hr₀
    have hfS : ∀ s ∈ S, f s (cols.getD (2 * e₀) 0) = .ok (g s (cols.getD (2 * e₀) 0)) :=
      fun s hs => hf s hs _ hcol₀mem
    have hv : f (S.getD r₀ 0) (cols.getD (2 * e₀) 0) =
        .ok (g (S.getD r₀ 0) (cols.getD (2 * e₀) 0)) :=
      hf _ (getD_mem S r₀ hr₀) _ hcol₀mem
    obtain ⟨pa, hpalen, hpaval⟩ := mem_pos_getD S
      (listArgmin (fun x => g x (cols.getD (2 * e₀) 0)) S) (listArgmin_mem _ S hSne)
    have hr₀pa : r₀ ≤ pa := by
      rcases Nat.eq_zero_or_pos e₀ with he₀ | he₀
      · rw [hr₀z he₀]; omega
      · obtain ⟨hprevlt, hprev⟩ := hk (by omega) he₀
        have hcollt : cols.getD (2 * e₀ - 1) 0 < cols.getD (2 * e₀) 0 :=
          sorted_getD_lt cols hcols (2 * e₀ - 1) (2 * e₀) (by omega) h2e0
        have hmono := listArgmin_col_mono g S cols S htm (fun s hs => hs) hSne
          (cols.getD (2 * e₀ - 1) 0) (cols.getD (2 * e₀) 0)
          (getD_mem cols (2 * e₀ - 1) (by omega)) hcol₀mem hcollt
        refine (sorted_getD_le_iff S hS r₀ pa hr₀ hpalen).mpr ?_
        rw [hprev, hpaval]
        exact hmono
    have hinj : ∀ u, u < cols.length → u ≠ 2 * e₀ →
        cols.getD (2 * e₀) 0 ≠ cols.getD u 0 := by
      intro u hu hne
      rcases Nat.lt_or_ge u (2 * e₀) with hlt | hge
      · exact (sorted_getD_lt cols hcols u (2 * e₀) hlt h2e0).ne'
      · exact (sorted_getD_lt cols hcols (2 * e₀) u (by omega) hu).ne
    have hodd' : ∀ u, u < cols.length → u % 2 = 1 →
        (m₀.set (cols.getD (2 * e₀) 0)
            (listArgmin (fun x => g x (cols.getD (2 * e₀) 0)) S)).getD
          (cols.getD u 0) 0 = listArgmin (fun x => g x (cols.getD u 0)) S := by
      intro u hu hue
      rw [getD_set_ne m₀ _ _ _ (hinj u hu (by omega))]
      exact hodd u hu hue
    have hlen' : (m₀.set (cols.getD (2 * e₀) 0)
        (listArgmin (fun x => g x (cols.getD (2 * e₀) 0)) S)).length = L := by
      rw [List.length_set]; exact hlen
    by_cases hclast : 2 * e₀ = cols.length - 1
    · -- last even column: the stop row is the last stack entry
      have hkzero : k = 0 := by omega
      subst hkzero
      have hlr : S.getLast? = some (S.getD (S.length - 1) 0) := getLast?_eq_getD S hSne
      have hscan := smawkScan_argmin g f S (cols.getD (2 * e₀) 0) hfS hS r₀
        (S.length - 1) (by omega) (by omega) ⟨pa, hr₀pa, by omega, hpalen, hpaval⟩
      obtain ⟨m₁, hrun₁, hlen₁, hunt₁, harg₁⟩ := ih (e₀ + 1) (S.length - 1)
        (m₀.set (cols.getD (2 * e₀) 0)
          (listArgmin (fun x => g x (cols.getD (2 * e₀) 0)) S))
        (by omega) hlen' hodd' (by omega) (by intro h; omega)
        (fun h => absurd h (lt_irrefl 0))
      refine ⟨m₁, ?_, hlen₁, ?_, ?_⟩
      · simp only [List.range'_succ, List.map_cons]
        rw [smawkConquer_cons_last f S cols (2 * e₀) (cols.getD (2 * e₀) 0) r₀ _ m₀
          (S.getD r₀ 0) hrow hclast (S.getD (S.length - 1) 0) hlr
          (g (S.getD r₀ 0) (cols.getD (2 * e₀) 0)) hv (S.length - 1) _ hscan hcol₀L]
        simp only
        exact hrun₁
      · intro j hj
        rw [hunt₁ j (fun u hu he hge => hj u hu he (by omega)),
          getD_set_ne m₀ _ _ _ (hj (2 * e₀) h2e0 (by omega) (by omega)).symm]
      · intro u hu hue h2e
        have hcase : u = 2 * e₀ ∨ 2 * (e₀ + 1) ≤ u := by omega
        rcases hcase with rfl | hge
        · rw [hunt₁ _ (fun u' hu' he' hge' => hinj u' hu' (by omega)),
            getD_set_self m₀ _ _ hcol₀L]
        · exact harg₁ u hu hue hge
    · -- interior even column: the stop row is the next odd column's minimum
      have h2e01 : 2 * e₀ + 1 < cols.length := by omega
      have hcnextmem : cols.getD (2 * e₀ + 1) 0 ∈ cols := getD_mem cols _ h2e01
      have hc' : cols.get? (2 * e₀ + 1) = some (cols.getD (2 * e₀ + 1) 0) :=
        get?_eq_getD cols _ h2e01
      have hlrget : m₀.get? (cols.getD (2 * e₀ + 1) 0) =
          some (m₀.getD (cols.getD (2 * e₀ + 1) 0) 0) :=
        get?_eq_getD m₀ _ (by rw [hlen]; exact hbound _ hcnextmem)
      have hlrval : m₀.getD (cols.getD (2 * e₀ + 1) 0) 0 =
          listArgmin (fun x => g x (cols.getD (2 * e₀ + 1) 0)) S :=
        hodd (2 * e₀ + 1) h2e01 (by omega)
      obtain ⟨pn, hpnlen, hpnval⟩ := mem_pos_getD S
        (listArgmin (fun x => g x (cols.getD (2 * e₀ + 1) 0)) S) (listArgmin_mem _ S hSne)
      have hr₀pn : r₀ ≤ pn := by
        rcases Nat.eq_zero_or_pos e₀ with he₀ | he₀
        · rw [hr₀z he₀]; omega
        · obtain ⟨hprevlt, hprev⟩ := hk (by omega) he₀
          have hcollt : cols.getD (2 * e₀ - 1) 0 < cols.getD (2 * e₀ + 1) 0 :=
            sorted_getD_lt cols hcols (2 * e₀ - 1) (2 * e₀ + 1) (by omega) h2e01
          have hmono := listArgmin_col_mono g S cols S htm (fun s hs => hs) hSne
            (cols.getD (2 * e₀ - 1) 0) (cols.getD (2 * e₀ + 1) 0)
            (getD_mem cols (2 * e₀ - 1) (by omega)) hcnextmem hcollt
          refine (sorted_getD_le_iff S hS r₀ pn hr₀ hpnlen).mpr ?_
          rw [hprev, hpnval]
          exact hmono
      have hpapn : pa ≤ pn := by
        have hcollt : cols.getD (2 * e₀) 0 < cols.getD (2 * e₀ + 1) 0 :=
          sorted_getD_lt cols hcols (2 * e₀) (2 * e₀ + 1) (by omega) h2e01
        have hmono := listArgmin_col_mono g S cols S htm (fun s hs => hs) hSne
          (cols.getD (2 * e₀) 0) (cols.getD (2 * e₀ + 1) 0)
          hcol₀mem hcnextmem hcollt
        refine (sorted_getD_le_iff S hS pa pn hpalen hpnlen).mpr ?_
        rw [hpaval, hpnval]
        exact hmono
      have hscan0 := smawkScan_argmin g f S (cols.getD (2 * e₀) 0) hfS hS r₀
        pn hr₀pn hpnlen ⟨pa, hr₀pa, hpapn, hpalen, hpaval⟩
      have hscan : smawkScan f S (cols.getD (2 * e₀) 0)
          (m₀.getD (cols.getD (2 * e₀ + 1) 0) 0) r₀ (S.getD r₀ 0)
          (g (S.getD r₀ 0) (cols.getD (2 * e₀) 0), S.getD r₀ 0) =
          .ok (pn, (g (listArgmin (fun x => g x (cols.getD (2 * e₀) 0)) S)
            (cols.getD (2 * e₀) 0),
            listArgmin (fun x => g x (cols.getD (2 * e₀) 0)) S)) := by
        rw [hlrval, ← hpnval]
        exact hscan0
      obtain ⟨m₁, hrun₁, hlen₁, hunt₁, harg₁⟩ := ih (e₀ + 1) pn
        (m₀.set (cols.getD (2 * e₀) 0)
          (listArgmin (fun x => g x (cols.getD (2 * e₀) 0)) S))
        (by omega) hlen' hodd' hpnlen (by intro h; omega)
        (by
          intro hkpos he₀pos
          have h21 : 2 * (e₀ + 1) - 1 = 2 * e₀ + 1 := by omega
          rw [h21]
          exact ⟨h2e01, hpnval⟩)
      refine ⟨m₁, ?_, hlen₁, ?_, ?_⟩
      · simp only [List.range'_succ, List.map_cons]
        rw [smawkConquer_cons_mid f S cols (2 * e₀) (cols.getD (2 * e₀) 0) r₀ _ m₀
          (S.getD r₀ 0) hrow hclast (cols.getD (2 * e₀ + 1) 0) hc'
          (m₀.getD (cols.getD (2 * e₀ + 1) 0) 0) hlrget
          (g (S.getD r₀ 0) (cols.getD (2 * e₀) 0)) hv pn _ hscan hcol₀L]
        simp only
        exact hrun₁
      · intro j hj
        rw [hunt₁ j (fun u hu he hge => hj u hu he (by omega)),
          getD_set_ne m₀ _ _ _ (hj (2 * e₀) h2e0 (by omega) (by omega)).symm]
      · intro u hu hue h2e
        have hcase : u = 2 * e₀ ∨ 2 * (e₀ + 1) ≤ u := by omega
        rcases hcase with rfl | hge
        · rw [hunt₁ _ (fun u' hu' he' hge' => hinj u' hu' (by omega)),
            getD_set_self m₀ _ _ hcol₀L]
        · exact harg₁ u hu hue hge

theorem smawkMonotone_restrict (g : Nat → Nat → α) (rows cols S C : List Nat)
    (htm : SmawkMonotone g rows cols) (hs : ∀ x ∈ S, x ∈ rows)
    (hc : ∀ c ∈ C, c ∈ cols) : SmawkMonotone g S C :=
  fun r r' c c' hr hr' hc1 hc2 =>
    htm r r' c c' (hs _ hr) (hs _ hr') (hc _ hc1) (hc _ hc2)

theorem sorted_getD_ne (cols : List Nat) (hcols : cols.Chain' (· < ·)) (u1 u2 : Nat)
    (h1 : u1 < cols.length) (h2 : u2 < cols.length) (hne : u1 ≠ u2) :
    cols.getD u1 0 ≠ cols.getD u2 0 := by
  rcases Nat.lt_or_ge u1 u2 with hlt | hge
  · exact (sorted_getD_lt cols hcols u1 u2 hlt h2).ne
  · exact (sorted_getD_lt cols hcols u2 u1 (by omega) h1).ne'

theorem mem_oddCols (cols : List Nat) (u : Nat) (hu : u < cols.length)
    (huo : u % 2 = 1) : cols.getD u 0 ∈ oddCols cols := by
  rw [oddCols_eq]
  have h1 : u / 2 ∈ List.range (cols.length / 2) := List.mem_range.mpr (by omega)
  have h2 := List.mem_map_of_mem (fun e => cols.getD (2 * e + 1) 0) h1
  simp only at h2
  rwa [show 2 * (u / 2) + 1 = u by omega] at h2

/-- Full functional correctness of `smawk_inner`: on sorted nonempty row and
column index lists over a monotone accessor, it fills each requested column's
entry of `minima` with the left-most argmin row of that column and leaves all
other entries unchanged. -/
theorem smawk_inner_correct (g : Nat → Nat → α) (f : Nat → Nat → Except PanicKind α) :
    ∀ (rows cols minima : List Nat),
      rows.Chain' (· < ·) → rows ≠ [] → cols.Chain' (· < ·) →
      (∀ r ∈ rows, ∀ c ∈ cols, f r c = .ok (g r c)) →
      SmawkMonotone g rows cols →
      (∀ c ∈ cols, c < minima.length) →
      ∃ minima', smawk_inner f rows cols minima = .ok minima' ∧
        minima'.length = minima.length ∧
        (∀ j, j ∉ cols → minima'.getD j 0 = minima.getD j 0) ∧
        (∀ c ∈ cols, minima'.getD c 0 = listArgmin (fun x => g x c) rows) := by
  have H : ∀ n (rows cols minima : List Nat), cols.length ≤ n →
      rows.Chain' (· < ·) → rows ≠ [] → cols.Chain' (· < ·) →
      (∀ r ∈ rows, ∀ c ∈ cols, f r c = .ok (g r c)) →
      SmawkMonotone g rows cols →
      (∀ c ∈ cols, c < minima.length) →
      ∃ minima', smawk_inner f rows cols minima = .ok minima' ∧
        minima'.length = minima.length ∧
        (∀ j, j ∉ cols → minima'.getD j 0 = minima.getD j 0) ∧
        (∀ c ∈ cols, minima'.getD c 0 = listArgmin (fun x => g x c) rows) := by
    intro n
    induction n with
    | zero =>
      intro rows cols minima hn hrows hrne hcols hf htm hbound
      have hcnil : cols = [] := List.length_eq_zero.mp (Nat.le_zero.mp hn)
      subst hcnil
      refine ⟨minima, ?_, rfl, fun j _ => rfl, fun c hc => absurd hc (List.not_mem_nil c)⟩
      rw [smawk_inner.eq_def]
      rfl
    | succ n ihn =>
      intro rows cols minima hn hrows hrne hcols hf htm hbound
      by_cases hcne : cols = []
      · subst hcne
        refine ⟨minima, ?_, rfl, fun j _ => rfl, fun c hc => absurd hc (List.not_mem_nil c)⟩
        rw [smawk_inner.eq_def]
        rfl
      · obtain ⟨S, hred, hSsub, hSchain, hSne, hSlen, hargpres⟩ :=
          smawkReduce_correct g f rows cols hrows hcols hrne hcne hf htm
        have hoddsub : ∀ c ∈ oddCols cols, c ∈ cols :=
          fun c hc => (oddCols_sublist cols).subset hc
        have hfS : ∀ s ∈ S, ∀ c ∈ cols, f s c = .ok (g s c) :=
          fun s hs c hc => hf s (hSsub s hs) c hc
        have htmS : SmawkMonotone g S cols :=
          smawkMonotone_restrict g rows cols S cols htm hSsub (fun c hc => hc)
        obtain ⟨minima₁, hrec, hlen₁, hunt₁, harg₁⟩ := ihn S (oddCols cols) minima
          (by have := oddCols_length_lt cols hcne; omega)
          hSchain hSne (hcols.sublist (oddCols_sublist cols))
          (fun s hs c hc => hfS s hs c (hoddsub c hc))
          (smawkMonotone_restrict g rows cols S (oddCols cols) htm hSsub hoddsub)
          (fun c hc => hbound c (hoddsub c hc))
        have hbS : ∀ c ∈ cols, c < minima.length := hbound
        obtain ⟨m₁, hrunC, hlenC, huntC, hargC⟩ :=
          smawkConquer_loop g f S cols minima.length hSchain hSne hcols htmS hfS hbS
            ((cols.length + 1) / 2) 0 0 minima₁ (by omega) hlen₁
            (fun u hu huo => by
              rw [harg₁ (cols.getD u 0) (mem_oddCols cols u hu huo)])
            (List.length_pos.mpr hSne) (fun _ => rfl)
            (fun _ h => absurd h (lt_irrefl 0))
        refine ⟨m₁, ?_, by rw [hlenC], ?_, ?_⟩
        · rw [smawk_inner.eq_def,
            dif_neg (by simp only [List.isEmpty_iff]; exact hcne), hred]
          simp only
          rw [hrec]
          simp only
          rw [evens_eq, List.range_eq_range']
          exact hrunC
        · intro j hj
          rw [huntC j (fun u hu hue hge hj' => hj (hj' ▸ getD_mem cols u hu)),
            hunt₁ j (fun hj' => hj (hoddsub j hj'))]
        · intro c hc
          obtain ⟨u, hu, huval⟩ := mem_pos_getD cols c hc
          subst huval
          rcases Nat.mod_two_eq_zero_or_one u with hue | huo
          · rw [hargC u hu hue (by omega)]
            exact (hargpres _ hc).symm
          · have hjC : ∀ u', u' < cols.length → u' % 2 = 0 → 2 * 0 ≤ u' →
                cols.getD u 0 ≠ cols.getD u' 0 := by
              intro u' hu' hue' _
              exact sorted_getD_ne cols hcols u u' hu hu' (by omega)
            rw [huntC _ hjC, harg₁ (cols.getD u 0) (mem_oddCols cols u hu huo)]
            exact (hargpres _ hc).symm
  intro rows cols minima
  exact fun h1 h2 h3 h4 h5 h6 => H cols.length rows cols minima le_rfl h1 h2 h3 h4 h5 h6

theorem eq_map_range_of_getD (l : List Nat) (n : Nat) (h : Nat → Nat)
    (hlen : l.length = n) (hval : ∀ i, i < n → l.getD i 0 = h i) :
    l = (List.range n).map h := by
  apply List.ext_getElem
  · rw [hlen, List.length_map, List.length_range]
  · intro i h1 h2
    have hi : i < n := by rwa [hlen] at h1
    have hv := hval i hi
    rw [List.getD_eq_getElem?_getD, List.getElem?_eq_getElem h1] at hv
    simp only [Option.getD_some] at hv
    rw [List.getElem_map, List.getElem_range, hv]

/-- SMAWK column minima agree with the left-most column argmins on every
column-flavour totally monotone matrix with at least one row and column. -/
theorem smawk_column_minima_eq (M : Matrix2 α) (hm : 1 ≤ M.m) (hn : 1 ≤ M.n)
    (htm : ∀ i i' j j', i < i' → i' < M.m → j < j' → j' < M.n →
      M.f i j > M.f i' j → M.f i j' > M.f i' j') :
    smawk_column_minima M = .ok (colArgmins M) := by
  obtain ⟨minima', hrun, hlen, hunt, harg⟩ := smawk_inner_correct M.f
    (fun i j => .ok (M.f i j)) (List.range M.m) (List.range M.n)
    (List.replicate M.n 0)
    (List.pairwise_lt_range M.m).chain'
    (by rw [Ne, List.range_eq_nil]; omega)
    (List.pairwise_lt_range M.n).chain'
    (fun r _ c _ => rfl)
    (fun r r' c c' hr hr' hc hc' hrr' hcc' hgt =>
      htm r r' c c' hrr' (List.mem_range.mp hr') hcc' (List.mem_range.mp hc') hgt)
    (fun c hc => by rw [List.length_replicate]; exact List.mem_range.mp hc)
  unfold smawk_column_minima
  rw [hrun]
  congr 1
  unfold colArgmins
  refine eq_map_range_of_getD minima' M.n _
    (by rw [hlen, List.length_replicate]) ?_
  intro j hj
  rw [harg j (List.mem_range.mpr hj), listArgmin_range _ M.m hm]

/-- SMAWK row minima agree with the left-most row argmins on every
row-flavour totally monotone matrix with at least one row and column. -/
theorem smawk_row_minima_eq (M : Matrix2 α) (hm : 1 ≤ M.m) (hn : 1 ≤ M.n)
    (htm : ∀ i i' j j', i < i' → i' < M.m → j < j' → j' < M.n →
      M.f i j > M.f i j' → M.f i' j > M.f i' j') :
    smawk_row_minima M = .ok (rowArgmins M) := by
  obtain ⟨minima', hrun, hlen, hunt, harg⟩ := smawk_inner_correct
    (fun j i => M.f i j) (fun j i => .ok (M.f i j)) (List.range M.n)
    (List.range M.m) (List.replicate M.m 0)
    (List.pairwise_lt_range M.n).chain'
    (by rw [Ne, List.range_eq_nil]; omega)
    (List.pairwise_lt_range M.m).chain'
    (fun r _ c _ => rfl)
    (fun r r' c c' hr hr' hc hc' hrr' hcc' hgt =>
      htm c c' r r' hcc' (List.mem_range.mp hc') hrr' (List.mem_range.mp hr') hgt)
    (fun c hc => by rw [List.length_replicate]; exact List.mem_range.mp hc)
  unfold smawk_row_minima
  rw [hrun]
  congr 1
  unfold rowArgmins
  refine eq_map_range_of_getD minima' M.m _
    (by rw [hlen, List.length_replicate]) ?_
  intro i hi
  rw [harg i (List.mem_range.mpr hi), listArgmin_range _ M.n hn]

/-- C1: on every totally monotone matrix with at least one row and at least
one column, the three row-minima strategies return identical index
sequences, and the three column-minima strategies return identical index
sequences. -/
theorem claim_C1 (M : Matrix2 Int) (htm : TotallyMonotone M)
    (hm : 1 ≤ M.m) (hn : 1 ≤ M.n) :
    recursive_row_minima M = brute_force_row_minima M ∧
    smawk_row_minima M = brute_force_row_minima M ∧
    recursive_column_minima M = brute_force_column_minima M ∧
    smawk_column_minima M = brute_force_column_minima M := by
  have hrow : ∀ i i' j j', i < i' → i' < M.m → j < j' → j' < M.n →
      M.f i j > M.f i j' → M.f i' j > M.f i' j' :=
    fun i i' j j' h1 h2 h3 h4 => (htm i' h2 i h1 j' h4 j h3).1
  have hcol : ∀ i i' j j', i < i' → i' < M.m → j < j' → j' < M.n →
      M.f i j > M.f i' j → M.f i j' > M.f i' j' :=
    fun i i' j j' h1 h2 h3 h4 => (htm i' h2 i h1 j' h4 j h3).2
  refine ⟨?_, ?_, ?_, ?_⟩
  · rw [recursive_row_minima_eq M hm hn hrow, brute_force_row_minima_eq M hn]
  · rw [smawk_row_minima_eq M hm hn hrow, brute_force_row_minima_eq M hn]
  · rw [recursive_column_minima_eq M hm hn hcol, brute_force_column_minima_eq M hm]
  · rw [smawk_column_minima_eq M hm hn hcol, brute_force_column_minima_eq M hm]

/-- Witness for C1 at the totally monotone matrix `[[2, 1], [2, 1]]`. -/
theorem claim_C1_witness :
    TotallyMonotone (⟨2, 2, fun _ j => if j = 0 then (2 : Int) else 1⟩ : Matrix2 Int) ∧
    (recursive_row_minima (⟨2, 2, fun _ j => if j = 0 then (2 : Int) else 1⟩ : Matrix2 Int) =
        brute_force_row_minima (⟨2, 2, fun _ j => if j = 0 then (2 : Int) else 1⟩ : Matrix2 Int) ∧
      smawk_row_minima (⟨2, 2, fun _ j => if j = 0 then (2 : Int) else 1⟩ : Matrix2 Int) =
        brute_force_row_minima (⟨2, 2, fun _ j => if j = 0 then (2 : Int) else 1⟩ : Matrix2 Int) ∧
      recursive_column_minima (⟨2, 2, fun _ j => if j = 0 then (2 : Int) else 1⟩ : Matrix2 Int) =
        brute_force_column_minima (⟨2, 2, fun _ j => if j = 0 then (2 : Int) else 1⟩ : Matrix2 Int) ∧
      smawk_column_minima (⟨2, 2, fun _ j => if j = 0 then (2 : Int) else 1⟩ : Matrix2 Int) =
        brute_force_column_minima (⟨2, 2, fun _ j => if j = 0 then (2 : Int) else 1⟩ : Matrix2 Int)) :=
  ⟨fun _ _ _ _ _ _ _ _ => ⟨fun h => h, fun h => absurd h (lt_irrefl _)⟩,
    claim_C1 _ (fun _ _ _ _ _ _ _ _ => ⟨fun h => h, fun h => absurd h (lt_irrefl _)⟩)
      (by decide) (by decide)⟩

/-! ### Call discipline of the SMAWK helpers

The following lemmas record, for an arbitrary accessor, that the SMAWK
machinery only evaluates the accessor at candidate rows and columns: two
accessors agreeing there produce identical runs, a run can only fail with
an index-out-of-bounds panic when the accessor succeeds there, and every
minima entry is either untouched or a candidate row. -/

/-- Both assertions of the `m!` macro pass, and the accessor is applied to
the length-`finished + 1` prefix of finalized entries, whenever the indices
respect the contract. -/
theorem onlineM_domain (acc₁ acc₂ : List (Nat × α) → Nat → Nat → α)
    (size : Nat) (result : List (Nat × α)) (finished i j : Nat)
    (hagree : ∀ res i j, i < j → j < size → i < res.length → acc₁ res i j = acc₂ res i j)
    (hij : i < j) (hjs : j < size) (his : i < size)
    (hlen : finished + 1 ≤ result.length) (hifin : i ≤ finished) :
    onlineM acc₁ size result finished i j = onlineM acc₂ size result finished i j ∧
    ∃ v, onlineM acc₁ size result finished i j = .ok v := by
  have hcall₁ : onlineM acc₁ size result finished i j =
      .ok (acc₁ (result.take (finished + 1)) i j) := by
    unfold onlineM
    rw [if_pos hij, if_pos ⟨his, hjs⟩]
  have hcall₂ : onlineM acc₂ size result finished i j =
      .ok (acc₂ (result.take (finished + 1)) i j) := by
    unfold onlineM
    rw [if_pos hij, if_pos ⟨his, hjs⟩]
  refine ⟨?_, _, hcall₁⟩
  rw [hcall₁, hcall₂, hagree _ i j hij hjs (by rw [List.length_take]; omega)]

/-- The pop loop only queries candidate rows in in-bounds columns: two
accessors agreeing there run identically and successfully. -/
theorem smawkPops_domain (f₁ f₂ : Nat → Nat → Except PanicKind α) (cols R : List Nat)
    (r : Nat) (hr : r ∈ R)
    (hf : ∀ x ∈ R, ∀ c ∈ cols, f₁ x c = f₂ x c ∧ ∃ v, f₁ x c = .ok v) :
    ∀ S, (∀ s ∈ S, s ∈ R) → S.length ≤ cols.length →
      smawkPops f₁ cols r S = smawkPops f₂ cols r S ∧
      ∃ S', smawkPops f₁ cols r S = .ok S' := by
  have H : ∀ n S, S.length ≤ n → (∀ s ∈ S, s ∈ R) → S.length ≤ cols.length →
      smawkPops f₁ cols r S = smawkPops f₂ cols r S ∧
      ∃ S', smawkPops f₁ cols r S = .ok S' := by
    intro n
    induction n with
    | zero =>
      intro S hn hsub hlen
      have hSnil : S = [] := List.length_eq_zero.mp (Nat.le_zero.mp hn)
      subst hSnil
      have h1 : smawkPops f₁ cols r [] = .ok [] := by rw [smawkPops.eq_def]
      have h2 : smawkPops f₂ cols r [] = .ok [] := by rw [smawkPops.eq_def]
      exact ⟨h1.trans h2.symm, [], h1⟩
    | succ n ih =>
      intro S hn hsub hlen
      rcases S with - | ⟨a, as⟩
      · have h1 : smawkPops f₁ cols r [] = .ok [] := by rw [smawkPops.eq_def]
        have h2 : smawkPops f₂ cols r [] = .ok [] := by rw [smawkPops.eq_def]
        exact ⟨h1.trans h2.symm, [], h1⟩
      · have hnn : as.length ≤ n := by
          simp only [List.length_cons] at hn
          omega
        have hclen : (a :: as).length - 1 < cols.length := by
          simp only [List.length_cons] at hlen ⊢
          omega
        have hcmem : cols.getD ((a :: as).length - 1) 0 ∈ cols :=
          getD_mem cols _ hclen
        have htopmem : (a :: as).getLastD 0 ∈ R := by
          rw [getLastD_eq_getD (a :: as) 0 (by simp)]
          exact hsub _ (getD_mem (a :: as) _ (by simp))
        obtain ⟨heqt, vt, hvt⟩ := hf _ htopmem _ hcmem
        obtain ⟨heqr, vr, hvr⟩ := hf r hr _ hcmem
        rw [smawkPops.eq_def, smawkPops.eq_def]
        simp only
        rw [hvt, hvr, ← heqt, ← heqr, hvt, hvr]
        simp only
        by_cases hgt : vt > vr
        · rw [if_pos hgt, if_pos hgt]
          exact ih (a :: as).dropLast
            (by rw [List.length_dropLast]; simp only [List.length_cons]; omega)
            (fun s hs => hsub s ((List.dropLast_sublist _).subset hs))
            (by rw [List.length_dropLast]; exact le_trans (Nat.sub_le _ _) hlen)
        · rw [if_neg hgt, if_neg hgt]
          exact ⟨rfl, _, rfl⟩
  exact fun S => H S.length S le_rfl

/-- The reduce fold under the same call discipline: identical successful
runs producing a stack of candidate rows no longer than `cols`. -/
theorem smawkReduce_domain (f₁ f₂ : Nat → Nat → Except PanicKind α) (cols R : List Nat)
    (hf : ∀ x ∈ R, ∀ c ∈ cols, f₁ x c = f₂ x c ∧ ∃ v, f₁ x c = .ok v) :
    ∀ (rows s0 : List Nat), (∀ x ∈ rows, x ∈ R) → (∀ s ∈ s0, s ∈ R) →
      s0.length ≤ cols.length →
      (rows.foldlM (fun stack r => do
          let s ← smawkPops f₁ cols r stack
          if s.length ≠ cols.length then pure (s ++ [r]) else pure s) s0) =
        (rows.foldlM (fun stack r => do
          let s ← smawkPops f₂ cols r stack
          if s.length ≠ cols.length then pure (s ++ [r]) else pure s) s0) ∧
      ∃ out, (rows.foldlM (fun stack r => do
          let s ← smawkPops f₁ cols r stack
          if s.length ≠ cols.length then pure (s ++ [r]) else pure s) s0) = .ok out ∧
        (∀ x ∈ out, x ∈ R) ∧ out.length ≤ cols.length := by
  intro rows
  induction rows with
  | nil =>
    intro s0 hrows hs0 hlen
    exact ⟨rfl, s0, rfl, hs0, hlen⟩
  | cons r rows ih =>
    intro s0 hrows hs0 hlen
    rw [List.foldlM_cons, List.foldlM_cons]
    obtain ⟨heq, S', hok⟩ := smawkPops_domain f₁ f₂ cols R r
      (hrows r (List.mem_cons_self _ _)) hf s0 hs0 hlen
    have hS'sub : (∀ s ∈ S', s ∈ R) := by
      intro s hs
      exact hs0 s ((smawkPops_sublist f₁ cols r s0 S' hok).subset hs)
    have hS'len : S'.length ≤ cols.length :=
      le_trans (smawkPops_sublist f₁ cols r s0 S' hok).length_le hlen
    have hstep₁ : (do
        let s ← smawkPops f₁ cols r s0
        if s.length ≠ cols.length then pure (s ++ [r]) else pure s :
          Except PanicKind (List Nat)) =
        (if S'.length ≠ cols.length then pure (S' ++ [r]) else pure S') := by
      rw [hok]
      rfl
    have hstep₂ : (do
        let s ← smawkPops f₂ cols r s0
        if s.length ≠ cols.length then pure (s ++ [r]) else pure s :
          Except PanicKind (List Nat)) =
        (if S'.length ≠ cols.length then pure (S' ++ [r]) else pure S') := by
      rw [← heq, hok]
      rfl
    rw [hstep₁, hstep₂]
    by_cases hl : S'.length ≠ cols.length
    · rw [if_pos hl]
      refine ih (S' ++ [r]) (fun x hx => hrows x (List.mem_cons_of_mem _ hx)) ?_ ?_
      · intro s hs
        rcases List.mem_append.mp hs with hs | hs
        · exact hS'sub s hs
        · rw [List.mem_singleton] at hs
          rw [hs]
          exact hrows r (List.mem_cons_self _ _)
      · rw [List.length_append, List.length_singleton]
        omega
    · rw [if_neg hl]
      exact ih S' (fun x hx => hrows x (List.mem_cons_of_mem _ hx)) hS'sub hS'len

/-- The conquer scan under the call discipline: identical runs, failures
are index-out-of-bounds only, and the carried pair stays among the initial
pair and the candidate rows. -/
theorem smawkScan_domain (f₁ f₂ : Nat → Nat → Except PanicKind α) (S R : List Nat)
    (col : Nat) (hS : ∀ s ∈ S, s ∈ R)
    (hf : ∀ x ∈ R, f₁ x col = f₂ x col ∧ ∃ v, f₁ x col = .ok v) :
    ∀ (n r row last : Nat) (pair : α × Nat), S.length - r ≤ n →
      smawkScan f₁ S col last r row pair = smawkScan f₂ S col last r row pair ∧
      (∀ e, smawkScan f₁ S col last r row pair = .error e → e = .indexOOB) ∧
      (∀ r' pair', smawkScan f₁ S col last r row pair = .ok (r', pair') →
        pair'.2 = pair.2 ∨ pair'.2 ∈ S) := by
  intro n
  induction n with
  | zero =>
    intro r row last pair hn
    by_cases heq : row = last
    · rw [smawkScan.eq_def, smawkScan.eq_def, if_pos heq, if_pos heq]
      refine ⟨rfl, ?_, ?_⟩
      · intro e h
        cases h
      · intro r' pair' h
        injection h with h
        injection h with h1 h2
        exact Or.inl (by rw [← h2])
    · have hnone : S.get? (r + 1) = none := by
        rw [List.get?_eq_none]
        omega
      rw [smawkScan.eq_def, smawkScan.eq_def, if_neg heq, if_neg heq, hnone]
      refine ⟨rfl, ?_, ?_⟩
      · intro e h
        injection h with h
        exact h.symm
      · intro r' pair' h
        cases h
  | succ n ih =>
    intro r row last pair hn
    by_cases heq : row = last
    · rw [smawkScan.eq_def, smawkScan.eq_def, if_pos heq, if_pos heq]
      refine ⟨rfl, ?_, ?_⟩
      · intro e h
        cases h
      · intro r' pair' h
        injection h with h
        injection h with h1 h2
        exact Or.inl (by rw [← h2])
    · rcases hget : S.get? (r + 1) with - | row'
      · rw [smawkScan.eq_def, smawkScan.eq_def, if_neg heq, if_neg heq, hget]
        refine ⟨rfl, ?_, ?_⟩
        · intro e h
          injection h with h
          exact h.symm
        · intro r' pair' h
          cases h
      · have hrowmem : row' ∈ S := List.get?_mem hget
        obtain ⟨hfe, v, hv⟩ := hf row' (hS row' hrowmem)
        have hlt : r + 1 < S.length := (List.get?_eq_some.mp hget).1
        obtain ⟨hiheq, hiherr, hihok⟩ := ih (r + 1) row' last
          (pairMin pair (v, row')) (by omega)
        rw [smawkScan.eq_def, smawkScan.eq_def, if_neg heq, if_neg heq, hget]
        simp only
        rw [hv, ← hfe, hv]
        simp only
        refine ⟨hiheq, hiherr, ?_⟩
        intro r' pair' h
        rcases hihok r' pair' h with h1 | h1
        · rcases pairMin_cases pair (v, row') with h2 | h2
          · rw [h2] at h1
            exact Or.inl h1
          · rw [h2] at h1
            simp only at h1
            rw [h1]
            exact Or.inr hrowmem
        · exact Or.inr h1

/-- The conquer loop under the call discipline: identical runs, failures
are index-out-of-bounds only, and every minima entry ends up untouched or a
candidate row. -/
theorem smawkConquer_domain (f₁ f₂ : Nat → Nat → Except PanicKind α)
    (S R cols : List Nat) (hS : ∀ s ∈ S, s ∈ R)
    (hf : ∀ x ∈ R, ∀ c ∈ cols, f₁ x c = f₂ x c ∧ ∃ v, f₁ x c = .ok v) :
    ∀ (evens : List (Nat × Nat)) (r : Nat) (m : List Nat),
      (∀ p ∈ evens, p.2 ∈ cols) →
      smawkConquer f₁ S cols evens r m = smawkConquer f₂ S cols evens r m ∧
      (∀ e, smawkConquer f₁ S cols evens r m = .error e → e = .indexOOB) ∧
      (∀ m', smawkConquer f₁ S cols evens r m = .ok m' → m'.length = m.length ∧
        ∀ j, m'.getD j 0 = m.getD j 0 ∨ m'.getD j 0 ∈ S) := by
  intro evens
  induction evens with
  | nil =>
    intro r m hev
    refine ⟨rfl, ?_, ?_⟩
    · intro e h
      cases h
    · intro m' h
      injection h with h
      rw [← h]
      exact ⟨rfl, fun j => Or.inl rfl⟩
  | cons p evens ih =>
    obtain ⟨c, col⟩ := p
    intro r m hev
    have hcolmem : col ∈ cols := hev (c, col) (List.mem_cons_self _ _)
    rcases hrow : S.get? r with - | row
    · have hstep₁ : smawkConquer f₁ S cols ((c, col) :: evens) r m =
          .error .indexOOB := by
        simp only [smawkConquer]
        rw [hrow]
      have hstep₂ : smawkConquer f₂ S cols ((c, col) :: evens) r m =
          .error .indexOOB := by
        simp only [smawkConquer]
        rw [hrow]
      rw [hstep₁, hstep₂]
      refine ⟨rfl, ?_, ?_⟩
      · intro e h
        injection h with h
        exact h.symm
      · intro m' h
        cases h
    · have hrowmem : row ∈ S := List.get?_mem hrow
      obtain ⟨hfe, v, hv⟩ := hf row (hS row hrowmem) col hcolmem
      have hv₂ : f₂ row col = .ok v := by rw [← hfe]; exact hv
      -- resolve the `last_row` lookup, uniformly over the two branches
      by_cases hc : c = cols.length - 1
      · rcases hlast : S.getLast? with - | lr
        · have hstep₁ : smawkConquer f₁ S cols ((c, col) :: evens) r m =
              .error .indexOOB := by
            simp only [smawkConquer]
            rw [hrow]
            simp only
            rw [if_pos hc, hlast]
          have hstep₂ : smawkConquer f₂ S cols ((c, col) :: evens) r m =
              .error .indexOOB := by
            simp only [smawkConquer]
            rw [hrow]
            simp only
            rw [if_pos hc, hlast]
          rw [hstep₁, hstep₂]
          refine ⟨rfl, ?_, ?_⟩
          · intro e h
            injection h with h
            exact h.symm
          · intro m' h
            cases h
        · have hstep₁ : smawkConquer f₁ S cols ((c, col) :: evens) r m =
              (match smawkScan f₁ S col lr r row (v, row) with
               | .error e => .error e
               | .ok (r', pair) =>
                 if col < m.length then
                   smawkConquer f₁ S cols evens r' (m.set col pair.2)
                 else .error .indexOOB) := by
            simp only [smawkConquer]
            rw [hrow]
            simp only
            rw [if_pos hc, hlast]
            simp only
            rw [hv]
          have hstep₂ : smawkConquer f₂ S cols ((c, col) :: evens) r m =
              (match smawkScan f₂ S col lr r row (v, row) with
               | .error e => .error e
               | .ok (r', pair) =>
                 if col < m.length then
                   smawkConquer f₂ S cols evens r' (m.set col pair.2)
                 else .error .indexOOB) := by
            simp only [smawkConquer]
            rw [hrow]
            simp only
            rw [if_pos hc, hlast]
            simp only
            rw [hv₂]
          obtain ⟨hsceq, hscerr, hscok⟩ := smawkScan_domain f₁ f₂ S R col hS
            (fun x hx => hf x hx col hcolmem) S.length r row lr (v, row) (by omega)
          rw [hstep₁, hstep₂, ← hsceq]
          rcases hscan : smawkScan f₁ S col lr r row (v, row) with e | rp
          · refine ⟨rfl, ?_, ?_⟩
            · intro e' h
              injection h with h
              rw [← h]
              exact hscerr e hscan
            · intro m' h
              cases h
          · obtain ⟨r', pair⟩ := rp
            simp only
            by_cases hcl : col < m.length
            · rw [if_pos hcl, if_pos hcl]
              have hpairmem : pair.2 = row ∨ pair.2 ∈ S := hscok r' pair hscan
              have hpairS : pair.2 ∈ S := by
                rcases hpairmem with h | h
                · rw [h]; exact hrowmem
                · exact h
              obtain ⟨hiheq, hiherr, hihok⟩ := ih r' (m.set col pair.2)
                (fun p hp => hev p (List.mem_cons_of_mem _ hp))
              refine ⟨hiheq, hiherr, ?_⟩
              intro m' h
              obtain ⟨hlen', hw⟩ := hihok m' h
              refine ⟨by rw [hlen', List.length_set], ?_⟩
              intro j
              rcases hw j with h1 | h1
              · by_cases hj : col = j
                · subst hj
                  rw [getD_set_self m col pair.2 hcl] at h1
                  exact Or.inr (h1 ▸ hpairS)
                · rw [getD_set_ne m col j pair.2 hj] at h1
                  exact Or.inl h1
              · exact Or.inr h1
            · rw [if_neg hcl, if_neg hcl]
              refine ⟨rfl, ?_, ?_⟩
              · intro e h
                injection h with h
                exact h.symm
              · intro m' h
                cases h
      · rcases hcget : cols.get? (c + 1) with - | c'
        · have hstep₁ : smawkConquer f₁ S cols ((c, col) :: evens) r m =
              .error .indexOOB := by
            simp only [smawkConquer]
            rw [hrow]
            simp only
            rw [if_neg hc, hcget]
          have hstep₂ : smawkConquer f₂ S cols ((c, col) :: evens) r m =
              .error .indexOOB := by
            simp only [smawkConquer]
            rw [hrow]
            simp only
            rw [if_neg hc, hcget]
          rw [hstep₁, hstep₂]
          refine ⟨rfl, ?_, ?_⟩
          · intro e h
            injection h with h
            exact h.symm
          · intro m' h
            cases h
        · rcases hmget : m.get? c' with - | lr
          · have hstep₁ : smawkConquer f₁ S cols ((c, col) :: evens) r m =
                .error .indexOOB := by
              simp only [smawkConquer]
              rw [hrow]
              simp only
              rw [if_neg hc, hcget]
              simp only
              rw [hmget]
            have hstep₂ : smawkConquer f₂ S cols ((c, col) :: evens) r m =
                .error .indexOOB := by
              simp only [smawkConquer]
              rw [hrow]
              simp only
              rw [if_neg hc, hcget]
              simp only
              rw [hmget]
            rw [hstep₁, hstep₂]
            refine ⟨rfl, ?_, ?_⟩
            · intro e h
              injection h with h
              exact h.symm
            · intro m' h
              cases h
          · have hstep₁ : smawkConquer f₁ S cols ((c, col) :: evens) r m =
                (match smawkScan f₁ S col lr r row (v, row) with
                 | .error e => .error e
                 | .ok (r', pair) =>
                   if col < m.length then
                     smawkConquer f₁ S cols evens r' (m.set col pair.2)
                   else .error .indexOOB) := by
              simp only [smawkConquer]
              rw [hrow]
              simp only
              rw [if_neg hc, hcget]
              simp only
              rw [hmget]
              simp only
              rw [hv]
            have hstep₂ : smawkConquer f₂ S cols ((c, col) :: evens) r m =
                (match smawkScan f₂ S col lr r row (v, row) with
                 | .error e => .error e
                 | .ok (r', pair) =>
                   if col < m.length then
                     smawkConquer f₂ S cols evens r' (m.set col pair.2)
                   else .error .indexOOB) := by
              simp only [smawkConquer]
              rw [hrow]
              simp only
              rw [if_neg hc, hcget]
              simp only
              rw [hmget]
              simp only
              rw [hv₂]
            obtain ⟨hsceq, hscerr, hscok⟩ := smawkScan_domain f₁ f₂ S R col hS
              (fun x hx => hf x hx col hcolmem) S.length r row lr (v, row) (by omega)
            rw [hstep₁, hstep₂, ← hsceq]
            rcases hscan : smawkScan f₁ S col lr r row (v, row) with e | rp
            · refine ⟨rfl, ?_, ?_⟩
              · intro e' h
                injection h with h
                rw [← h]
                exact hscerr e hscan
              · intro m' h
                cases h
            · obtain ⟨r', pair⟩ := rp
              simp only
              by_cases hcl : col < m.length
              · rw [if_pos hcl, if_pos hcl]
                have hpairmem : pair.2 = row ∨ pair.2 ∈ S := hscok r' pair hscan
                have hpairS : pair.2 ∈ S := by
                  rcases hpairmem with h | h
                  · rw [h]; exact hrowmem
                  · exact h
                obtain ⟨hiheq, hiherr, hihok⟩ := ih r' (m.set col pair.2)
                  (fun p hp => hev p (List.mem_cons_of_mem _ hp))
                refine ⟨hiheq, hiherr, ?_⟩
                intro m' h
                obtain ⟨hlen', hw⟩ := hihok m' h
                refine ⟨by rw [hlen', List.length_set], ?_⟩
                intro j
                rcases hw j with h1 | h1
                · by_cases hj : col = j
                  · subst hj
                    rw [getD_set_self m col pair.2 hcl] at h1
                    exact Or.inr (h1 ▸ hpairS)
                  · rw [getD_set_ne m col j pair.2 hj] at h1
                    exact Or.inl h1
                · exact Or.inr h1
              · rw [if_neg hcl, if_neg hcl]
                refine ⟨rfl, ?_, ?_⟩
                · intro e h
                  injection h with h
                  exact h.symm
                · intro m' h
                  cases h

theorem snd_mem_of_mem_enum {l : List Nat} {p : Nat × Nat} (hp : p ∈ l.enum) :
    p.2 ∈ l := by
  have h := List.mem_map_of_mem Prod.snd hp
  rwa [List.enum_map_snd] at h

/-- `smawk_inner` under the call discipline: two accessors that agree and
succeed on the candidate rows and columns produce identical runs, any
failure is an index-out-of-bounds panic, and every minima entry is either
untouched or one of the candidate rows. -/
theorem smawk_inner_domain (f₁ f₂ : Nat → Nat → Except PanicKind α) :
    ∀ (rows cols minima : List Nat),
      (∀ r ∈ rows, ∀ c ∈ cols, f₁ r c = f₂ r c ∧ ∃ v, f₁ r c = .ok v) →
      smawk_inner f₁ rows cols minima = smawk_inner f₂ rows cols minima ∧
      (∀ e, smawk_inner f₁ rows cols minima = .error e → e = .indexOOB) ∧
      (∀ minima', smawk_inner f₁ rows cols minima = .ok minima' →
        minima'.length = minima.length ∧
        ∀ j, minima'.getD j 0 = minima.getD j 0 ∨ minima'.getD j 0 ∈ rows) := by
  have H : ∀ n (rows cols minima : List Nat), cols.length ≤ n →
      (∀ r ∈ rows, ∀ c ∈ cols, f₁ r c = f₂ r c ∧ ∃ v, f₁ r c = .ok v) →
      smawk_inner f₁ rows cols minima = smawk_inner f₂ rows cols minima ∧
      (∀ e, smawk_inner f₁ rows cols minima = .error e → e = .indexOOB) ∧
      (∀ minima', smawk_inner f₁ rows cols minima = .ok minima' →
        minima'.length = minima.length ∧
        ∀ j, minima'.getD j 0 = minima.getD j 0 ∨ minima'.getD j 0 ∈ rows) := by
    intro n
    induction n with
    | zero =>
      intro rows cols minima hn hf
      have hcnil : cols = [] := List.length_eq_zero.mp (Nat.le_zero.mp hn)
      subst hcnil
      have h1 : smawk_inner f₁ rows [] minima = .ok minima := by
        rw [smawk_inner.eq_def]
        rfl
      have h2 : smawk_inner f₂ rows [] minima = .ok minima := by
        rw [smawk_inner.eq_def]
        rfl
      refine ⟨h1.trans h2.symm, ?_, ?_⟩
      · intro e h
        rw [h1] at h
        cases h
      · intro minima' h
        rw [h1] at h
        injection h with h
        rw [← h]
        exact ⟨rfl, fun j => Or.inl rfl⟩
    | succ n ihn =>
      intro rows cols minima hn hf
      by_cases hcne : cols = []
      · subst hcne
        have h1 : smawk_inner f₁ rows [] minima = .ok minima := by
          rw [smawk_inner.eq_def]
          rfl
        have h2 : smawk_inner f₂ rows [] minima = .ok minima := by
          rw [smawk_inner.eq_def]
          rfl
        refine ⟨h1.trans h2.symm, ?_, ?_⟩
        · intro e h
          rw [h1] at h
          cases h
        · intro minima' h
          rw [h1] at h
          injection h with h
          rw [← h]
          exact ⟨rfl, fun j => Or.inl rfl⟩
      · obtain ⟨hredeq, out, hout₁, houtsub, houtlen⟩ :=
          smawkReduce_domain f₁ f₂ cols rows hf rows [] (fun x hx => hx)
            (fun s hs => absurd hs (List.not_mem_nil s)) (by simp)
        have hout₁' : smawkReduce f₁ cols rows = .ok out := hout₁
        have hout₂' : smawkReduce f₂ cols rows = .ok out := by
          have : smawkReduce f₁ cols rows = smawkReduce f₂ cols rows := hredeq
          rw [← this]
          exact hout₁'
        have hoddsub : ∀ c ∈ oddCols cols, c ∈ cols :=
          fun c hc => (oddCols_sublist cols).subset hc
        obtain ⟨hreceq, hrecerr, hrecok⟩ := ihn out (oddCols cols) minima
          (by have := oddCols_length_lt cols hcne; omega)
          (fun r hr c hc => hf r (houtsub r hr) c (hoddsub c hc))
        have hrun₁ : smawk_inner f₁ rows cols minima =
            (match smawk_inner f₁ out (oddCols cols) minima with
             | .error e => .error e
             | .ok m₁ => smawkConquer f₁ out cols
                 (cols.enum.filter fun p => p.1 % 2 = 0) 0 m₁) := by
          rw [smawk_inner.eq_def,
            dif_neg (by simp only [List.isEmpty_iff]; exact hcne), hout₁']
        have hrun₂ : smawk_inner f₂ rows cols minima =
            (match smawk_inner f₂ out (oddCols cols) minima with
             | .error e => .error e
             | .ok m₁ => smawkConquer f₂ out cols
                 (cols.enum.filter fun p => p.1 % 2 = 0) 0 m₁) := by
          rw [smawk_inner.eq_def,
            dif_neg (by simp only [List.isEmpty_iff]; exact hcne), hout₂']
        rcases hrec : smawk_inner f₁ out (oddCols cols) minima with e | minima₁
        · have hrec₂ : smawk_inner f₂ out (oddCols cols) minima = .error e := by
            rw [← hreceq]
            exact hrec
          rw [hrec] at hrun₁
          rw [hrec₂] at hrun₂
          refine ⟨hrun₁.trans hrun₂.symm, ?_, ?_⟩
          · intro e' h
            rw [hrun₁] at h
            injection h with h
            rw [← h]
            exact hrecerr e hrec
          · intro minima' h
            rw [hrun₁] at h
            cases h
        · have hrec₂ : smawk_inner f₂ out (oddCols cols) minima = .ok minima₁ := by
            rw [← hreceq]
            exact hrec
          rw [hrec] at hrun₁
          rw [hrec₂] at hrun₂
          obtain ⟨hconqeq, hconqerr, hconqok⟩ := smawkConquer_domain f₁ f₂ out rows
            cols houtsub hf (cols.enum.filter fun p => p.1 % 2 = 0) 0 minima₁
            (fun p hp => snd_mem_of_mem_enum (List.mem_filter.mp hp).1)
          refine ⟨hrun₁.trans (hconqeq.trans hrun₂.symm), ?_, ?_⟩
          · intro e h
            rw [hrun₁] at h
            exact hconqerr e h
          · intro minima' h
            rw [hrun₁] at h
            obtain ⟨hl1, hw1⟩ := hconqok minima' h
            obtain ⟨hl2, hw2⟩ := hrecok minima₁ hrec
            refine ⟨hl1.trans hl2, ?_⟩
            intro j
            rcases hw1 j with h1 | h1
            · rcases hw2 j with h2 | h2
              · exact Or.inl (h1.trans h2)
              · refine Or.inr ?_
                rw [h1]
                exact houtsub _ h2
            · exact Or.inr (houtsub _ h1)
  intro rows cols minima hf
  exact H cols.length rows cols minima le_rfl hf

/-- The merge loop of case 1 of the online engine under the call
discipline: all accessor calls are above the diagonal at bounded indices
with finalized rows, the runs agree, failures are index-out-of-bounds, and
the result covers all merged columns and never shrinks. -/
theorem onlineMergeCols_domain (acc₁ acc₂ : List (Nat × α) → Nat → Nat → α)
    (size finished : Nat)
    (hagree : ∀ res i j, i < j → j < size → i < res.length → acc₁ res i j = acc₂ res i j)
    (hfin : finished < size)
    (minima : List Nat) (hmin : ∀ x ∈ minima, x ≤ finished) :
    ∀ (k c₀ : Nat) (result : List (Nat × α)),
      finished + 1 ≤ result.length →
      finished < c₀ → c₀ + k ≤ size → c₀ ≤ result.length →
      onlineMergeCols acc₁ size finished minima (List.range' c₀ k) result =
        onlineMergeCols acc₂ size finished minima (List.range' c₀ k) result ∧
      (∀ e, onlineMergeCols acc₁ size finished minima (List.range' c₀ k) result =
        .error e → e = .indexOOB) ∧
      (∀ result', onlineMergeCols acc₁ size finished minima (List.range' c₀ k) result =
          .ok result' →
        result.length ≤ result'.length ∧ c₀ + k ≤ result'.length) := by
  intro k
  induction k with
  | zero =>
    intro c₀ result hlen hc₀ hck hc₀len
    rw [List.range'_zero]
    refine ⟨rfl, ?_, ?_⟩
    · intro e h
      cases h
    · intro result' h
      injection h with h
      rw [← h]
      omega
  | succ k ih =>
    intro c₀ result hlen hc₀ hck hc₀len
    rw [List.range'_succ]
    rcases hmget : minima.get? c₀ with - | row
    · have hstep₁ : onlineMergeCols acc₁ size finished minima (c₀ :: List.range' (c₀ + 1) k)
          result = .error .indexOOB := by
        simp only [onlineMergeCols]
        rw [hmget]
      have hstep₂ : onlineMergeCols acc₂ size finished minima (c₀ :: List.range' (c₀ + 1) k)
          result = .error .indexOOB := by
        simp only [onlineMergeCols]
        rw [hmget]
      rw [hstep₁, hstep₂]
      refine ⟨rfl, ?_, ?_⟩
      · intro e h
        injection h with h
        exact h.symm
      · intro result' h
        cases h
    · have hrowfin : row ≤ finished := hmin row (List.get?_mem hmget)
      obtain ⟨honeq, v, hov⟩ := onlineM_domain acc₁ acc₂ size result finished row c₀
        hagree (by omega) (by omega) (by omega) hlen (by omega)
      have hov₂ : onlineM acc₂ size result finished row c₀ = .ok v := by
        rw [← honeq]
        exact hov
      by_cases hpush : c₀ ≥ result.length
      · have hc₀eq : c₀ = result.length := by omega
        have hstep₁ : onlineMergeCols acc₁ size finished minima
            (c₀ :: List.range' (c₀ + 1) k) result =
            onlineMergeCols acc₁ size finished minima (List.range' (c₀ + 1) k)
              (result ++ [(row, v)]) := by
          simp only [onlineMergeCols]
          rw [hmget]
          simp only
          rw [hov]
          simp only
          rw [if_pos hpush]
        have hstep₂ : onlineMergeCols acc₂ size finished minima
            (c₀ :: List.range' (c₀ + 1) k) result =
            onlineMergeCols acc₂ size finished minima (List.range' (c₀ + 1) k)
              (result ++ [(row, v)]) := by
          simp only [onlineMergeCols]
          rw [hmget]
          simp only
          rw [hov₂]
          simp only
          rw [if_pos hpush]
        obtain ⟨hiheq, hiherr, hihok⟩ := ih (c₀ + 1) (result ++ [(row, v)])
          (by rw [List.length_append, List.length_singleton]; omega)
          (by omega) (by omega)
          (by rw [List.length_append, List.length_singleton]; omega)
        rw [hstep₁, hstep₂]
        refine ⟨hiheq, hiherr, ?_⟩
        intro result' h
        obtain ⟨h1, h2⟩ := hihok result' h
        rw [List.length_append, List.length_singleton] at h1
        omega
      · push_neg at hpush
        rcases hrget : result.get? c₀ with - | p
        · exact absurd (List.get?_eq_none.mp hrget) (by omega)
        · by_cases hvlt : v < p.2
          · have hstep₁ : onlineMergeCols acc₁ size finished minima
                (c₀ :: List.range' (c₀ + 1) k) result =
                onlineMergeCols acc₁ size finished minima (List.range' (c₀ + 1) k)
                  (result.set c₀ (row, v)) := by
              simp only [onlineMergeCols]
              rw [hmget]
              simp only
              rw [hov]
              simp only
              rw [if_neg (by omega), hrget]
              simp only
              rw [if_pos hvlt]
            have hstep₂ : onlineMergeCols acc₂ size finished minima
                (c₀ :: List.range' (c₀ + 1) k) result =
                onlineMergeCols acc₂ size finished minima (List.range' (c₀ + 1) k)
                  (result.set c₀ (row, v)) := by
              simp only [onlineMergeCols]
              rw [hmget]
              simp only
              rw [hov₂]
              simp only
              rw [if_neg (by omega), hrget]
              simp only
              rw [if_pos hvlt]
            obtain ⟨hiheq, hiherr, hihok⟩ := ih (c₀ + 1) (result.set c₀ (row, v))
              (by rw [List.length_set]; omega) (by omega) (by omega)
              (by rw [List.length_set]; omega)
            rw [hstep₁, hstep₂]
            refine ⟨hiheq, hiherr, ?_⟩
            intro result' h
            obtain ⟨h1, h2⟩ := hihok result' h
            rw [List.length_set] at h1
            omega
          · have hstep₁ : onlineMergeCols acc₁ size finished minima
                (c₀ :: List.range' (c₀ + 1) k) result =
                onlineMergeCols acc₁ size finished minima (List.range' (c₀ + 1) k)
                  result := by
              simp only [onlineMergeCols]
              rw [hmget]
              simp only
              rw [hov]
              simp only
              rw [if_neg (by omega), hrget]
              simp only
              rw [if_neg hvlt]
            have hstep₂ : onlineMergeCols acc₂ size finished minima
                (c₀ :: List.range' (c₀ + 1) k) result =
                onlineMergeCols acc₂ size finished minima (List.range' (c₀ + 1) k)
                  result := by
              simp only [onlineMergeCols]
              rw [hmget]
              simp only
              rw [hov₂]
              simp only
              rw [if_neg (by omega), hrget]
              simp only
              rw [if_neg hvlt]
            obtain ⟨hiheq, hiherr, hihok⟩ := ih (c₀ + 1) result hlen
              (by omega) (by omega) (by omega)
            rw [hstep₁, hstep₂]
            refine ⟨hiheq, hiherr, ?_⟩
            intro result' h
            obtain ⟨h1, h2⟩ := hihok result' h
            omega

theorem getD_replicate_zero (n p : Nat) : (List.replicate n (0 : Nat)).getD p 0 = 0 := by
  rw [List.getD_eq_getElem?_getD, List.getElem?_replicate]
  split <;> rfl

/-- The main loop of the online engine under the call discipline: two
accessors agreeing above the diagonal (with the row inside the passed
prefix) run identically, and failures are index-out-of-bounds only — the
two assertions of the `m!` macro never fire. -/
theorem onlineLoop_domain (acc₁ acc₂ : List (Nat × α) → Nat → Nat → α) (size : Nat)
    (hagree : ∀ res i j, i < j → j < size → i < res.length → acc₁ res i j = acc₂ res i j) :
    ∀ (n finished base tentative : Nat) (result : List (Nat × α)),
      size - finished ≤ n →
      finished + 1 ≤ result.length →
      base ≤ finished →
      tentative ≤ size - 1 →
      onlineLoop acc₁ size result finished base tentative =
        onlineLoop acc₂ size result finished base tentative ∧
      (∀ e, onlineLoop acc₁ size result finished base tentative = .error e →
        e = .indexOOB) := by
  intro n
  induction n with
  | zero =>
    intro finished base tentative result hn hlen hbase htent
    have hstop : ¬ finished < size - 1 := by omega
    rw [onlineLoop.eq_def, onlineLoop.eq_def, dif_neg hstop, dif_neg hstop]
    refine ⟨rfl, ?_⟩
    intro e h
    cases h
  | succ n ih =>
    intro finished base tentative result hn hlen hbase htent
    by_cases hgo : finished < size - 1
    · by_cases hgt : finished + 1 > tentative
      · -- Case 1: refill via smawk_inner and merge.
        obtain ⟨hineq, hinerr, hinok⟩ := smawk_inner_domain
          (fun i j => onlineM acc₁ size result finished i j)
          (fun i j => onlineM acc₂ size result finished i j)
          (List.range' base (finished + 1 - base))
          (List.range' (finished + 1)
            (min (finished + (finished + 1 - base)) (size - 1) + 1 - (finished + 1)))
          (List.replicate (min (finished + (finished + 1 - base)) (size - 1) + 1) 0)
          (by
            intro r hr c hc
            have hrb := List.mem_range'_1.mp hr
            have hcb := List.mem_range'_1.mp hc
            exact onlineM_domain acc₁ acc₂ size result finished r c hagree
              (by omega) (by omega) (by omega) hlen (by omega))
        rcases hsi : smawk_inner (fun i j => onlineM acc₁ size result finished i j)
            (List.range' base (finished + 1 - base))
            (List.range' (finished + 1)
              (min (finished + (finished + 1 - base)) (size - 1) + 1 - (finished + 1)))
            (List.replicate (min (finished + (finished + 1 - base)) (size - 1) + 1) 0)
          with e | minima
        · have hsi₂ : smawk_inner (fun i j => onlineM acc₂ size result finished i j)
              (List.range' base (finished + 1 - base))
              (List.range' (finished + 1)
                (min (finished + (finished + 1 - base)) (size - 1) + 1 - (finished + 1)))
              (List.replicate (min (finished + (finished + 1 - base)) (size - 1) + 1) 0) =
              .error e := by
            rw [← hineq]
            exact hsi
          have hstep₁ : onlineLoop acc₁ size result finished base tentative =
              .error e := by
            rw [onlineLoop.eq_def, dif_pos hgo]
            simp only [List.length_range']
            rw [if_pos hgt, hsi]
          have hstep₂ : onlineLoop acc₂ size result finished base tentative =
              .error e := by
            rw [onlineLoop.eq_def, dif_pos hgo]
            simp only [List.length_range']
            rw [if_pos hgt, hsi₂]
          rw [hstep₁, hstep₂]
          refine ⟨rfl, ?_⟩
          intro e' h
          injection h with h
          rw [← h]
          exact hinerr e hsi
        · have hsi₂ : smawk_inner (fun i j => onlineM acc₂ size result finished i j)
              (List.range' base (finished + 1 - base))
              (List.range' (finished + 1)
                (min (finished + (finished + 1 - base)) (size - 1) + 1 - (finished + 1)))
              (List.replicate (min (finished + (finished + 1 - base)) (size - 1) + 1) 0) =
              .ok minima := by
            rw [← hineq]
            exact hsi
          have hminfin : ∀ x ∈ minima, x ≤ finished := by
            intro x hx
            obtain ⟨p, hp, hpval⟩ := mem_pos_getD minima x hx
            rcases (hinok minima hsi).2 p with hcase | hcase
            · rw [hpval, getD_replicate_zero] at hcase
              omega
            · rw [hpval] at hcase
              have := List.mem_range'_1.mp hcase
              omega
          obtain ⟨hmgeq, hmgerr, hmgok⟩ := onlineMergeCols_domain acc₁ acc₂ size
            finished hagree (by omega) minima hminfin
            (min (finished + (finished + 1 - base)) (size - 1) + 1 - (finished + 1))
            (finished + 1) result hlen (by omega) (by omega) (by omega)
          rcases hmg : onlineMergeCols acc₁ size finished minima
              (List.range' (finished + 1)
                (min (finished + (finished + 1 - base)) (size - 1) + 1 - (finished + 1)))
              result with e | result'
          · have hmg₂ : onlineMergeCols acc₂ size finished minima
                (List.range' (finished + 1)
                  (min (finished + (finished + 1 - base)) (size - 1) + 1 - (finished + 1)))
                result = .error e := by
              rw [← hmgeq]
              exact hmg
            have hstep₁ : onlineLoop acc₁ size result finished base tentative =
                .error e := by
              rw [onlineLoop.eq_def, dif_pos hgo]
              simp only [List.length_range']
              rw [if_pos hgt, hsi]
              simp only
              rw [hmg]
            have hstep₂ : onlineLoop acc₂ size result finished base tentative =
                .error e := by
              rw [onlineLoop.eq_def, dif_pos hgo]
              simp only [List.length_range']
              rw [if_pos hgt, hsi₂]
              simp only
              rw [hmg₂]
            rw [hstep₁, hstep₂]
            refine ⟨rfl, ?_⟩
            intro e' h
            injection h with h
            rw [← h]
            exact hmgerr e hmg
          · have hmg₂ : onlineMergeCols acc₂ size finished minima
                (List.range' (finished + 1)
                  (min (finished + (finished + 1 - base)) (size - 1) + 1 - (finished + 1)))
                result = .ok result' := by
              rw [← hmgeq]
              exact hmg
            obtain ⟨hr1, hr2⟩ := hmgok result' hmg
            have hstep₁ : onlineLoop acc₁ size result finished base tentative =
                onlineLoop acc₁ size result' (finished + 1) base
                  (min (finished + (finished + 1 - base)) (size - 1)) := by
              rw [onlineLoop.eq_def, dif_pos hgo]
              simp only [List.length_range']
              rw [if_pos hgt, hsi]
              simp only
              rw [hmg]
            have hstep₂ : onlineLoop acc₂ size result finished base tentative =
                onlineLoop acc₂ size result' (finished + 1) base
                  (min (finished + (finished + 1 - base)) (size - 1)) := by
              rw [onlineLoop.eq_def, dif_pos hgo]
              simp only [List.length_range']
              rw [if_pos hgt, hsi₂]
              simp only
              rw [hmg₂]
            rw [hstep₁, hstep₂]
            exact ih (finished + 1) base
              (min (finished + (finished + 1 - base)) (size - 1)) result'
              (by omega) (by omega) (by omega) (by omega)
      · -- Cases 2-4: probe the diagonal, then maybe the tentative column.
        obtain ⟨hdeq, diag, hdok⟩ := onlineM_domain acc₁ acc₂ size result finished
          finished (finished + 1) hagree (by omega) (by omega) (by omega) hlen
          (by omega)
        have hdok₂ : onlineM acc₂ size result finished finished (finished + 1) =
            .ok diag := by
          rw [← hdeq]
          exact hdok
        have hdok' : onlineM acc₁ size result finished (finished + 1 - 1)
            (finished + 1) = .ok diag := by
          rw [show finished + 1 - 1 = finished from rfl]
          exact hdok
        have hdok₂' : onlineM acc₂ size result finished (finished + 1 - 1)
            (finished + 1) = .ok diag := by
          rw [show finished + 1 - 1 = finished from rfl]
          exact hdok₂
        rcases hri : result.get? (finished + 1) with - | pi
        · have hstep₁ : onlineLoop acc₁ size result finished base tentative =
              .error .indexOOB := by
            rw [onlineLoop.eq_def, dif_pos hgo]
            simp only [List.length_range']
            rw [if_neg hgt, hdok']
            simp only
            rw [hri]
          have hstep₂ : onlineLoop acc₂ size result finished base tentative =
              .error .indexOOB := by
            rw [onlineLoop.eq_def, dif_pos hgo]
            simp only [List.length_range']
            rw [if_neg hgt, hdok₂']
            simp only
            rw [hri]
          rw [hstep₁, hstep₂]
          refine ⟨rfl, ?_⟩
          intro e h
          injection h with h
          exact h.symm
        · have hpi : finished + 1 < result.length := (List.get?_eq_some.mp hri).1
          by_cases hdlt : diag < pi.2
          · have hstep₁ : onlineLoop acc₁ size result finished base tentative =
                onlineLoop acc₁ size (result.set (finished + 1)
                  (finished + 1 - 1, diag)) (finished + 1) (finished + 1 - 1)
                  (finished + 1) := by
              rw [onlineLoop.eq_def, dif_pos hgo]
              simp only [List.length_range']
              rw [if_neg hgt, hdok']
              simp only
              rw [hri]
              simp only
              rw [if_pos hdlt]
            have hstep₂ : onlineLoop acc₂ size result finished base tentative =
                onlineLoop acc₂ size (result.set (finished + 1)
                  (finished + 1 - 1, diag)) (finished + 1) (finished + 1 - 1)
                  (finished + 1) := by
              rw [onlineLoop.eq_def, dif_pos hgo]
              simp only [List.length_range']
              rw [if_neg hgt, hdok₂']
              simp only
              rw [hri]
              simp only
              rw [if_pos hdlt]
            rw [hstep₁, hstep₂]
            exact ih (finished + 1) (finished + 1 - 1) (finished + 1)
              (result.set (finished + 1) (finished + 1 - 1, diag))
              (by omega) (by rw [List.length_set]; omega) (by omega) (by omega)
          · obtain ⟨hteq, v, htok⟩ := onlineM_domain acc₁ acc₂ size result finished
              finished tentative hagree (by omega) (by omega) (by omega) hlen
              (by omega)
            have htok₂ : onlineM acc₂ size result finished finished tentative =
                .ok v := by
              rw [← hteq]
              exact htok
            have htok' : onlineM acc₁ size result finished (finished + 1 - 1)
                tentative = .ok v := by
              rw [show finished + 1 - 1 = finished from rfl]
              exact htok
            have htok₂' : onlineM acc₂ size result finished (finished + 1 - 1)
                tentative = .ok v := by
              rw [show finished + 1 - 1 = finished from rfl]
              exact htok₂
            rcases hrt : result.get? tentative with - | pt
            · have hstep₁ : onlineLoop acc₁ size result finished base tentative =
                  .error .indexOOB := by
                rw [onlineLoop.eq_def, dif_pos hgo]
                simp only [List.length_range']
                rw [if_neg hgt, hdok']
                simp only
                rw [hri]
                simp only
                rw [if_neg hdlt, htok']
                simp only
                rw [hrt]
              have hstep₂ : onlineLoop acc₂ size result finished base tentative =
                  .error .indexOOB := by
                rw [onlineLoop.eq_def, dif_pos hgo]
                simp only [List.length_range']
                rw [if_neg hgt, hdok₂']
                simp only
                rw [hri]
                simp only
                rw [if_neg hdlt, htok₂']
                simp only
                rw [hrt]
              rw [hstep₁, hstep₂]
              refine ⟨rfl, ?_⟩
              intro e h
              injection h with h
              exact h.symm
            · by_cases hvge : v ≥ pt.2
              · have hstep₁ : onlineLoop acc₁ size result finished base tentative =
                    onlineLoop acc₁ size result (finished + 1) base tentative := by
                  rw [onlineLoop.eq_def, dif_pos hgo]
                  simp only [List.length_range']
                  rw [if_neg hgt, hdok']
                  simp only
                  rw [hri]
                  simp only
                  rw [if_neg hdlt, htok']
                  simp only
                  rw [hrt]
                  simp only
                  rw [if_pos hvge]
                have hstep₂ : onlineLoop acc₂ size result finished base tentative =
                    onlineLoop acc₂ size result (finished + 1) base tentative := by
                  rw [onlineLoop.eq_def, dif_pos hgo]
                  simp only [List.length_range']
                  rw [if_neg hgt, hdok₂']
                  simp only
                  rw [hri]
                  simp only
                  rw [if_neg hdlt, htok₂']
                  simp only
                  rw [hrt]
                  simp only
                  rw [if_pos hvge]
                rw [hstep₁, hstep₂]
                exact ih (finished + 1) base tentative result (by omega)
                  (by omega) (by omega) (by omega)
              · have hstep₁ : onlineLoop acc₁ size result finished base tentative =
                    onlineLoop acc₁ size result (finished + 1) (finished + 1 - 1)
                      (finished + 1) := by
                  rw [onlineLoop.eq_def, dif_pos hgo]
                  simp only [List.length_range']
                  rw [if_neg hgt, hdok']
                  simp only
                  rw [hri]
                  simp only
                  rw [if_neg hdlt, htok']
                  simp only
                  rw [hrt]
                  simp only
                  rw [if_neg hvge]
                have hstep₂ : onlineLoop acc₂ size result finished base tentative =
                    onlineLoop acc₂ size result (finished + 1) (finished + 1 - 1)
                      (finished + 1) := by
                  rw [onlineLoop.eq_def, dif_pos hgo]
                  simp only [List.length_range']
                  rw [if_neg hgt, hdok₂']
                  simp only
                  rw [hri]
                  simp only
                  rw [if_neg hdlt, htok₂']
                  simp only
                  rw [hrt]
                  simp only
                  rw [if_neg hvge]
                rw [hstep₁, hstep₂]
                exact ih (finished + 1) (finished + 1 - 1) (finished + 1) result
                  (by omega) (by omega) (by omega) (by omega)
    · rw [onlineLoop.eq_def, onlineLoop.eq_def, dif_neg hgo, dif_neg hgo]
      refine ⟨rfl, ?_⟩
      intro e h
      cases h

/-- C7: the online engine never trips its own assertions — its result is
never an assert panic — and it queries the accessor only above the diagonal
(`i < j`), inside the matrix (`j < size`, hence also `i < size`), with the
row argument indexing into the passed prefix of already-finalized entries:
two accessors agreeing on that contract domain produce identical runs. -/
theorem claim_C7 (size : Nat) (hsize : 1 ≤ size) (initial : α)
    (acc acc₁ acc₂ : List (Nat × α) → Nat → Nat → α)
    (hagree : ∀ res i j, i < j → j < size → i < res.length →
      acc₁ res i j = acc₂ res i j) :
    online_column_minima initial size acc ≠ .error .assertDiag ∧
    online_column_minima initial size acc ≠ .error .assertBounds ∧
    online_column_minima initial size acc₁ = online_column_minima initial size acc₂ := by
  obtain ⟨-, herr⟩ := onlineLoop_domain acc acc size
    (fun _ _ _ _ _ _ => rfl) size 0 0 0 [(0, initial)]
    (by omega) (by simp) (by omega) (by omega)
  obtain ⟨heq, -⟩ := onlineLoop_domain acc₁ acc₂ size hagree size 0 0 0 [(0, initial)]
    (by omega) (by simp) (by omega) (by omega)
  refine ⟨?_, ?_, heq⟩
  · intro h
    have hcontra := herr PanicKind.assertDiag h
    exact PanicKind.noConfusion hcontra
  · intro h
    have hcontra := herr PanicKind.assertBounds h
    exact PanicKind.noConfusion hcontra

/-- Witness for C7 at `size = 2` with two accessors that differ only
outside the contract domain. -/
theorem claim_C7_witness :
    (1 : Nat) ≤ 2 ∧
    (∀ (res : List (Nat × Int)) (i j : Nat), i < j → j < 2 → i < res.length →
      (if i < res.length then (0 : Int) else 5) = (0 : Int)) ∧
    (online_column_minima (0 : Int) 2 (fun _ _ _ => (0 : Int)) ≠
        Except.error PanicKind.assertDiag ∧
      online_column_minima (0 : Int) 2 (fun _ _ _ => (0 : Int)) ≠
        Except.error PanicKind.assertBounds ∧
      online_column_minima (0 : Int) 2
          (fun res i j => if i < res.length then (0 : Int) else 5) =
        online_column_minima (0 : Int) 2 (fun _ _ _ => (0 : Int))) :=
  ⟨by decide, fun res i j _ _ h3 => by rw [if_pos h3],
    claim_C7 2 (by decide) 0 (fun _ _ _ => (0 : Int))
      (fun res i j => if i < res.length then (0 : Int) else 5)
      (fun _ _ _ => (0 : Int))
      (fun res i j _ _ h3 => by simp only; rw [if_pos h3])⟩

/-! ### Functional correctness of the online engine -/

/-- Evaluating the `m!` macro under a prefix-independent accessor. -/
theorem onlineM_eval (acc : List (Nat × α) → Nat → Nat → α) (g : Nat → Nat → α)
    (size : Nat) (result : List (Nat × α)) (finished i j : Nat)
    (hacc : ∀ res i j, acc res i j = g i j)
    (hij : i < j) (hjs : j < size) (his : i < size) :
    onlineM acc size result finished i j = .ok (g i j) := by
  unfold onlineM
  rw [if_pos hij, if_pos ⟨his, hjs⟩, hacc]

/-- Full characterisation of the merge loop of case 1: each merged column
gets the minimum of its old entry and the fresh `(row, value)` pair (the
old entry winning ties), all other entries are untouched, and the result
grows exactly to cover the merged columns. -/
theorem onlineMergeCols_spec (acc : List (Nat × α) → Nat → Nat → α)
    (g : Nat → Nat → α) (size finished : Nat)
    (hacc : ∀ res i j, acc res i j = g i j) (minima : List Nat) :
    ∀ (k c₀ : Nat) (result : List (Nat × α)),
      finished < c₀ → c₀ + k ≤ size → c₀ ≤ result.length →
      (∀ col, c₀ ≤ col → col < c₀ + k → ∃ row, minima.get? col = some row ∧
        row ≤ finished) →
      ∃ result', onlineMergeCols acc size finished minima (List.range' c₀ k) result =
          .ok result' ∧
        result'.length = max result.length (c₀ + k) ∧
        (∀ j, j < c₀ ∨ c₀ + k ≤ j → result'.get? j = result.get? j) ∧
        (∀ col row, c₀ ≤ col → col < c₀ + k → minima.get? col = some row →
          (∀ p, result.get? col = some p →
            result'.get? col = some (if g row col < p.2 then (row, g row col) else p)) ∧
          (result.length ≤ col → result'.get? col = some (row, g row col))) := by
  intro k
  induction k with
  | zero =>
    intro c₀ result hc₀ hck hc₀len hrow
    rw [List.range'_zero]
    refine ⟨result, rfl, by omega, fun j _ => rfl, ?_⟩
    intro col row h1 h2
    omega
  | succ k ih =>
    intro c₀ result hc₀ hck hc₀len hrow
    obtain ⟨row, hm, hrf⟩ := hrow c₀ le_rfl (by omega)
    have hone : onlineM acc size result finished row c₀ = .ok (g row c₀) :=
      onlineM_eval acc g size result finished row c₀ hacc (by omega) (by omega) (by omega)
    rw [List.range'_succ]
    by_cases hp : c₀ ≥ result.length
    · have hc₀eq : c₀ = result.length := by omega
      have hstep : onlineMergeCols acc size finished minima
          (c₀ :: List.range' (c₀ + 1) k) result =
          onlineMergeCols acc size finished minima (List.range' (c₀ + 1) k)
            (result ++ [(row, g row c₀)]) := by
        simp only [onlineMergeCols]
        rw [hm]
        simp only
        rw [hone]
        simp only
        rw [if_pos hp]
      obtain ⟨result', hrun, hlen', hunt, hwr⟩ := ih (c₀ + 1) (result ++ [(row, g row c₀)])
        (by omega) (by omega)
        (by rw [List.length_append, List.length_singleton]; omega)
        (fun col h1 h2 => hrow col (by omega) (by omega))
      rw [hstep]
      refine ⟨result', hrun, ?_, ?_, ?_⟩
      · rw [hlen', List.length_append, List.length_singleton]
        omega
      · intro j hj
        rcases hj with hj | hj
        · rw [hunt j (Or.inl (by omega)), List.get?_append (by omega)]
        · rw [hunt j (Or.inr (by omega))]
          have h1 : (result ++ [(row, g row c₀)]).get? j = none :=
            List.get?_eq_none.mpr (by rw [List.length_append, List.length_singleton]; omega)
          have h2 : result.get? j = none := List.get?_eq_none.mpr (by omega)
          rw [h1, h2]
      · intro col row' h1 h2 hm'
        by_cases hcol : col = c₀
        · subst hcol
          have hrow' : row' = row := by
            rw [hm] at hm'
            injection hm' with hinj
            exact hinj.symm
          subst hrow'
          constructor
          · intro p hp'
            rw [List.get?_eq_none.mpr (by omega)] at hp'
            cases hp'
          · intro _
            rw [hunt col (Or.inl (by omega)), List.get?_append_right (by omega),
              hc₀eq, Nat.sub_self]
            rfl
        · have hcol' : c₀ + 1 ≤ col := by omega
          obtain ⟨hw1, hw2⟩ := hwr col row' hcol' (by omega) hm'
          constructor
          · intro p hp'
            rw [List.get?_eq_none.mpr (by omega)] at hp'
            cases hp'
          · intro _
            refine hw2 ?_
            rw [List.length_append, List.length_singleton]
            omega
    · push_neg at hp
      rcases hrget : result.get? c₀ with - | p
      · exact absurd (List.get?_eq_none.mp hrget) (by omega)
      · by_cases hvlt : g row c₀ < p.2
        · have hstep : onlineMergeCols acc size finished minima
              (c₀ :: List.range' (c₀ + 1) k) result =
              onlineMergeCols acc size finished minima (List.range' (c₀ + 1) k)
                (result.set c₀ (row, g row c₀)) := by
            simp only [onlineMergeCols]
            rw [hm]
            simp only
            rw [hone]
            simp only
            rw [if_neg (by omega), hrget]
            simp only
            rw [if_pos hvlt]
          obtain ⟨result', hrun, hlen', hunt, hwr⟩ := ih (c₀ + 1)
            (result.set c₀ (row, g row c₀)) (by omega) (by omega)
            (by rw [List.length_set]; omega)
            (fun col h1 h2 => hrow col (by omega) (by omega))
          rw [hstep]
          refine ⟨result', hrun, ?_, ?_, ?_⟩
          · rw [hlen', List.length_set]
            omega
          · intro j hj
            have hne : c₀ ≠ j := by omega
            rcases hj with hj | hj
            · rw [hunt j (Or.inl (by omega)), List.get?_set_ne _ _ hne]
            · rw [hunt j (Or.inr (by omega)), List.get?_set_ne _ _ hne]
          · intro col row' h1 h2 hm'
            by_cases hcol : col = c₀
            · subst hcol
              have hrow' : row' = row := by
                rw [hm] at hm'
                injection hm' with hinj
                exact hinj.symm
              subst hrow'
              constructor
              · intro p' hp'
                have hpp : p' = p := by
                  rw [hrget] at hp'
                  injection hp' with hinj
                  exact hinj.symm
                subst hpp
                rw [if_pos hvlt, hunt col (Or.inl (by omega)),
                  List.get?_set_eq_of_lt _ (by omega)]
              · intro hcon
                omega
            · obtain ⟨hw1, hw2⟩ := hwr col row' (by omega) (by omega) hm'
              constructor
              · intro p' hp'
                refine (hw1 p' ?_).trans rfl
                rw [List.get?_set_ne _ _ (by omega)]
                exact hp'
              · intro hlencol
                refine hw2 ?_
                rw [List.length_set]
                exact hlencol
        · have hstep : onlineMergeCols acc size finished minima
              (c₀ :: List.range' (c₀ + 1) k) result =
              onlineMergeCols acc size finished minima (List.range' (c₀ + 1) k)
                result := by
            simp only [onlineMergeCols]
            rw [hm]
            simp only
            rw [hone]
            simp only
            rw [if_neg (by omega), hrget]
            simp only
            rw [if_neg hvlt]
          obtain ⟨result', hrun, hlen', hunt, hwr⟩ := ih (c₀ + 1) result
            (by omega) (by omega) (by omega)
            (fun col h1 h2 => hrow col (by omega) (by omega))
          rw [hstep]
          refine ⟨result', hrun, ?_, ?_, ?_⟩
          · rw [hlen']
            omega
          · intro j hj
            rcases hj with hj | hj
            · exact hunt j (Or.inl (by omega))
            · exact hunt j (Or.inr (by omega))
          · intro col row' h1 h2 hm'
            by_cases hcol : col = c₀
            · subst hcol
              have hrow' : row' = row := by
                rw [hm] at hm'
                injection hm' with hinj
                exact hinj.symm
              subst hrow'
              constructor
              · intro p' hp'
                have hpp : p' = p := by
                  rw [hrget] at hp'
                  injection hp' with hinj
                  exact hinj.symm
                subst hpp
                rw [if_neg hvlt, hunt col (Or.inl (by omega))]
                exact hrget
              · intro hcon
                omega
            · exact hwr col row' (by omega) (by omega) hm'

theorem get?_some_getD {β : Type} (l : List β) (t : Nat) (d : β) (ht : t < l.length) :
    l.get? t = some (l.getD t d) := by
  rw [List.getD_eq_getElem?_getD, List.get?_eq_getElem?, List.getElem?_eq_getElem ht]
  rfl

theorem getD_of_get? {β : Type} {l : List β} {t : Nat} {p : β} (d : β)
    (h : l.get? t = some p) : l.getD t d = p := by
  rw [List.getD_eq_getElem?_getD, ← List.get?_eq_getElem?, h]
  rfl

theorem getD_congr_of_get? {β : Type} {l l' : List β} (t : Nat) (d : β)
    (h : l'.get? t = l.get? t) : l'.getD t d = l.getD t d := by
  rw [List.getD_eq_getElem?_getD, List.getD_eq_getElem?_getD, ← List.get?_eq_getElem?,
    ← List.get?_eq_getElem?, h]

theorem getD_set_self₂ {β : Type} (l : List β) (i : Nat) (v d : β) (h : i < l.length) :
    (l.set i v).getD i d = v := by
  rw [List.getD_eq_getElem?_getD, List.getElem?_set_self', List.getElem?_eq_getElem h]
  rfl

theorem getD_set_ne₂ {β : Type} (l : List β) (i j : Nat) (v d : β) (h : i ≠ j) :
    (l.set i v).getD j d = l.getD j d := by
  rw [List.getD_eq_getElem?_getD, List.getD_eq_getElem?_getD, List.getElem?_set_ne h]

theorem listArgmin_val_le (g : Nat → α) (rows : List Nat) (x : Nat) (hx : x ∈ rows) :
    g (listArgmin g rows) ≤ g x := by
  rcases listArgmin_lexLe g rows x hx with h | h
  · injection h with h1 h2
    exact le_of_eq h1
  · rcases h with h | ⟨h, h'⟩
    · exact le_of_lt h
    · exact le_of_eq h

/-- Functional correctness of the main loop of the online engine, by the
joint invariant: entries up to `finished` are final column minima, pending
entries hold a candidate from a sub-range of rows, entries between
`finished` and `tentative` already beat every row in `[base, finished)`,
and every row below `base` is beaten by the relevant pending entry or
dominated by row `base` itself. -/
theorem onlineLoop_correct (acc : List (Nat × α) → Nat → Nat → α) (g : Nat → Nat → α)
    (size : Nat) (initial : α)
    (hacc : ∀ res i j, acc res i j = g i j)
    (htm : ∀ a b c c', a < b → b < c → c < c' → c' < size →
      g a c > g b c → g a c' > g b c') :
    ∀ (n finished base tentative : Nat) (result : List (Nat × α)),
      size - finished ≤ n →
      finished ≤ size - 1 →
      base ≤ finished →
      finished ≤ tentative →
      tentative ≤ size - 1 →
      finished + 1 ≤ result.length →
      tentative + 1 ≤ result.length →
      result.length ≤ size →
      (finished < tentative → base < finished) →
      result.getD 0 (0, initial) = (0, initial) →
      (∀ j, 1 ≤ j → j ≤ finished →
        (result.getD j (0, initial)).1 < j ∧
        (result.getD j (0, initial)).2 = g (result.getD j (0, initial)).1 j ∧
        ∀ i, i < j → (result.getD j (0, initial)).2 ≤ g i j) →
      (∀ j, finished < j → j < result.length →
        (result.getD j (0, initial)).1 < finished ∧
        (result.getD j (0, initial)).2 = g (result.getD j (0, initial)).1 j) →
      (∀ j, finished < j → j ≤ tentative → ∀ i, base ≤ i → i < finished →
        (result.getD j (0, initial)).2 ≤ g i j) →
      (∀ j, finished < j → j < size → ∀ i, i < finished →
        (j < result.length ∧ (result.getD j (0, initial)).2 ≤ g i j) ∨
        base ≤ i ∨ g base j ≤ g i j) →
      ∃ result', onlineLoop acc size result finished base tentative = .ok result' ∧
        result'.length = size ∧
        result'.getD 0 (0, initial) = (0, initial) ∧
        ∀ j, 1 ≤ j → j < size →
          (result'.getD j (0, initial)).1 < j ∧
          (result'.getD j (0, initial)).2 = g (result'.getD j (0, initial)).1 j ∧
          ∀ i, i < j → (result'.getD j (0, initial)).2 ≤ g i j := by
  have tm_le : ∀ a b c c', a < b → b < c → c < c' → c' < size →
      g a c' ≤ g b c' → g a c ≤ g b c := by
    intro a b c c' h1 h2 h3 h4 h5
    by_contra hcon
    push_neg at hcon
    exact absurd (htm a b c c' h1 h2 h3 h4 hcon) (not_lt.mpr h5)
  intro n
  induction n with
  | zero =>
    intro finished base tentative result hn hfin hbase hft htent hlen1 hlen2 hlenS
      haux h0 hfinal hpend hnst hcov
    have hstop : ¬ finished < size - 1 := by omega
    rw [onlineLoop.eq_def, dif_neg hstop]
    refine ⟨result, rfl, by omega, h0, ?_⟩
    intro j hj1 hj2
    exact hfinal j hj1 (by omega)
  | succ n ih =>
    intro finished base tentative result hn hfin hbase hft htent hlen1 hlen2 hlenS
      haux h0 hfinal hpend hnst hcov
    by_cases hgo : finished < size - 1
    · by_cases hgt : tentative < finished + 1
      · -- Case 1: refill the tentative range via smawk_inner + merge.
        obtain ⟨T', hT'eq⟩ : ∃ T', min (finished + (finished + 1 - base)) (size - 1) = T' :=
          ⟨_, rfl⟩
        have hT'1 : finished + 1 ≤ T' := by omega
        have hT'2 : T' ≤ size - 1 := by omega
        obtain ⟨minima, hsi, hminlen, hminunt, hminarg⟩ := smawk_inner_correct g
          (fun i j => onlineM acc size result finished i j)
          (List.range' base (finished + 1 - base))
          (List.range' (finished + 1)
            (T' + 1 - (finished + 1)))
          (List.replicate (T' + 1) 0)
          ((List.pairwise_lt_range' base (finished + 1 - base)).chain')
          (List.length_pos.mp (by rw [List.length_range']; omega))
          ((List.pairwise_lt_range' (finished + 1) _).chain')
          (by
            intro r hr c hc
            have hrb := List.mem_range'_1.mp hr
            have hcb := List.mem_range'_1.mp hc
            exact onlineM_eval acc g size result finished r c hacc (by omega) (by omega)
              (by omega))
          (by
            intro r r' c c' hr hr' hc hc' hrr' hcc' hgtv
            have hrb' := List.mem_range'_1.mp hr'
            have hcb0 := List.mem_range'_1.mp hc
            have hcb' := List.mem_range'_1.mp hc'
            exact htm r r' c c' hrr' (by omega) hcc' (by omega) hgtv)
          (by
            intro c hc
            have hcb := List.mem_range'_1.mp hc
            rw [List.length_replicate]
            omega)
        have hminlen' : minima.length =
            T' + 1 := by
          rw [hminlen, List.length_replicate]
        have hrowmin : ∀ col, finished + 1 ≤ col →
            col < finished + 1 + (T' + 1 -
              (finished + 1)) →
            ∃ row, minima.get? col = some row ∧ row ≤ finished := by
          intro col h1 h2
          refine ⟨minima.getD col 0, get?_eq_getD minima col (by omega), ?_⟩
          rw [hminarg col (List.mem_range'_1.mpr ⟨h1, h2⟩)]
          have hmem := listArgmin_mem (fun x => g x col)
            (List.range' base (finished + 1 - base))
            (List.length_pos.mp (by rw [List.length_range']; omega))
          have := List.mem_range'_1.mp hmem
          omega
        obtain ⟨result', hmg, hlen', hunt', hwr'⟩ := onlineMergeCols_spec acc g size
          finished hacc minima
          (T' + 1 - (finished + 1))
          (finished + 1) result (by omega) (by omega) hlen1 hrowmin
        have hstep : onlineLoop acc size result finished base tentative =
            onlineLoop acc size result' (finished + 1) base
              (T') := by
          rw [onlineLoop.eq_def, dif_pos hgo]
          simp only [List.length_range']
          rw [hT'eq]
          rw [if_pos hgt, hsi]
          simp only
          rw [hmg]
        -- entry bookkeeping
        have hentry_keep : ∀ j, j < finished + 1 ∨
            T' + 1 ≤ j →
            result'.getD j (0, initial) = result.getD j (0, initial) := by
          intro j hj
          refine getD_congr_of_get? j (0, initial) (hunt' j ?_)
          rcases hj with hj | hj
          · exact Or.inl hj
          · exact Or.inr (by omega)
        have hlen'' : result'.length =
            max result.length (T' + 1) := by
          rw [hlen']
          congr 1
          omega
        have hentry_merge : ∀ col, finished + 1 ≤ col →
            col ≤ T' →
            (base ≤ listArgmin (fun x => g x col)
                (List.range' base (finished + 1 - base)) ∧
              listArgmin (fun x => g x col)
                (List.range' base (finished + 1 - base)) ≤ finished) ∧
            ((col < result.length →
              result'.getD col (0, initial) =
                if g (listArgmin (fun x => g x col)
                    (List.range' base (finished + 1 - base))) col <
                    (result.getD col (0, initial)).2 then
                  (listArgmin (fun x => g x col)
                    (List.range' base (finished + 1 - base)),
                    g (listArgmin (fun x => g x col)
                      (List.range' base (finished + 1 - base))) col)
                else result.getD col (0, initial)) ∧
            (result.length ≤ col → result'.getD col (0, initial) =
              (listArgmin (fun x => g x col) (List.range' base (finished + 1 - base)),
                g (listArgmin (fun x => g x col)
                  (List.range' base (finished + 1 - base))) col))) := by
          intro col h1 h2
          have hlamem := listArgmin_mem (fun x => g x col)
            (List.range' base (finished + 1 - base))
            (List.length_pos.mp (by rw [List.length_range']; omega))
          have hlab := List.mem_range'_1.mp hlamem
          have hm : minima.get? col = some (listArgmin (fun x => g x col)
              (List.range' base (finished + 1 - base))) := by
            have h3 := get?_eq_getD minima col (by omega)
            rw [hminarg col (List.mem_range'_1.mpr ⟨h1, by omega⟩)] at h3
            exact h3
          obtain ⟨hw1, hw2⟩ := hwr' col _ h1 (by omega) hm
          refine ⟨⟨hlab.1, by omega⟩, ?_, ?_⟩
          · intro hcl
            exact getD_of_get? (0, initial)
              (hw1 (result.getD col (0, initial)) (get?_some_getD result col (0, initial) hcl))
          · intro hcl
            exact getD_of_get? (0, initial) (hw2 hcl)
        have hval_le : ∀ col, ∀ x, base ≤ x → x ≤ finished →
            g (listArgmin (fun x => g x col) (List.range' base (finished + 1 - base))) col
              ≤ g x col := by
          intro col x hx1 hx2
          exact listArgmin_val_le (fun r => g r col) _ x
            (List.mem_range'_1.mpr ⟨hx1, by omega⟩)
        rw [hstep]
        -- establish the invariant for the recursive call
        refine ih (finished + 1) base (T')
          result' (by omega) (by omega) (by omega) (by omega) (by omega)
          (by omega) (by omega) (by omega) (fun _ => by omega) ?_ ?_ ?_ ?_ ?_
        · rw [hentry_keep 0 (Or.inl (by omega))]
          exact h0
        · -- finalized entries
          intro j hj1 hj2
          rcases Nat.lt_or_ge j (finished + 1) with hjf | hjf
          · rw [hentry_keep j (Or.inl hjf)]
            exact hfinal j hj1 (by omega)
          · have hjeq : j = finished + 1 := by omega
            subst hjeq
            obtain ⟨⟨hla1, hla2⟩, hw1, hw2⟩ := hentry_merge (finished + 1) le_rfl (by omega)
            by_cases hcl : finished + 1 < result.length
            · obtain ⟨hpf1, hpf2⟩ := hpend (finished + 1) (by omega) hcl
              rw [hw1 hcl]
              by_cases hlt : g (listArgmin (fun x => g x (finished + 1))
                  (List.range' base (finished + 1 - base))) (finished + 1) <
                  (result.getD (finished + 1) (0, initial)).2
              · rw [if_pos hlt]
                refine ⟨by omega, rfl, ?_⟩
                intro i hi
                rcases Nat.lt_or_ge i base with hib | hib
                · rcases hcov (finished + 1) (by omega) (by omega) i (by omega) with
                    ⟨hc1, hc2⟩ | hc | hc
                  · exact le_of_lt (lt_of_lt_of_le hlt hc2)
                  · omega
                  · exact le_trans (hval_le (finished + 1) base le_rfl hbase) hc
                · exact hval_le (finished + 1) i hib (by omega)
              · rw [if_neg hlt]
                push_neg at hlt
                refine ⟨by omega, hpf2, ?_⟩
                intro i hi
                rcases Nat.lt_or_ge i base with hib | hib
                · rcases hcov (finished + 1) (by omega) (by omega) i (by omega) with
                    ⟨hc1, hc2⟩ | hc | hc
                  · exact hc2
                  · omega
                  · exact le_trans (le_trans hlt
                      (hval_le (finished + 1) base le_rfl hbase)) hc
                · exact le_trans hlt (hval_le (finished + 1) i hib (by omega))
            · push_neg at hcl
              rw [hw2 (by omega)]
              refine ⟨by omega, rfl, ?_⟩
              intro i hi
              rcases Nat.lt_or_ge i base with hib | hib
              · rcases hcov (finished + 1) (by omega) (by omega) i (by omega) with
                  ⟨hc1, hc2⟩ | hc | hc
                · omega
                · omega
                · exact le_trans (hval_le (finished + 1) base le_rfl hbase) hc
              · exact hval_le (finished + 1) i hib (by omega)
        · -- pending form
          intro j hj1 hj2
          rcases Nat.lt_or_ge (T') j with
            hjT | hjT
          · have hjlen : j < result.length := by
              rw [hlen''] at hj2
              omega
            rw [hentry_keep j (Or.inr (by omega))]
            obtain ⟨hp1, hp2⟩ := hpend j (by omega) hjlen
            exact ⟨by omega, hp2⟩
          · obtain ⟨⟨hla1, hla2⟩, hw1, hw2⟩ := hentry_merge j (by omega) hjT
            by_cases hcl : j < result.length
            · obtain ⟨hp1, hp2⟩ := hpend j (by omega) hcl
              rw [hw1 hcl]
              by_cases hlt : g (listArgmin (fun x => g x j)
                  (List.range' base (finished + 1 - base))) j <
                  (result.getD j (0, initial)).2
              · rw [if_pos hlt]
                exact ⟨by omega, rfl⟩
              · rw [if_neg hlt]
                exact ⟨by omega, hp2⟩
            · push_neg at hcl
              rw [hw2 hcl]
              exact ⟨by omega, rfl⟩
        · -- nonstale coverage
          intro j hj1 hj2 i hi1 hi2
          obtain ⟨⟨hla1, hla2⟩, hw1, hw2⟩ := hentry_merge j (by omega) (by omega)
          by_cases hcl : j < result.length
          · rw [hw1 hcl]
            by_cases hlt : g (listArgmin (fun x => g x j)
                (List.range' base (finished + 1 - base))) j <
                (result.getD j (0, initial)).2
            · rw [if_pos hlt]
              exact hval_le j i hi1 (by omega)
            · rw [if_neg hlt]
              push_neg at hlt
              exact le_trans hlt (hval_le j i hi1 (by omega))
          · push_neg at hcl
            rw [hw2 hcl]
            exact hval_le j i hi1 (by omega)
        · -- dominance below base
          intro j hj1 hj2 i hi
          rcases Nat.lt_or_ge i finished with hif | hif
          · rcases hcov j (by omega) hj2 i hif with ⟨hc1, hc2⟩ | hc | hc
            · refine Or.inl ⟨by rw [hlen'']; omega, ?_⟩
              rcases Nat.lt_or_ge (T') j
                with hjT | hjT
              · rw [hentry_keep j (Or.inr (by omega))]
                exact hc2
              · obtain ⟨⟨hla1, hla2⟩, hw1, hw2⟩ := hentry_merge j (by omega) hjT
                rw [hw1 hc1]
                by_cases hlt : g (listArgmin (fun x => g x j)
                    (List.range' base (finished + 1 - base))) j <
                    (result.getD j (0, initial)).2
                · rw [if_pos hlt]
                  exact le_of_lt (lt_of_lt_of_le hlt hc2)
                · rw [if_neg hlt]
                  exact hc2
            · exact Or.inr (Or.inl hc)
            · exact Or.inr (Or.inr hc)
          · exact Or.inr (Or.inl (by omega))
      · -- Cases 2-4: the tentative range is still ahead.
        push_neg at hgt
        have hdiag : onlineM acc size result finished (finished + 1 - 1) (finished + 1) =
            .ok (g finished (finished + 1)) := by
          rw [show finished + 1 - 1 = finished from rfl]
          exact onlineM_eval acc g size result finished finished (finished + 1) hacc
            (by omega) (by omega) (by omega)
        have hrilt : finished + 1 < result.length := by omega
        have hri : result.get? (finished + 1) =
            some (result.getD (finished + 1) (0, initial)) :=
          get?_some_getD result (finished + 1) (0, initial) hrilt
        obtain ⟨hpi1, hpi2⟩ := hpend (finished + 1) (by omega) hrilt
        have hbasefin : base < finished := haux (by omega)
        -- every row strictly below `finished` is beaten at column `finished + 1`
        have hbeat : ∀ i, i < finished →
            (result.getD (finished + 1) (0, initial)).2 ≤ g i (finished + 1) := by
          intro i hi
          rcases Nat.lt_or_ge i base with hib | hib
          · rcases hcov (finished + 1) (by omega) (by omega) i hi with ⟨hc1, hc2⟩ | hc | hc
            · exact hc2
            · omega
            · exact le_trans (hnst (finished + 1) (by omega) (by omega) base le_rfl
                hbasefin) hc
          · exact hnst (finished + 1) (by omega) (by omega) i hib hi
        by_cases hdlt : g finished (finished + 1) <
            (result.getD (finished + 1) (0, initial)).2
        · -- Case 2: new column minimum on the diagonal.
          have hstep : onlineLoop acc size result finished base tentative =
              onlineLoop acc size
                (result.set (finished + 1) (finished + 1 - 1, g finished (finished + 1)))
                (finished + 1) (finished + 1 - 1) (finished + 1) := by
            rw [onlineLoop.eq_def, dif_pos hgo]
            simp only [List.length_range']
            rw [if_neg (by omega), hdiag]
            simp only
            rw [hri]
            simp only
            rw [if_pos hdlt]
          have hself : ∀ j, (result.set (finished + 1)
              (finished + 1 - 1, g finished (finished + 1))).getD j (0, initial) =
              if j = finished + 1 ∧ finished + 1 < result.length then
                (finished, g finished (finished + 1))
              else result.getD j (0, initial) := by
            intro j
            by_cases hj : j = finished + 1
            · subst hj
              rw [if_pos ⟨rfl, hrilt⟩,
                getD_set_self₂ result (finished + 1) _ (0, initial) hrilt]
              rfl
            · rw [if_neg (by tauto), getD_set_ne₂ result (finished + 1) j _ (0, initial)
                (fun hc => hj hc.symm)]
          rw [hstep]
          refine ih (finished + 1) (finished + 1 - 1) (finished + 1)
            (result.set (finished + 1) (finished + 1 - 1, g finished (finished + 1)))
            (by omega) (by omega) (by omega) (by omega) (by omega)
            (by rw [List.length_set]; omega) (by rw [List.length_set]; omega)
            (by rw [List.length_set]; omega) (fun h => absurd h (by omega)) ?_ ?_ ?_ ?_ ?_
          · rw [hself 0, if_neg (by omega)]
            exact h0
          · intro j hj1 hj2
            rcases Nat.lt_or_ge j (finished + 1) with hjf | hjf
            · rw [hself j, if_neg (by omega)]
              exact hfinal j hj1 (by omega)
            · have hjeq : j = finished + 1 := by omega
              subst hjeq
              rw [hself (finished + 1), if_pos ⟨rfl, hrilt⟩]
              refine ⟨by omega, rfl, ?_⟩
              intro i hi
              rcases Nat.lt_or_ge i finished with hif | hif
              · exact le_of_lt (lt_of_lt_of_le hdlt (hbeat i hif))
              · have hieq : finished = i := by omega
                subst hieq
                exact le_rfl
          · intro j hj1 hj2
            rw [List.length_set] at hj2
            rw [hself j, if_neg (by omega)]
            obtain ⟨hp1, hp2⟩ := hpend j (by omega) hj2
            exact ⟨by omega, hp2⟩
          · intro j hj1 hj2
            omega
          · intro j hj1 hj2 i hi
            rcases Nat.lt_or_ge i finished with hif | hif
            · -- all rows below `finished` lose to it from column `finished + 1` on
              refine Or.inr (Or.inr ?_)
              have hlose : g i (finished + 1) > g finished (finished + 1) :=
                lt_of_lt_of_le hdlt (hbeat i hif)
              have := htm i finished (finished + 1) j hif (by omega) (by omega)
                (by omega) hlose
              rw [show finished + 1 - 1 = finished from rfl]
              exact le_of_lt this
            · exact Or.inr (Or.inl (by omega))
        · -- Cases 3-4: probe the tentative column.
          push_neg at hdlt
          have hvt : onlineM acc size result finished (finished + 1 - 1) tentative =
              .ok (g finished tentative) := by
            rw [show finished + 1 - 1 = finished from rfl]
            exact onlineM_eval acc g size result finished finished tentative hacc
              (by omega) (by omega) (by omega)
          have hrtlt : tentative < result.length := by omega
          have hrt : result.get? tentative =
              some (result.getD tentative (0, initial)) :=
            get?_some_getD result tentative (0, initial) hrtlt
          obtain ⟨hpt1, hpt2⟩ := hpend tentative (by omega) hrtlt
          -- the newly finalized entry `finished + 1` is correct in both cases
          have hfin_new : (result.getD (finished + 1) (0, initial)).1 < finished + 1 ∧
              (result.getD (finished + 1) (0, initial)).2 =
                g (result.getD (finished + 1) (0, initial)).1 (finished + 1) ∧
              ∀ i, i < finished + 1 →
                (result.getD (finished + 1) (0, initial)).2 ≤ g i (finished + 1) := by
            refine ⟨by omega, hpi2, ?_⟩
            intro i hi
            rcases Nat.lt_or_ge i finished with hif | hif
            · exact hbeat i hif
            · have hieq : finished = i := by omega
              subst hieq
              exact hdlt
          by_cases hvge : g finished tentative ≥ (result.getD tentative (0, initial)).2
          · -- Case 3: row `finished` supplies no minimum up to `tentative`.
            have hstep : onlineLoop acc size result finished base tentative =
                onlineLoop acc size result (finished + 1) base tentative := by
              rw [onlineLoop.eq_def, dif_pos hgo]
              simp only [List.length_range']
              rw [if_neg (by omega), hdiag]
              simp only
              rw [hri]
              simp only
              rw [if_neg (not_lt.mpr hdlt), hvt]
              simp only
              rw [hrt]
              simp only
              rw [if_pos hvge]
            rw [hstep]
            refine ih (finished + 1) base tentative result (by omega) (by omega)
              (by omega) (by omega) (by omega) (by omega) (by omega) (by omega)
              (fun _ => by omega) h0 ?_ ?_ ?_ ?_
            · intro j hj1 hj2
              rcases Nat.lt_or_ge j (finished + 1) with hjf | hjf
              · exact hfinal j hj1 (by omega)
              · have hjeq : j = finished + 1 := by omega
                subst hjeq
                exact hfin_new
            · intro j hj1 hj2
              obtain ⟨hp1, hp2⟩ := hpend j (by omega) hj2
              exact ⟨by omega, hp2⟩
            · intro j hj1 hj2 i hi1 hi2
              rcases Nat.lt_or_ge i finished with hif | hif
              · exact hnst j (by omega) hj2 i hi1 hif
              · have hieq : finished = i := by omega
                subst hieq
                -- row `finished` is beaten by the old champion of `tentative`
                rcases Nat.lt_or_ge j tentative with hjT | hjT
                · have hr1 : (result.getD tentative (0, initial)).1 < finished := hpt1
                  have hle1 : g (result.getD tentative (0, initial)).1 tentative ≤
                      g finished tentative := by
                    rw [← hpt2]
                    exact hvge
                  have hle2 : g (result.getD tentative (0, initial)).1 j ≤
                      g finished j :=
                    tm_le _ finished j tentative hr1 (by omega) hjT (by omega) hle1
                  refine le_trans ?_ hle2
                  rcases Nat.lt_or_ge (result.getD tentative (0, initial)).1 base with
                    hib | hib
                  · rcases hcov j (by omega) (by omega)
                      (result.getD tentative (0, initial)).1 hr1 with
                      ⟨hc1, hc2⟩ | hc | hc
                    · exact hc2
                    · omega
                    · exact le_trans (hnst j (by omega) (by omega) base le_rfl
                        (haux (by omega))) hc
                  · exact hnst j (by omega) (by omega) _ hib hr1
                · have hjeq : j = tentative := by omega
                  subst hjeq
                  rw [hpt2] at hvge
                  rw [hpt2]
                  exact hvge
            · intro j hj1 hj2 i hi
              rcases Nat.lt_or_ge i finished with hif | hif
              · rcases hcov j (by omega) hj2 i hif with ⟨hc1, hc2⟩ | hc | hc
                · exact Or.inl ⟨hc1, hc2⟩
                · exact Or.inr (Or.inl hc)
                · exact Or.inr (Or.inr hc)
              · exact Or.inr (Or.inl (by omega))
          · -- Case 4: a new column minimum at `tentative`.
            push_neg at hvge
            have hstep : onlineLoop acc size result finished base tentative =
                onlineLoop acc size result (finished + 1) (finished + 1 - 1)
                  (finished + 1) := by
              rw [onlineLoop.eq_def, dif_pos hgo]
              simp only [List.length_range']
              rw [if_neg (by omega), hdiag]
              simp only
              rw [hri]
              simp only
              rw [if_neg (not_lt.mpr hdlt), hvt]
              simp only
              rw [hrt]
              simp only
              rw [if_neg (not_le.mpr hvge)]
            -- row `finished` beats every smaller row at column `tentative`
            have hloseT : ∀ i, i < finished → g finished tentative < g i tentative := by
              intro i hi
              refine lt_of_lt_of_le hvge ?_
              rcases Nat.lt_or_ge i base with hib | hib
              · rcases hcov tentative (by omega) (by omega) i hi with
                  ⟨hc1, hc2⟩ | hc | hc
                · exact hc2
                · omega
                · exact le_trans (hnst tentative (by omega) le_rfl base le_rfl
                    (haux (by omega))) hc
              · exact hnst tentative (by omega) le_rfl i hib hi
            rw [hstep]
            refine ih (finished + 1) (finished + 1 - 1) (finished + 1) result
              (by omega) (by omega) (by omega) (by omega) (by omega) (by omega)
              (by omega) (by omega) (fun h => absurd h (by omega)) h0 ?_ ?_ ?_ ?_
            · intro j hj1 hj2
              rcases Nat.lt_or_ge j (finished + 1) with hjf | hjf
              · exact hfinal j hj1 (by omega)
              · have hjeq : j = finished + 1 := by omega
                subst hjeq
                exact hfin_new
            · intro j hj1 hj2
              obtain ⟨hp1, hp2⟩ := hpend j (by omega) hj2
              exact ⟨by omega, hp2⟩
            · intro j hj1 hj2
              omega
            · intro j hj1 hj2 i hi
              rw [show finished + 1 - 1 = finished from rfl]
              rcases Nat.lt_or_ge i finished with hif | hif
              · rcases Nat.lt_or_ge tentative j with hjT | hjT
                · -- beyond `tentative`: transfer the strict loss
                  refine Or.inr (Or.inr ?_)
                  exact le_of_lt (htm i finished tentative j hif (by omega) hjT
                    (by omega) (hloseT i hif))
                · -- up to `tentative`: the pending entry still beats row `i`
                  refine Or.inl ⟨by omega, ?_⟩
                  rcases Nat.lt_or_ge i base with hib | hib
                  · rcases hcov j (by omega) (by omega) i hif with
                      ⟨hc1, hc2⟩ | hc | hc
                    · exact hc2
                    · omega
                    · exact le_trans (hnst j (by omega) (by omega) base le_rfl
                        (haux (by omega))) hc
                  · exact hnst j (by omega) (by omega) i hib hif
              · exact Or.inr (Or.inl (by omega))
    · have hstop : ¬ finished < size - 1 := hgo
      rw [onlineLoop.eq_def, dif_neg hstop]
      refine ⟨result, rfl, by omega, h0, ?_⟩
      intro j hj1 hj2
      exact hfinal j hj1 (by omega)

/-- C2: for every size ≥ 1, every initial value, and every accessor
representing a fixed matrix `g` whose above-diagonal region is totally
monotone, the online engine returns exactly `size` pairs: entry `0` is
`(0, initial)` and entry `j` (for `1 ≤ j < size`) is a pair `(i_j, v_j)`
with `i_j < j`, `v_j = g i_j j`, and `v_j` minimal among `g i j` for
`i < j`. -/
theorem claim_C2 (size : Nat) (hsize : 1 ≤ size) (initial : α)
    (acc : List (Nat × α) → Nat → Nat → α) (g : Nat → Nat → α)
    (hacc : ∀ res i j, acc res i j = g i j)
    (htm : ∀ i i' j j', i < i' → i' < j → j < j' → j' < size →
      (g i j > g i j' → g i' j > g i' j') ∧ (g i j > g i' j → g i j' > g i' j')) :
    ∃ res, online_column_minima initial size acc = .ok res ∧
      res.length = size ∧
      res.getD 0 (0, initial) = (0, initial) ∧
      ∀ j, 1 ≤ j → j < size →
        (res.getD j (0, initial)).1 < j ∧
        (res.getD j (0, initial)).2 = g (res.getD j (0, initial)).1 j ∧
        ∀ i, i < j → (res.getD j (0, initial)).2 ≤ g i j := by
  have htm' : ∀ a b c c', a < b → b < c → c < c' → c' < size →
      g a c > g b c → g a c' > g b c' :=
    fun a b c c' h1 h2 h3 h4 h5 => (htm a b c c' h1 h2 h3 h4).2 h5
  exact onlineLoop_correct acc g size initial hacc htm' size 0 0 0 [(0, initial)]
    (by omega) (by omega) (by omega) (by omega) (by omega) (by simp) (by simp)
    (by simp; omega) (fun h => absurd h (lt_irrefl 0)) rfl
    (fun j hj1 hj2 => absurd (lt_of_lt_of_le hj1 hj2) (lt_irrefl 0))
    (fun j hj1 hj2 => by simp at hj2; omega)
    (fun j hj1 hj2 i hi1 hi2 => absurd hi2 (by omega))
    (fun j hj1 hj2 i hi => absurd hi (by omega))

/-- Witness for C2 at `size = 3` with the constant-rows matrix
`g i j = i` (every above-diagonal 2✕2 window is totally monotone), where
each column minimum is attained at row 0. -/
theorem claim_C2_witness :
    (1 : Nat) ≤ 3 ∧
    (∀ (res : List (Nat × Int)) (i j : Nat),
      (fun (_ : List (Nat × Int)) (i _ : Nat) => (i : Int)) res i j =
        (fun (i _ : Nat) => (i : Int)) i j) ∧
    (∃ res, online_column_minima (7 : Int) 3
        (fun (_ : List (Nat × Int)) (i _ : Nat) => (i : Int)) = .ok res ∧
      res.length = 3 ∧
      res.getD 0 (0, (7 : Int)) = (0, (7 : Int)) ∧
      ∀ j, 1 ≤ j → j < 3 →
        (res.getD j (0, (7 : Int))).1 < j ∧
        (res.getD j (0, (7 : Int))).2 =
          (fun (i _ : Nat) => (i : Int)) (res.getD j (0, (7 : Int))).1 j ∧
        ∀ i, i < j → (res.getD j (0, (7 : Int))).2 ≤ (fun (i _ : Nat) => (i : Int)) i j) :=
  ⟨by decide, fun res i j => rfl,
    claim_C2 3 (by decide) 7 (fun _ i _ => (i : Int)) (fun i _ => (i : Int))
      (fun res i j => rfl)
      (fun i i' j j' h1 h2 h3 h4 =>
        ⟨fun h => absurd h (lt_irrefl _),
         fun h => by
          simp only at h ⊢
          exact_mod_cast Nat.lt_of_lt_of_le (by exact_mod_cast h) le_rfl⟩)⟩

end Smawk
